import Mathlib

/-!
Verification of the sealed-block protection core of `thonny-sealed`.

The Python source (`thonnycontrib/thonny_sealed/__init__.py` and
`thonny_seal/main.py`) is embedded shallowly:

* text is a `List Char`; a line is a `List Char` without `'\n'`;
* a live buffer is a `TextBuffer`: its text plus the list of tagged
  ranges `(start, end)` given as character offsets (tkinter index
  `"1.0"` is offset `0`, `index+1c` is offset `+1`, and tkinter's
  `tag_prevrange` / `tag_nextrange` become list searches);
* the marker-line regular expressions are embedded as a deterministic
  character-list matcher (`seal_match_core`);
* MD5 is implemented in full so that fingerprints can be computed.
-/

/-- ASCII whitespace characters matched by Python's `\s` (the lines
handled here never contain non-ASCII whitespace). -/
def isPySpace (c : Char) : Bool :=
  c = ' ' || c = '\t' || c = '\n' || c = '\r' || c = '\x0b' || c = '\x0c'

/-- Python `str.strip()`. -/
def pyStrip (l : List Char) : List Char :=
  ((l.dropWhile isPySpace).reverse.dropWhile isPySpace).reverse

/-- Python `str.rstrip()`. -/
def pyRstrip (l : List Char) : List Char :=
  (l.reverse.dropWhile isPySpace).reverse

/-- Does the list start with the given word? -/
def startsWithWord : List Char → List Char → Bool
  | [], _ => true
  | _ :: _, [] => false
  | c :: w, d :: l => c = d && startsWithWord w l

/-- Strip the first of the given keywords that is a prefix of `l`,
returning the remainder. -/
def stripAnyKeyword : List (List Char) → List Char → Option (List Char)
  | [], _ => none
  | kw :: kws, l =>
    if startsWithWord kw l then some (l.drop kw.length) else stripAnyKeyword kws l

/-- The three casings of the `sealed` keyword accepted by the marker
regular expressions. -/
def sealedKeywords : List (List Char) :=
  ["sealed".toList, "Sealed".toList, "SEALED".toList]

/-- The three casings of `on` (start marker). -/
def onKeywords : List (List Char) := ["on".toList, "On".toList, "ON".toList]

/-- The three casings of `off` (end marker). -/
def offKeywords : List (List Char) := ["off".toList, "Off".toList, "OFF".toList]

/-- The separator `\s*(:|\s)\s*` between `sealed` and `on`/`off`:
either a colon (with optional surrounding whitespace) or at least one
whitespace character.  Returns the remainder after the separator. -/
def afterSeparator (l : List Char) : Option (List Char) :=
  let w := l.takeWhile isPySpace
  match l.dropWhile isPySpace with
  | c :: r2 =>
    if c = ':' then some (r2.dropWhile isPySpace)
    else if w.isEmpty then none else some (c :: r2)
  | [] => if w.isEmpty then none else some []

/-- The trailing group `(\s*|\s+.*)?$`: it matches exactly when the
rest of the line is empty or starts with a whitespace character, and
captures the whole rest. -/
def suffixRest : List Char → Option (List Char)
  | [] => some []
  | c :: r => if isPySpace c then some (c :: r) else none

/-- Core of the marker-line regular expressions
`^\s*#\s*(sealed|Sealed|SEALED)\s*(:|\s)\s*(on|On|ON)(\s*|\s+.*)?$`
(`endKws` selects `on` or `off` casings).  Returns the remainder after
the matched `prefix` group, i.e. the `suffix` group. -/
def seal_match_core (endKws : List (List Char)) (line : List Char) : Option (List Char) :=
  match (line.dropWhile isPySpace) with
  | c :: r1 =>
    if c = '#' then
      match stripAnyKeyword sealedKeywords (r1.dropWhile isPySpace) with
      | none => none
      | some r3 =>
        match afterSeparator r3 with
        | none => none
        | some r5 =>
          match stripAnyKeyword endKws r5 with
          | none => none
          | some r6 => suffixRest r6
    else none
  | [] => none

/-- Match a marker line, returning the captured `(prefix, suffix)`
groups, like `COMMENT_FIRST_RE.match` / `COMMENT_LAST_RE.match`. -/
def seal_match (endKws : List (List Char)) (line : List Char) :
    Option (List Char × List Char) :=
  match seal_match_core endKws line with
  | none => none
  | some sfx => some (line.take (line.length - sfx.length), sfx)

/-- The kind of a seal marker: `First` (start, keyword `on`) or
`Last` (end, keyword `off`). -/
inductive MarkerKind where
  | first : MarkerKind
  | last : MarkerKind
deriving DecidableEq, Repr

/-- A `SealMarker`: line index (0-based), kind, matched comment
prefix, and the optional trimmed fingerprint suffix. -/
structure SealMarker where
  lineno : Nat
  kind : MarkerKind
  pfx : List Char
  sfx : Option (List Char)
deriving DecidableEq, Repr

/-- One line of `extract_markers`, at `lineno`: try the start pattern
first, then the end pattern. -/
def markerOfLine (lineno : Nat) (line : List Char) : Option SealMarker :=
  match seal_match onKeywords line with
  | some (p, s) => some ⟨lineno, MarkerKind.first, p, some (pyStrip s)⟩
  | none =>
    match seal_match offKeywords line with
    | some (p, s) => some ⟨lineno, MarkerKind.last, p, some (pyStrip s)⟩
    | none => none

/-- Helper for `extract_markers`: scan lines from index `i`. -/
def extract_markers_from (i : Nat) : List (List Char) → List SealMarker
  | [] => []
  | line :: rest =>
    match markerOfLine i line with
    | some m => m :: extract_markers_from (i + 1) rest
    | none => extract_markers_from (i + 1) rest

/-- Embeds `extract_markers`: go over lines and extract the markers. -/
def extract_markers (lines : List (List Char)) : List SealMarker :=
  extract_markers_from 0 lines

/-- A sealed block: its start and end markers. -/
structure Block where
  first : SealMarker
  last : SealMarker
deriving DecidableEq, Repr

/-- Decimal representation of a 1-based line number, used in error
messages. -/
def lineRef (lineno : Nat) : String := Nat.repr (lineno + 1)

/-- The suffix-consistency check of `parse_blocks` between an open
start marker and an end marker: `none` if consistent, an error
otherwise. -/
def suffixCheck (f m : SealMarker) : Option String :=
  match f.sfx, m.sfx with
  | none, some s =>
    some ("The suffix of the sealing block at line " ++ lineRef f.lineno ++
      " contains no hash suffix, but the hash suffix of the block at line " ++
      lineRef m.lineno ++ " is: " ++ String.mk s)
  | some s, none =>
    some ("The suffix of the sealing block at line " ++ lineRef f.lineno ++
      " contains the hash suffix " ++ String.mk s ++
      ", but there is no suffix at the end of the block at line " ++
      lineRef m.lineno ++ ".")
  | some s1, some s2 =>
    if s1 = s2 then none
    else
      some ("The suffix of the sealing block at line " ++ lineRef f.lineno ++
        " contains the hash suffix " ++ String.mk s1 ++
        ", but the suffix at the end of the block at line " ++
        lineRef m.lineno ++ " does not match it: " ++ String.mk s2)
  | none, none => none

/-- The single pass of `parse_blocks`: state is the currently open
start marker (or none) plus the blocks accumulated so far. -/
def parse_blocks_loop (acc : List Block) (open? : Option SealMarker) :
    List SealMarker → Option (List Block) × Option String
  | [] =>
    match open? with
    | some f =>
      (none, some ("Unexpected open block at the end. The block started at line " ++
        lineRef f.lineno ++ "."))
    | none => (some acc, none)
  | m :: rest =>
    match m.kind with
    | MarkerKind.first =>
      match open? with
      | none => parse_blocks_loop acc (some m) rest
      | some f =>
        (none, some ("Unexpected double start of a sealing block at line " ++
          lineRef m.lineno ++ ". The previous block started at line " ++
          lineRef f.lineno ++ "."))
    | MarkerKind.last =>
      match open? with
      | none =>
        (none, some ("Unexpected end of a sealing block at line " ++
          lineRef m.lineno ++ " without a starting comment."))
      | some f =>
        match suffixCheck f m with
        | some err => (none, some err)
        | none => parse_blocks_loop (acc ++ [⟨f, m⟩]) none rest

/-- Embeds `parse_blocks`: parse the blocks from the given markers, returning
`(list of blocks, error if any)`. -/
def parse_blocks (markers : List SealMarker) : Option (List Block) × Option String :=
  parse_blocks_loop [] none markers

/-! ### MD5 (needed for fingerprints) -/

/-- Truncation to 32 bits. -/
def u32 (n : Nat) : Nat := n % 4294967296

/-- Left rotation of a 32-bit word (`x < 2^32`). -/
def rotl32 (x n : Nat) : Nat := u32 (x <<< n) ||| (x >>> (32 - n))

/-- The 64 MD5 sine-derived constants. -/
def md5K : List Nat :=
  [0xd76aa478, 0xe8c7b756, 0x242070db, 0xc1bdceee,
   0xf57c0faf, 0x4787c62a, 0xa8304613, 0xfd469501,
   0x698098d8, 0x8b44f7af, 0xffff5bb1, 0x895cd7be,
   0x6b901122, 0xfd987193, 0xa679438e, 0x49b40821,
   0xf61e2562, 0xc040b340, 0x265e5a51, 0xe9b6c7aa,
   0xd62f105d, 0x02441453, 0xd8a1e681, 0xe7d3fbc8,
   0x21e1cde6, 0xc33707d6, 0xf4d50d87, 0x455a14ed,
   0xa9e3e905, 0xfcefa3f8, 0x676f02d9, 0x8d2a4c8a,
   0xfffa3942, 0x8771f681, 0x6d9d6122, 0xfde5380c,
   0xa4beea44, 0x4bdecfa9, 0xf6bb4b60, 0xbebfbc70,
   0x289b7ec6, 0xeaa127fa, 0xd4ef3085, 0x04881d05,
   0xd9d4d039, 0xe6db99e5, 0x1fa27cf8, 0xc4ac5665,
   0xf4292244, 0x432aff97, 0xab9423a7, 0xfc93a039,
   0x655b59c3, 0x8f0ccc92, 0xffeff47d, 0x85845dd1,
   0x6fa87e4f, 0xfe2ce6e0, 0xa3014314, 0x4e0811a1,
   0xf7537e82, 0xbd3af235, 0x2ad7d2bb, 0xeb86d391]

/-- The per-round left-rotation amounts. -/
def md5S : List Nat :=
  [7, 12, 17, 22, 7, 12, 17, 22, 7, 12, 17, 22, 7, 12, 17, 22,
   5, 9, 14, 20, 5, 9, 14, 20, 5, 9, 14, 20, 5, 9, 14, 20,
   4, 11, 16, 23, 4, 11, 16, 23, 4, 11, 16, 23, 4, 11, 16, 23,
   6, 10, 15, 21, 6, 10, 15, 21, 6, 10, 15, 21, 6, 10, 15, 21]

/-- One MD5 step: `i` is the step index (0..63); `w` are the 16
message words of the current chunk. -/
def md5Step (w : List Nat) (st : Nat × Nat × Nat × Nat) (i : Nat) :
    Nat × Nat × Nat × Nat :=
  let (a, b, c, d) := st
  let f :=
    if i < 16 then (b &&& c) ||| ((4294967295 - b) &&& d)
    else if i < 32 then (d &&& b) ||| ((4294967295 - d) &&& c)
    else if i < 48 then b ^^^ c ^^^ d
    else c ^^^ (b ||| (4294967295 - d))
  let g :=
    if i < 16 then i
    else if i < 32 then (5 * i + 1) % 16
    else if i < 48 then (3 * i + 5) % 16
    else (7 * i) % 16
  let sum := u32 (a + f + md5K.getD i 0 + w.getD g 0)
  (d, u32 (b + rotl32 sum (md5S.getD i 0)), b, c)

/-- Decode a 64-byte chunk into 16 little-endian 32-bit words. -/
def md5Words : List Nat → List Nat
  | b0 :: b1 :: b2 :: b3 :: rest =>
    (b0 + 256 * b1 + 65536 * b2 + 16777216 * b3) :: md5Words rest
  | _ => []

/-- Process one 64-byte chunk. -/
def md5Chunk (st : Nat × Nat × Nat × Nat) (chunk : List Nat) :
    Nat × Nat × Nat × Nat :=
  let w := md5Words chunk
  let (a, b, c, d) := (List.range 64).foldl (md5Step w) st
  let (a0, b0, c0, d0) := st
  (u32 (a0 + a), u32 (b0 + b), u32 (c0 + c), u32 (d0 + d))

/-- Split a list into chunks of 64 (`fuel` bounds the number of
chunks; `chunks64` supplies enough). -/
def chunks64Aux : Nat → List Nat → List (List Nat)
  | 0, _ => []
  | fuel + 1, l => if l.isEmpty then [] else l.take 64 :: chunks64Aux fuel (l.drop 64)

/-- Split a list into chunks of 64. -/
def chunks64 (l : List Nat) : List (List Nat) := chunks64Aux l.length l

/-- Little-endian bytes of `n`, `k` bytes. -/
def leBytes : Nat → Nat → List Nat
  | _, 0 => []
  | n, k + 1 => n % 256 :: leBytes (n / 256) k

/-- MD5 padding: append `0x80`, zero bytes to 56 mod 64, then the
original bit length as 8 little-endian bytes. -/
def md5Pad (msg : List Nat) : List Nat :=
  msg ++ [0x80] ++ List.replicate ((119 - msg.length % 64) % 64) 0 ++
    leBytes (msg.length * 8) 8

/-- MD5 digest of a byte list: the 16 digest bytes. -/
def md5Bytes (msg : List Nat) : List Nat :=
  let (a, b, c, d) :=
    (chunks64 (md5Pad msg)).foldl md5Chunk
      (0x67452301, 0xefcdab89, 0x98badcfe, 0x10325476)
  leBytes a 4 ++ leBytes b 4 ++ leBytes c 4 ++ leBytes d 4

/-- Lower-case hex digit of `n < 16`. -/
def hexDigit (n : Nat) : Char :=
  if n < 10 then Char.ofNat (48 + n) else Char.ofNat (87 + n)

/-- Hex digest: two lowercase hex digits per byte. -/
def hexOfBytes : List Nat → List Char
  | [] => []
  | b :: rest => hexDigit (b / 16) :: hexDigit (b % 16) :: hexOfBytes rest

/-- UTF-8 encoding of a character's code point. -/
def utf8Char (c : Char) : List Nat :=
  let n := c.toNat
  if n < 128 then [n]
  else if n < 2048 then [192 + n / 64, 128 + n % 64]
  else if n < 65536 then [224 + n / 4096, 128 + n / 64 % 64, 128 + n % 64]
  else [240 + n / 262144, 128 + n / 4096 % 64, 128 + n / 64 % 64, 128 + n % 64]

/-- UTF-8 encoding of a character list. -/
def utf8Encode (l : List Char) : List Nat := l.flatMap utf8Char

/-- Embeds `hashlib.md5(s.encode("utf-8")).hexdigest()` on a character list. -/
def md5Hex (s : List Char) : List Char := hexOfBytes (md5Bytes (utf8Encode s))

/-! ### Sealing transform (`thonny_seal/main.py: seal`) -/

/-- Python slice `lines[a:b]`. -/
def seg (lines : List (List Char)) (a b : Nat) : List (List Char) :=
  (lines.drop a).take (b - a)

/-- The body of a block: the lines strictly between the markers,
joined by newline (`"\n".join(lines[first+1:last])`). -/
def blockContent (lines : List (List Char)) (b : Block) : List Char :=
  List.intercalate ['\n'] (seg lines (b.first.lineno + 1) b.last.lineno)

/-- The fingerprint of block `b` at block index `i`: the last 8 hex
digits of `MD5("{i}.{content}")`. -/
def blockFingerprint (lines : List (List Char)) (i : Nat) (b : Block) : List Char :=
  let h := md5Hex ((Nat.repr i).toList ++ '.' :: blockContent lines b)
  h.drop (h.length - 8)

/-- A rewritten marker line: `f"{prefix.rstrip()} {fingerprint}"`. -/
def sealedLine (pfx : List Char) (h : List Char) : List Char :=
  pyRstrip pfx ++ ' ' :: h

/-- The loop of `seal` from block index `i` on: the sealed piece for
each block, the gap of unchanged lines to the next block, and after
the final block the unchanged remainder of the file. -/
def seal_rest (lines : List (List Char)) : Nat → List Block → List (List Char)
  | _, [] => []
  | i, b :: rest =>
    let h := blockFingerprint lines i b
    let piece := sealedLine b.first.pfx h ::
      (seg lines (b.first.lineno + 1) b.last.lineno ++ [sealedLine b.last.pfx h])
    match rest with
    | [] => piece ++ lines.drop (b.last.lineno + 1)
    | b2 :: _ => piece ++ seg lines (b.last.lineno + 1) b2.first.lineno ++
        seal_rest lines (i + 1) rest

/-- Embeds `seal`: seal the text based on its sealing comments, returning
`(sealed lines, error if any)`.  (`assert_lines` in the source is an
identity cast re-checking the no-newline invariant; `seal` is a
reserved word in this Lean environment, hence the name.) -/
def seal_lines (lines : List (List Char)) : Option (List (List Char)) × Option String :=
  match parse_blocks (extract_markers lines) with
  | (_, some err) => (none, some err)
  | (some [], none) => (some lines, none)
  | (some (b :: bs), none) =>
    (some (lines.take b.first.lineno ++ seal_rest lines 0 (b :: bs)), none)
  | (none, none) => (none, none)

/-! ### Fingerprint verification and tag installation -/

/-- The `got_hash` of `verify_blocks`: the stripped suffix of the start
marker, or the empty string. -/
def gotHash (b : Block) : List Char :=
  match b.first.sfx with
  | some s => pyStrip s
  | none => []

/-- The inner loop of `verify_blocks` for one block: how many block
indices `i` in `[lo, nblocks)` make the recomputed fingerprint match
the stored hash. -/
def verify_matches (lines : List (List Char)) (nblocks : Nat) (b : Block) (lo : Nat) : Nat :=
  (((List.range nblocks).drop lo).filter
    (fun i => blockFingerprint lines i b == gotHash b)).length

/-- The outer loop of `verify_blocks`: `matched` counts the block
indices consumed so far; a block is appended to the good blocks once
per matching index, and produces one error when no index matches. -/
def verify_blocks_loop (lines : List (List Char)) (nblocks : Nat) :
    Nat → List Block → List Block × List String
  | _, [] => ([], [])
  | matched, b :: rest =>
    let k := verify_matches lines nblocks b matched
    let r := verify_blocks_loop lines nblocks (matched + k) rest
    if k = 0 then
      (r.1, ("The hash of the sealed block starting at line " ++
        lineRef b.first.lineno ++
        " is invalid. Did you seal the content of the file properly with thonny-seal?") :: r.2)
    else (List.replicate k b ++ r.1, r.2)

/-- Embeds `verify_blocks`: verify that the hashes of the sealed blocks are
valid, returning `(good blocks, errors if any)`. -/
def verify_blocks (lines : List (List Char)) (blocks : List Block) :
    List Block × List String :=
  verify_blocks_loop lines blocks.length 0 blocks

/-- Python `str.splitlines` on newline-separated text (accumulator is
the reversed current line). -/
def splitlinesAux (cur : List Char) : List Char → List (List Char)
  | [] => if cur.isEmpty then [] else [cur.reverse]
  | c :: rest =>
    if c = '\n' then cur.reverse :: splitlinesAux [] rest
    else splitlinesAux (c :: cur) rest

/-- Python `str.splitlines`. -/
def splitlines (t : List Char) : List (List Char) := splitlinesAux [] t

/-- Character offset of the start of line `n` (0-based) in the text
obtained by joining `lines` with newlines; this is tkinter index
`"{n+1}.0"`. -/
def lineOffset (lines : List (List Char)) (n : Nat) : Nat :=
  ((lines.take n).map (fun l => l.length + 1)).sum

/-- Embeds `set_tags` on a buffer holding `t` with no pre-existing seal tags:
returns `(errors, installed tagged ranges)`.  A range for block `b`
runs from tkinter index `"{first.lineno+1}.0"` to
`"{last.lineno+1}.{len(lines[last.lineno])}"`. -/
def set_tags (t : List Char) : List String × List (Nat × Nat) :=
  let lines := splitlines t
  match parse_blocks (extract_markers lines) with
  | (_, some err) => ([err], [])
  | (some blocks, none) =>
    let r := verify_blocks lines blocks
    if r.2.isEmpty then
      ([], r.1.map (fun b => (lineOffset lines b.first.lineno,
        lineOffset lines b.last.lineno + (lines.getD b.last.lineno []).length)))
    else (r.2, [])
  | (none, none) => ([], [])

/-! ### The live buffer and the tag model -/

/-- A live text buffer: its characters and the seal-tagged ranges
(offset pairs, start inclusive, end exclusive). -/
structure TextBuffer where
  text : List Char
  tags : List (Nat × Nat)
deriving DecidableEq, Repr

/-- Embeds `text_widget.get(index)`; out-of-range positions give `'\x00'`
(tkinter returns the empty string there, which compares unequal to any
character). -/
def charAt (b : TextBuffer) (i : Nat) : Char := b.text.getD i '\x00'

/-- tkinter `tag_prevrange(name, i)`: the last range whose start lies
strictly before `i`. -/
def tag_prevrange (tags : List (Nat × Nat)) (i : Nat) : Option (Nat × Nat) :=
  (tags.filter (fun r => r.1 < i)).getLast?

/-- tkinter `tag_nextrange(name, i)`: the first range whose start lies
at or after `i`. -/
def tag_nextrange (tags : List (Nat × Nat)) (i : Nat) : Option (Nat × Nat) :=
  (tags.filter (fun r => i ≤ r.1)).head?

/-- Offset of the start of the line containing position `i`
(tkinter `"{i} linestart"`). -/
def lineStartAt (t : List Char) : Nat → Nat
  | 0 => 0
  | i + 1 => if t.getD i ' ' = '\n' then i + 1 else lineStartAt t i

/-- Scan forward from position `i` over the remaining characters for
the next newline. -/
def lineEndAux (i : Nat) : List Char → Nat
  | [] => i
  | c :: rest => if c = '\n' then i else lineEndAux (i + 1) rest

/-- Offset of the end of the line containing position `i`, i.e. of its
newline character (tkinter `"{i} lineend"`). -/
def lineEndAt (t : List Char) (i : Nat) : Nat := lineEndAux i (t.drop i)

/-- Embeds `text_widget.get(f"{i} linestart", f"{i} lineend")`: the whole
line containing position `i`, without its newline. -/
def lineOf (t : List Char) (i : Nat) : List Char :=
  (t.take (lineEndAt t i)).drop (lineStartAt t i)

/-- The checks `check_tags` performs on a single range `(s, e)` given
the previous range. -/
def check_one_tag (t : List Char) (prev : Option (Nat × Nat)) (s e : Nat) : Option String :=
  if e ≤ s then some "The tag is invalid: start >= end"
  else if (match prev with
           | some (ps, pe) => s ≤ ps || s < pe
           | none => false) then
    some "The tag is invalid: it overlaps the next range"
  else if (seal_match onKeywords (lineOf t s)).isNone then
    some "The first line of the tag is invalid"
  else if (seal_match offKeywords (lineOf t e)).isNone then
    some "The last line of the tag is invalid"
  else if 0 < s ∧ ¬ t.getD (s - 1) '\x00' = '\n' then
    some "Expected a new-line character to precede a sealed block"
  else if ¬ t.getD e '\x00' = '\n' then
    some "The tag is invalid: expected a new-line at the end of the tag"
  else none

/-- The range loop of `check_tags`. -/
def check_tags_loop (t : List Char) (prev : Option (Nat × Nat)) :
    List (Nat × Nat) → Option String
  | [] => none
  | (s, e) :: rest =>
    match check_one_tag t prev s e with
    | some err => some err
    | none => check_tags_loop t (some (s, e)) rest

/-- Embeds `check_tags`: check the sealing tags, returning an error message
if any. -/
def check_tags (b : TextBuffer) : Option String :=
  check_tags_loop b.text none b.tags

/-! ### Insertion and deletion guards -/

/-- The `tag_nextrange` part of `is_insertable` (reached when the
previous range does not decide the answer). -/
def is_insertable_next (b : TextBuffer) (p : Nat) (chars : List Char) : Bool :=
  match tag_nextrange b.tags p with
  | some (s, _e) =>
    if p = s then chars.getLast? = some '\n' else true
  | none => true

/-- Embeds `is_insertable`: can `chars` be inserted at position `p`? -/
def is_insertable (b : TextBuffer) (p : Nat) (chars : List Char) : Bool :=
  if chars.isEmpty then true
  else
    match tag_prevrange b.tags p with
    | some (_s, e) =>
      if p = e then chars.head? = some '\n'
      else if p ≤ e then false
      else is_insertable_next b p chars
    | none => is_insertable_next b p chars

/-- The `tag_nextrange` part of `_is_deletable_wo_preconditions`. -/
def _is_deletable_next (b : TextBuffer) (p : Nat) : Bool :=
  match tag_nextrange b.tags p with
  | some (s, _e) =>
    if p = s then false
    else if p + 1 = s then
      (if p = 0 then true
       else charAt b (p - 1) = '\n')
    else true
  | none => true

/-- Embeds `_is_deletable_wo_preconditions`: can the single character at
position `p` be deleted? -/
def _is_deletable_wo_preconditions (b : TextBuffer) (p : Nat) : Bool :=
  match tag_prevrange b.tags p with
  | some (_s, e) =>
    if p ≤ e then false else _is_deletable_next b p
  | none => _is_deletable_next b p

/-! ### The range splitter `pin_deletable_ranges` -/

/-- The walk-forward loop of `pin_deletable_ranges`.  `fuel` bounds
the number of iterations (the Python `while` loop relies on the cursor
strictly increasing; `none` models non-termination or the
`AssertionError` cases, and is proven unreachable under `check_tags`). -/
def pin_loop (b : TextBuffer) (i2 : Nat) : Nat → Nat → Option (List (Nat × Nat))
  | 0, cs => if i2 ≤ cs then some [] else none
  | fuel + 1, cs =>
    if i2 ≤ cs then some []
    else
      match tag_nextrange b.tags cs with
      | none => some [(cs, i2)]
      | some (s, e) =>
        if s < cs then none
        else
          let emitted : List (Nat × Nat) :=
            if cs = s then []
            else if i2 < s then [(cs, i2)]
            else if cs = 0 then [(cs, s)]
            else if charAt b (cs - 1) = '\n' then [(cs, s)]
            else if cs < s - 1 then [(cs, s - 1)]
            else []
          if e + 1 ≤ cs then none
          else
            match pin_loop b i2 fuel (e + 1) with
            | none => none
            | some rest => some (emitted ++ rest)

/-- Embeds `pin_deletable_ranges`: determine the sub-ranges of `[i1, i2)`
that can be deleted. -/
def pin_deletable_ranges (b : TextBuffer) (i1 i2 : Nat) : Option (List (Nat × Nat)) :=
  if i2 = i1 + 1 then
    some (if _is_deletable_wo_preconditions b i1 then [(i1, i2)] else [])
  else
    match tag_prevrange b.tags i1 with
    | some (_s, e) =>
      if i2 ≤ e + 1 then some []
      else if i1 ≤ e then pin_loop b i2 (i2 + 1) (e + 1)
      else pin_loop b i2 (i2 + 1) i1
    | none => pin_loop b i2 (i2 + 1) i1

/-! ### Applying deletions -/

/-- How a tag endpoint moves when `[a, c)` is deleted (tkinter mark /
tag-endpoint adjustment). -/
def rangeShift (a c x : Nat) : Nat :=
  if x ≤ a then x else if x < c then a else x - (c - a)

/-- Delete the characters in `[a, c)` from the buffer, letting the
tagged ranges shift as tkinter does. -/
def deleteRange (b : TextBuffer) (a c : Nat) : TextBuffer :=
  { text := b.text.take a ++ b.text.drop c,
    tags := b.tags.map (fun r => (rangeShift a c r.1, rangeShift a c r.2)) }

/-- Apply the pinned deletable ranges first-to-last; the pending
ranges shift with each deletion exactly as the temporary tag of
`delete_the_deletables` does in tkinter (`fuel` bounds the number of
ranges; `applyDeletables` supplies enough). -/
def applyDeletablesAux : Nat → TextBuffer → List (Nat × Nat) → TextBuffer
  | 0, b, _ => b
  | _, b, [] => b
  | fuel + 1, b, (s, e) :: rest =>
    applyDeletablesAux fuel (deleteRange b s e)
      (rest.map (fun r => (rangeShift s e r.1, rangeShift s e r.2)))

/-- Apply the pinned deletable ranges first-to-last. -/
def applyDeletables (b : TextBuffer) (l : List (Nat × Nat)) : TextBuffer :=
  applyDeletablesAux l.length b l

/-- Embeds `delete_the_deletables` with a deleting `delete_func`: pin the
deletable ranges of `[i1, i2)` and delete them all. -/
def delete_the_deletables (b : TextBuffer) (i1 i2 : Nat) : Option TextBuffer :=
  (pin_deletable_ranges b i1 i2).map (applyDeletables b)

/-! ### The naive reference deletion -/

/-- Delete the single character at offset `c`: tag endpoints after `c`
shift down by one. -/
def deleteCharAt (b : TextBuffer) (c : Nat) : TextBuffer :=
  { text := b.text.take c ++ b.text.drop (c + 1),
    tags := b.tags.map
      (fun r => ((if r.1 ≤ c then r.1 else r.1 - 1), (if r.2 ≤ c then r.2 else r.2 - 1))) }

/-- The loop of the naive deletion; each step shrinks `endPos - cursor`
by exactly one, so `fuel = endPos - cursor` iterations suffice. -/
def naive_loop : Nat → TextBuffer → Nat → Nat → TextBuffer
  | 0, b, _, _ => b
  | fuel + 1, b, cursor, endPos =>
    if cursor < endPos then
      if _is_deletable_wo_preconditions b cursor then
        naive_loop fuel (deleteCharAt b cursor) cursor (endPos - 1)
      else naive_loop fuel b (cursor + 1) endPos
    else b

/-- The naive character-by-character deletion the specification uses
as the reference for `pin_deletable_ranges`: walk the cursor over the
selection, delete each deletable character in place (the end of the
selection shifting down with each deletion), and skip each
non-deletable character. -/
def naive_delete (b : TextBuffer) (cursor endPos : Nat) : TextBuffer :=
  naive_loop (endPos - cursor) b cursor endPos

/-! ### Specification-side definitions (formalizing the claims' words) -/

/-- Deletability exactly as claim C3 words it: a character is
deletable unless deleting it would (a) remove a character inside a
tagged range, (b) remove the exact start position of a tagged range,
or (c) remove a newline that is the sole separator immediately
preceding a tagged range's start — except that such a newline is
deletable when it is at the buffer's very beginning or the character
before it is itself a newline. -/
def is_deletable_claimed (b : TextBuffer) (p : Nat) : Bool :=
  !(b.tags.any (fun r =>
      (r.1 ≤ p && p < r.2) || p = r.1 ||
      (charAt b p = '\n' && p + 1 = r.1 && !(p = 0) && !(charAt b (p - 1) = '\n'))))

/-- Deletability as claim C3 must be amended: case (a) additionally
covers the newline character sitting exactly at a tagged range's end
position (the line separator just after the sealed block), which the
code also refuses to delete. -/
def is_deletable_amended (b : TextBuffer) (p : Nat) : Bool :=
  !(b.tags.any (fun r =>
      (r.1 ≤ p && p ≤ r.2) || p = r.1 ||
      (charAt b p = '\n' && p + 1 = r.1 && !(p = 0) && !(charAt b (p - 1) = '\n'))))

/-- Does the end marker's suffix presence or value disagree with the
open start marker's suffix?  (Specification-side, for claim C8.) -/
def suffixesDisagree (f m : SealMarker) : Bool :=
  match f.sfx, m.sfx with
  | none, none => false
  | some a, some c => decide (a ≠ c)
  | _, _ => true

/-- The error condition of the block assembler as the specification
words it: a Start while another Start is open, an End while none is
open, an End whose suffix disagrees with the open Start's, or a Start
still open after all markers are processed. -/
def assembler_error_spec : Option SealMarker → List SealMarker → Bool
  | open?, [] => open?.isSome
  | open?, m :: rest =>
    match m.kind, open? with
    | MarkerKind.first, some _ => true
    | MarkerKind.first, none => assembler_error_spec (some m) rest
    | MarkerKind.last, none => true
    | MarkerKind.last, some f =>
      suffixesDisagree f m || assembler_error_spec none rest

/-- Does the message cite the 1-based line number of line index
`lineno`? -/
def citesLine (msg : String) (lineno : Nat) : Prop :=
  ∃ pre post, msg.data = pre ++ (Nat.repr (lineno + 1)).data ++ post

/-- The tagged range that claim C5 says `set_tags` installs for a
block: from the start of the line after the start marker line to the
end of the end marker's own line. -/
def set_tags_claimed_range (lines : List (List Char)) (b : Block) : Nat × Nat :=
  (lineOffset lines (b.first.lineno + 1),
   lineOffset lines b.last.lineno + (lines.getD b.last.lineno []).length)

/-- The tagged range `set_tags` actually installs for a block: from
the start of the start marker's own line to the end of the end
marker's own line (excluding its trailing newline). -/
def set_tags_range (lines : List (List Char)) (b : Block) : Nat × Nat :=
  (lineOffset lines b.first.lineno,
   lineOffset lines b.last.lineno + (lines.getD b.last.lineno []).length)

/-- The shape `check_tags` accepts, stated as a predicate: ranges
strictly ordered and non-overlapping and non-empty, first line of each
range matches the start-marker pattern and last line the end-marker
pattern, each range starts at the buffer beginning or right after a
newline, and the character at each range's end is a newline. -/
def tags_wellformed (b : TextBuffer) : Prop :=
  List.Chain' (fun r1 r2 : Nat × Nat => r1.1 < r2.1 ∧ r1.2 ≤ r2.1) b.tags ∧
  ∀ r ∈ b.tags, r.1 < r.2 ∧
    (seal_match onKeywords (lineOf b.text r.1)).isSome ∧
    (seal_match offKeywords (lineOf b.text r.2)).isSome ∧
    (r.1 = 0 ∨ charAt b (r.1 - 1) = '\n') ∧
    charAt b r.2 = '\n'

/-- Abbreviation for the per-range conditions `check_tags` verifies. -/
def tag_ok (t : List Char) (r : Nat × Nat) : Prop :=
  r.1 < r.2 ∧ (seal_match onKeywords (lineOf t r.1)).isSome = true ∧
    (seal_match offKeywords (lineOf t r.2)).isSome = true ∧
    (r.1 = 0 ∨ t.getD (r.1 - 1) '\x00' = '\n') ∧ t.getD r.2 '\x00' = '\n'

/-- The structural facts about a buffer's tags that the edit guards
rely on; all are consequences of `check_tags` succeeding. -/
structure SealInv (b : TextBuffer) : Prop where
  ord : b.tags.Pairwise (fun r1 r2 : Nat × Nat => r1.2 < r2.1)
  lt : ∀ r ∈ b.tags, r.1 < r.2
  nlEnd : ∀ r ∈ b.tags, charAt b r.2 = '\n'
  nlBefore : ∀ r ∈ b.tags, r.1 = 0 ∨ charAt b (r.1 - 1) = '\n'

/-- The deletability condition of `is_deletable_amended`, as a
proposition. -/
def badForDelete (b : TextBuffer) (p : Nat) (r : Nat × Nat) : Prop :=
  (r.1 ≤ p ∧ p ≤ r.2) ∨ p = r.1 ∨
    (charAt b p = '\n' ∧ p + 1 = r.1 ∧ ¬p = 0 ∧ ¬charAt b (p - 1) = '\n')

/-- A small live buffer used as the concrete witness input: one
sealed block followed by one free line ("A"), with the tagged range
the block occupies. -/
def demoBuffer : TextBuffer :=
  ⟨"# sealed: on\n# sealed: off\nA\n".toList, [(0, 26)]⟩

/-- A second witness buffer: a free line, a sealed block with a body
line, and a trailing free line. -/
def demoBuffer2 : TextBuffer :=
  ⟨"a\n# sealed: on\nbody\n# sealed: off\nz\n".toList, [(2, 33)]⟩

/-- Buffer content for the `set_tags` atomicity witness: a correctly
sealed block followed by an unsealed (hash-less) block. -/
def demoText10 : List Char :=
  "# sealed: on 88209294\n# sealed: off 88209294\n# sealed: on\n# sealed: off\n".toList

/-- The blocks `parse_blocks` yields on `demoText10`. -/
def demoBlocks10 : List Block :=
  [⟨⟨0, MarkerKind.first, "# sealed: on".toList, some "88209294".toList⟩,
    ⟨1, MarkerKind.last, "# sealed: off".toList, some "88209294".toList⟩⟩,
   ⟨⟨2, MarkerKind.first, "# sealed: on".toList, some []⟩,
    ⟨3, MarkerKind.last, "# sealed: off".toList, some []⟩⟩]

/-- Buffer content for the C5 witness: one correctly sealed block. -/
def demoText5 : List Char :=
  "# sealed: on 88209294\n# sealed: off 88209294\n".toList

/-- The single block `parse_blocks` yields on `demoText5`. -/
def demoBlock5 : Block :=
  ⟨⟨0, MarkerKind.first, "# sealed: on".toList, some "88209294".toList⟩,
   ⟨1, MarkerKind.last, "# sealed: off".toList, some "88209294".toList⟩⟩

/-- Shape of the separator region between the `sealed` keyword and
the `on`/`off` keyword: optional whitespace around a colon, or at
least one whitespace character. -/
def sepShape (sep : List Char) : Prop :=
  (∃ wa wb, sep = wa ++ ':' :: wb ∧ (∀ c ∈ wa, isPySpace c = true) ∧
    (∀ c ∈ wb, isPySpace c = true)) ∨
  (sep ≠ [] ∧ ∀ c ∈ sep, isPySpace c = true)

/-- Structural decomposition of the prefix group captured by a marker
match: leading whitespace, `#`, whitespace, a `sealed` keyword, a
separator and an `on`/`off` keyword (selected by `endKws`). -/
def pfxShape (endKws : List (List Char)) (pfx : List Char) : Prop :=
  ∃ w1 w2 kw1 sep kw2,
    pfx = w1 ++ '#' :: w2 ++ kw1 ++ sep ++ kw2 ∧
    (∀ c ∈ w1, isPySpace c = true) ∧ (∀ c ∈ w2, isPySpace c = true) ∧
    kw1 ∈ sealedKeywords ∧ kw2 ∈ endKws ∧ sepShape sep

/-- A legal suffix group: empty, or starting with whitespace. -/
def sfxShape (sfx : List Char) : Prop :=
  sfx = [] ∨ ∃ c t, sfx = c :: t ∧ isPySpace c = true

/-- Structural decomposition of a matched marker line. -/
def markerLineShape (endKws : List (List Char)) (line pfx sfx : List Char) : Prop :=
  pfxShape endKws pfx ∧ line = pfx ++ sfx ∧ sfxShape sfx

/-- Well-ordered blocks with 0-based line indices inside a file of
`n` lines: each block starts strictly before it ends, ends inside the
file, and distinct blocks do not interleave. -/
def blocksOrdered (n : Nat) (bs : List Block) : Prop :=
  (∀ b ∈ bs, b.first.lineno < b.last.lineno ∧ b.last.lineno < n) ∧
  bs.Pairwise (fun x y => x.last.lineno < y.first.lineno)

/-- The markers that `extract_markers` finds on the output of the
sealing transform: each block contributes its two marker lines, whose
suffix is the freshly computed fingerprint. -/
def resealedMarkers (L : List (List Char)) : Nat → List Block → List SealMarker
  | _, [] => []
  | i, b :: rest =>
    ⟨b.first.lineno, MarkerKind.first, b.first.pfx, some (blockFingerprint L i b)⟩ ::
    ⟨b.last.lineno, MarkerKind.last, b.last.pfx, some (blockFingerprint L i b)⟩ ::
    resealedMarkers L (i + 1) rest

/-- The blocks that `parse_blocks` builds from `resealedMarkers`. -/
def resealedBlocks (L : List (List Char)) : Nat → List Block → List Block
  | _, [] => []
  | i, b :: rest =>
    ⟨⟨b.first.lineno, MarkerKind.first, b.first.pfx, some (blockFingerprint L i b)⟩,
     ⟨b.last.lineno, MarkerKind.last, b.last.pfx, some (blockFingerprint L i b)⟩⟩ ::
    resealedBlocks L (i + 1) rest

/-- The cursor positions at which `pin_deletable_ranges` walks: the
cursor never sits strictly inside a tagged range nor at its end. -/
def freePos (b : TextBuffer) (c : Nat) : Prop :=
  ∀ r ∈ b.tags, r.2 < c ∨ c ≤ r.1

/-! ## Lemmas and theorems -/

theorem getD_default_irrel {α : Type} (l : List α) (n : Nat) (d d' : α)
    (h : n < l.length) : l.getD n d = l.getD n d' := by
  rw [List.getD_eq_getElem l d h, List.getD_eq_getElem l d' h]

theorem charAt_lt_length {b : TextBuffer} {i : Nat} (h : charAt b i = '\n') :
    i < b.text.length := by
  by_contra hlt
  have : b.text.getD i '\x00' = '\x00' := by
    rw [List.getD_eq_getElem?_getD]
    rw [List.getElem?_eq_none (by omega)]
    rfl
  rw [charAt, this] at h
  exact absurd h (by decide)

theorem lineStartAt_eq_self {t : List Char} {i : Nat} (hi : 0 < i)
    (h : t.getD (i - 1) '\x00' = '\n') : lineStartAt t i = i := by
  obtain ⟨j, rfl⟩ : ∃ j, i = j + 1 := ⟨i - 1, by omega⟩
  have : t.getD j ' ' = '\n' := by
    rcases Nat.lt_or_ge j t.length with hj | hj
    · rw [getD_default_irrel t j ' ' '\x00' hj]
      simpa using h
    · rw [List.getD_eq_getElem?_getD, List.getElem?_eq_none (by omega)] at h
      exact absurd h (by decide)
  rw [show lineStartAt t (j + 1) =
    (if t.getD j ' ' = '\n' then j + 1 else lineStartAt t j) from rfl, if_pos this]

theorem lineEndAt_eq_self {t : List Char} {i : Nat}
    (h : t.getD i '\x00' = '\n') : lineEndAt t i = i := by
  have hi : i < t.length := by
    by_contra hlt
    rw [List.getD_eq_getElem?_getD, List.getElem?_eq_none (by omega)] at h
    exact absurd h (by decide)
  rw [lineEndAt, List.drop_eq_getElem_cons hi, lineEndAux]
  have : t[i] = '\n' := by
    rw [List.getD_eq_getElem t '\x00' hi] at h
    exact h
  simp [this]

theorem lineOf_empty_of_nl {t : List Char} {i : Nat} (hi : 0 < i)
    (hprev : t.getD (i - 1) '\x00' = '\n') (hat : t.getD i '\x00' = '\n') :
    lineOf t i = [] := by
  rw [lineOf, lineStartAt_eq_self hi hprev, lineEndAt_eq_self hat]
  simp [List.drop_eq_nil_iff]

theorem check_one_tag_none_iff {t : List Char} {prev : Option (Nat × Nat)} {s e : Nat} :
    check_one_tag t prev s e = none ↔
      (s < e ∧ (seal_match onKeywords (lineOf t s)).isSome = true ∧
        (seal_match offKeywords (lineOf t e)).isSome = true ∧
        (s = 0 ∨ t.getD (s - 1) '\x00' = '\n') ∧ t.getD e '\x00' = '\n' ∧
        (∀ ps pe, prev = some (ps, pe) → ps < s ∧ pe ≤ s)) := by
  unfold check_one_tag
  constructor
  · intro h
    split_ifs at h with h1 h2 h3 h4 h5 h6
    refine ⟨by omega, ?_, ?_, ?_, ?_, ?_⟩
    · cases hx : seal_match onKeywords (lineOf t s) with
      | none => simp [hx] at h3
      | some v => simp
    · cases hx : seal_match offKeywords (lineOf t e) with
      | none => simp [hx] at h4
      | some v => simp
    · by_cases hs : s = 0
      · exact Or.inl hs
      · refine Or.inr ?_
        by_contra hc
        exact h5 ⟨by omega, hc⟩
    · exact h6
    · intro ps pe hp
      subst hp
      simp only [Bool.or_eq_true, decide_eq_true_eq] at h2
      push_neg at h2
      omega
  · rintro ⟨h1, h2, h3, h4, h5, h6⟩
    rw [if_neg (by omega)]
    rw [if_neg ?hprev]
    case hprev =>
      match prev with
      | none => simp
      | some (ps, pe) =>
        have := h6 ps pe rfl
        simp only [Bool.or_eq_true, decide_eq_true_eq]
        push_neg
        omega
    rw [if_neg (by simp [Option.isNone_iff_eq_none, Option.isSome_iff_ne_none] at h2 ⊢; exact h2)]
    rw [if_neg (by simp [Option.isNone_iff_eq_none, Option.isSome_iff_ne_none] at h3 ⊢; exact h3)]
    rw [if_neg ?hpre]
    case hpre =>
      rcases h4 with h4 | h4
      · omega
      · intro hc
        exact hc.2 h4
    rw [if_neg (by simpa using h5)]


theorem check_tags_loop_none_iff (t : List Char) :
    ∀ (l : List (Nat × Nat)) (prev : Option (Nat × Nat)),
      check_tags_loop t prev l = none ↔
        ((∀ p r, prev = some p → r ∈ l.head? → p.1 < r.1 ∧ p.2 ≤ r.1) ∧
          List.Chain' (fun r1 r2 : Nat × Nat => r1.1 < r2.1 ∧ r1.2 ≤ r2.1) l ∧
          ∀ r ∈ l, tag_ok t r) := by
  intro l
  induction l with
  | nil =>
    intro prev
    simp [check_tags_loop]
  | cons r rest ih =>
    intro prev
    obtain ⟨s, e⟩ := r
    rw [show check_tags_loop t prev ((s, e) :: rest) =
      (match check_one_tag t prev s e with
       | some err => some err
       | none => check_tags_loop t (some (s, e)) rest) from rfl]
    constructor
    · intro h
      cases hc : check_one_tag t prev s e with
      | some err => rw [hc] at h; exact absurd h (by simp)
      | none =>
        rw [hc] at h
        rw [ih (some (s, e))] at h
        obtain ⟨hhead, hchain, hall⟩ := h
        rw [check_one_tag_none_iff] at hc
        obtain ⟨h1, h2, h3, h4, h5, h6⟩ := hc
        refine ⟨?_, ?_, ?_⟩
        · rintro ⟨ps, pe⟩ r' hp hr'
          simp only [List.head?_cons, Option.mem_def, Option.some_inj] at hr'
          subst hr'
          exact h6 ps pe hp
        · rw [List.chain'_cons']
          refine ⟨?_, hchain⟩
          intro y hy
          exact hhead (s, e) y rfl hy
        · intro r' hr'
          rcases List.mem_cons.mp hr' with hr' | hr'
          · subst hr'
            exact ⟨h1, h2, h3, h4, h5⟩
          · exact hall r' hr'
    · rintro ⟨hhead, hchain, hall⟩
      have hok := hall (s, e) (List.mem_cons_self _ _)
      have hc : check_one_tag t prev s e = none := by
        rw [check_one_tag_none_iff]
        obtain ⟨h1, h2, h3, h4, h5⟩ := hok
        refine ⟨h1, h2, h3, h4, h5, ?_⟩
        intro ps pe hp
        exact hhead (ps, pe) (s, e) hp (by simp)
      rw [hc, ih (some (s, e))]
      rw [List.chain'_cons'] at hchain
      refine ⟨?_, hchain.2, fun r' hr' => hall r' (List.mem_cons_of_mem _ hr')⟩
      rintro ⟨ps, pe⟩ r' hp hr'
      simp only [Option.some_inj, Prod.mk.injEq] at hp
      obtain ⟨hp1, hp2⟩ := hp
      subst hp1
      subst hp2
      exact hchain.1 r' hr'

/-- The predicate `check_tags` decides is exactly `tags_wellformed`. -/
theorem check_tags_none_iff (b : TextBuffer) :
    check_tags b = none ↔ tags_wellformed b := by
  rw [check_tags, check_tags_loop_none_iff, tags_wellformed]
  constructor
  · rintro ⟨_, hchain, hall⟩
    exact ⟨hchain, fun r hr => hall r hr⟩
  · rintro ⟨hchain, hall⟩
    exact ⟨by rintro p r ⟨⟩, hchain, fun r hr => hall r hr⟩


theorem chain'_imp_mem {α : Type} {R R' : α → α → Prop} {l : List α}
    (hch : List.Chain' R l) (h : ∀ a ∈ l, ∀ b ∈ l, R a b → R' a b) :
    List.Chain' R' l := by
  induction l with
  | nil => exact List.chain'_nil
  | cons x xs ih =>
    rw [List.chain'_cons'] at hch ⊢
    refine ⟨?_, ih hch.2 (fun a ha b hb => h a (List.mem_cons_of_mem _ ha) b (List.mem_cons_of_mem _ hb))⟩
    intro y hy
    have hyl : y ∈ x :: xs := by
      cases xs with
      | nil => cases hy
      | cons z zs =>
        simp only [List.head?_cons, Option.mem_def, Option.some_inj] at hy
        subst hy
        simp
    exact h x (List.mem_cons_self _ _) y hyl (hch.1 y hy)

theorem seal_inv_of_check_tags {b : TextBuffer} (h : check_tags b = none) : SealInv b := by
  rw [check_tags_none_iff] at h
  obtain ⟨hchain, hall⟩ := h
  have hlt : ∀ r ∈ b.tags, r.1 < r.2 := fun r hr => (hall r hr).1
  -- Adjacent ranges are separated strictly: if the previous range ended
  -- exactly where the next starts, the previous range's last line would be
  -- empty and could not match the end-marker pattern.
  have hstrict : List.Chain' (fun r1 r2 : Nat × Nat => r1.2 < r2.1 ∧ r1.2 < r2.2) b.tags := by
    refine chain'_imp_mem hchain ?_
    rintro r1 h1 r2 h2 ⟨hlt12, hle⟩
    have hok1 := hall r1 h1
    have hok2 := hall r2 h2
    rcases Nat.lt_or_ge r1.2 r2.1 with hgap | hgap
    · exact ⟨hgap, lt_trans hgap (hlt r2 h2)⟩
    · exfalso
      have heq : r1.2 = r2.1 := le_antisymm hle hgap
      have hpos : 0 < r1.2 := lt_of_le_of_lt (Nat.zero_le _) (hlt r1 h1)
      have hnl1 : b.text.getD (r1.2 - 1) '\x00' = '\n' := by
        rcases hok2.2.2.2.1 with hz | hnl
        · omega
        · rw [← heq] at hnl
          exact hnl
      have hempty : lineOf b.text r1.2 = [] :=
        lineOf_empty_of_nl hpos hnl1 hok1.2.2.2.2
      have := hok1.2.2.1
      rw [hempty] at this
      exact absurd this (by decide)
  refine ⟨?_, hlt, fun r hr => (hall r hr).2.2.2.2, fun r hr => (hall r hr).2.2.2.1⟩
  have hpw : b.tags.Pairwise (fun r1 r2 : Nat × Nat => r1.2 < r2.1 ∧ r1.2 < r2.2) := by
    haveI : IsTrans (Nat × Nat) (fun r1 r2 : Nat × Nat => r1.2 < r2.1 ∧ r1.2 < r2.2) :=
      ⟨fun _a _b _c hab hbc => ⟨lt_trans hab.2 hbc.1, lt_trans hab.2 hbc.2⟩⟩
    exact List.chain'_iff_pairwise.mp hstrict
  exact hpw.imp (fun h => h.1)

theorem SealInv.startSorted {b : TextBuffer} (h : SealInv b) :
    b.tags.Pairwise (fun r1 r2 : Nat × Nat => r1.1 < r2.1) := by
  refine List.Pairwise.imp_of_mem ?_ h.ord
  intro r1 r2 h1 _h2 hlt
  exact lt_trans (h.lt r1 h1) hlt

theorem tag_prevrange_cons (x : Nat × Nat) (xs : List (Nat × Nat)) (i : Nat) :
    tag_prevrange (x :: xs) i =
      if x.1 < i then
        (match tag_prevrange xs i with
         | some r => some r
         | none => some x)
      else tag_prevrange xs i := by
  by_cases hx : x.1 < i
  · rw [tag_prevrange, tag_prevrange, List.filter_cons, if_pos (by simpa using hx), if_pos hx]
    cases hlast : (List.filter (fun r : Nat × Nat => decide (r.1 < i)) xs).getLast? with
    | none =>
      rw [List.getLast?_eq_none_iff] at hlast
      rw [hlast]
      rfl
    | some r =>
      cases hxs : List.filter (fun r : Nat × Nat => decide (r.1 < i)) xs with
      | nil => rw [hxs] at hlast; cases hlast
      | cons y ys =>
        rw [hxs] at hlast
        rw [List.getLast?_cons_cons, hlast]
  · rw [tag_prevrange, tag_prevrange, List.filter_cons, if_neg (by simpa using hx), if_neg hx]

theorem tag_nextrange_cons (x : Nat × Nat) (xs : List (Nat × Nat)) (i : Nat) :
    tag_nextrange (x :: xs) i =
      if i ≤ x.1 then some x else tag_nextrange xs i := by
  by_cases hx : i ≤ x.1
  · rw [tag_nextrange, List.filter_cons, if_pos (by simpa using hx), if_pos hx]
    rfl
  · rw [tag_nextrange, tag_nextrange, List.filter_cons, if_neg (by simpa using hx), if_neg hx]

theorem tag_prevrange_none {tags : List (Nat × Nat)} {i : Nat}
    (h : tag_prevrange tags i = none) : ∀ r ∈ tags, i ≤ r.1 := by
  intro r hr
  by_contra hc
  rw [tag_prevrange, List.getLast?_eq_none_iff, List.filter_eq_nil_iff] at h
  exact h r hr (by simpa using Nat.lt_of_not_le hc)

theorem tag_nextrange_none {tags : List (Nat × Nat)} {i : Nat}
    (h : tag_nextrange tags i = none) : ∀ r ∈ tags, r.1 < i := by
  intro r hr
  by_contra hc
  rw [tag_nextrange, List.head?_eq_none_iff, List.filter_eq_nil_iff] at h
  exact h r hr (by simpa using Nat.le_of_not_lt hc)

theorem tag_prevrange_max {tags : List (Nat × Nat)}
    (hs : tags.Pairwise (fun r1 r2 : Nat × Nat => r1.1 < r2.1)) {i : Nat} {r : Nat × Nat}
    (h : tag_prevrange tags i = some r) :
    r ∈ tags ∧ r.1 < i ∧ ∀ r' ∈ tags, r'.1 < i → r'.1 ≤ r.1 := by
  induction tags with
  | nil => cases h
  | cons x xs ih =>
    rw [tag_prevrange_cons] at h
    rw [List.pairwise_cons] at hs
    split_ifs at h with hx
    · cases hp : tag_prevrange xs i with
      | some r0 =>
        rw [hp] at h
        simp only [Option.some_inj] at h
        subst h
        obtain ⟨hmem, hlt, hmax⟩ := ih hs.2 hp
        refine ⟨List.mem_cons_of_mem _ hmem, hlt, ?_⟩
        intro r' hr' hr'i
        rcases List.mem_cons.mp hr' with rfl | hr'
        · exact le_of_lt (hs.1 r0 hmem)
        · exact hmax r' hr' hr'i
      | none =>
        rw [hp] at h
        simp only [Option.some_inj] at h
        subst h
        refine ⟨List.mem_cons_self _ _, hx, ?_⟩
        intro r' hr' hr'i
        rcases List.mem_cons.mp hr' with rfl | hr'
        · exact le_refl _
        · exact absurd hr'i (Nat.not_lt.mpr (tag_prevrange_none hp r' hr'))
    · obtain ⟨hmem, hlt, hmax⟩ := ih hs.2 h
      refine ⟨List.mem_cons_of_mem _ hmem, hlt, ?_⟩
      intro r' hr' hr'i
      rcases List.mem_cons.mp hr' with rfl | hr'
      · omega
      · exact hmax r' hr' hr'i

theorem tag_nextrange_min {tags : List (Nat × Nat)}
    (hs : tags.Pairwise (fun r1 r2 : Nat × Nat => r1.1 < r2.1)) {i : Nat} {r : Nat × Nat}
    (h : tag_nextrange tags i = some r) :
    r ∈ tags ∧ i ≤ r.1 ∧ ∀ r' ∈ tags, i ≤ r'.1 → r.1 ≤ r'.1 := by
  induction tags with
  | nil => cases h
  | cons x xs ih =>
    rw [tag_nextrange_cons] at h
    rw [List.pairwise_cons] at hs
    split_ifs at h with hx
    · simp only [Option.some_inj] at h
      subst h
      refine ⟨List.mem_cons_self _ _, hx, ?_⟩
      intro r' hr' _hr'i
      rcases List.mem_cons.mp hr' with rfl | hr'
      · exact le_refl _
      · exact le_of_lt (hs.1 r' hr')
    · obtain ⟨hmem, hge, hmin⟩ := ih hs.2 h
      refine ⟨List.mem_cons_of_mem _ hmem, hge, ?_⟩
      intro r' hr' hr'i
      rcases List.mem_cons.mp hr' with rfl | hr'
      · omega
      · exact hmin r' hr' hr'i

theorem tag_prevrange_eq_none {tags : List (Nat × Nat)} {i : Nat}
    (h : ∀ r ∈ tags, i ≤ r.1) : tag_prevrange tags i = none := by
  rw [tag_prevrange, List.getLast?_eq_none_iff, List.filter_eq_nil_iff]
  intro r hr
  simpa using Nat.not_lt.mpr (h r hr)

theorem tag_nextrange_eq_none {tags : List (Nat × Nat)} {i : Nat}
    (h : ∀ r ∈ tags, r.1 < i) : tag_nextrange tags i = none := by
  rw [tag_nextrange, List.head?_eq_none_iff, List.filter_eq_nil_iff]
  intro r hr
  simpa using Nat.not_le.mpr (h r hr)

theorem tag_nextrange_eq_some {tags : List (Nat × Nat)}
    (hs : tags.Pairwise (fun r1 r2 : Nat × Nat => r1.1 < r2.1)) {i : Nat} {r : Nat × Nat}
    (hr : r ∈ tags) (hge : i ≤ r.1)
    (hmin : ∀ r' ∈ tags, i ≤ r'.1 → r.1 ≤ r'.1) :
    tag_nextrange tags i = some r := by
  induction tags with
  | nil => cases hr
  | cons x xs ih =>
    rw [List.pairwise_cons] at hs
    rw [tag_nextrange_cons]
    rcases List.mem_cons.mp hr with rfl | hr'
    · rw [if_pos hge]
    · by_cases hx : i ≤ x.1
      · exfalso
        have h1 := hmin x (List.mem_cons_self _ _) hx
        have h2 := hs.1 r hr'
        omega
      · rw [if_neg hx]
        exact ih hs.2 hr' (fun r' hr'' hge'' => hmin r' (List.mem_cons_of_mem _ hr'') hge'')

theorem tag_prevrange_eq_some {tags : List (Nat × Nat)}
    (hs : tags.Pairwise (fun r1 r2 : Nat × Nat => r1.1 < r2.1)) {i : Nat} {r : Nat × Nat}
    (hr : r ∈ tags) (hlt : r.1 < i)
    (hmax : ∀ r' ∈ tags, r'.1 < i → r'.1 ≤ r.1) :
    tag_prevrange tags i = some r := by
  induction tags with
  | nil => cases hr
  | cons x xs ih =>
    rw [List.pairwise_cons] at hs
    rw [tag_prevrange_cons]
    rcases List.mem_cons.mp hr with rfl | hr'
    · rw [if_pos hlt]
      have hnone : tag_prevrange xs i = none := by
        refine tag_prevrange_eq_none ?_
        intro r' hr''
        have h1 := hs.1 r' hr''
        by_contra hc
        have := hmax r' (List.mem_cons_of_mem _ hr'') (by omega)
        omega
      rw [hnone]
    · have hx : x.1 < i := lt_trans (hs.1 r hr') hlt
      rw [if_pos hx]
      have hsome : tag_prevrange xs i = some r :=
        ih hs.2 hr' (fun r' hr'' hlt'' => hmax r' (List.mem_cons_of_mem _ hr'') hlt'')
      rw [hsome]

theorem pairwise_cases {α : Type} {R : α → α → Prop} {l : List α}
    (h : l.Pairwise R) {a c : α} (ha : a ∈ l) (hc : c ∈ l) :
    a = c ∨ R a c ∨ R c a := by
  induction l with
  | nil => cases ha
  | cons x xs ih =>
    rw [List.pairwise_cons] at h
    rcases List.mem_cons.mp ha with rfl | ha' <;>
      rcases List.mem_cons.mp hc with rfl | hc'
    · exact Or.inl rfl
    · exact Or.inr (Or.inl (h.1 c hc'))
    · exact Or.inr (Or.inr (h.1 a ha'))
    · exact ih h.2 ha' hc'


theorem is_deletable_amended_false_iff (b : TextBuffer) (p : Nat) :
    is_deletable_amended b p = false ↔ ∃ r ∈ b.tags, badForDelete b p r := by
  rw [is_deletable_amended]
  rw [Bool.not_eq_false']
  rw [List.any_eq_true]
  constructor
  · rintro ⟨r, hr, hcond⟩
    refine ⟨r, hr, ?_⟩
    rw [badForDelete]
    simp only [Bool.or_eq_true, Bool.and_eq_true, decide_eq_true_eq, Bool.not_eq_true',
      decide_eq_false_iff_not] at hcond
    tauto
  · rintro ⟨r, hr, hcond⟩
    refine ⟨r, hr, ?_⟩
    rw [badForDelete] at hcond
    simp only [Bool.or_eq_true, Bool.and_eq_true, decide_eq_true_eq, Bool.not_eq_true',
      decide_eq_false_iff_not]
    tauto

theorem is_deletable_amended_true_of (b : TextBuffer) (p : Nat)
    (h : ∀ r ∈ b.tags, ¬badForDelete b p r) : is_deletable_amended b p = true := by
  by_contra hc
  rw [Bool.not_eq_true, is_deletable_amended_false_iff] at hc
  obtain ⟨r, hr, hbad⟩ := hc
  exact h r hr hbad

/-- The central characterization: under the tag invariants, the code's
`_is_deletable_wo_preconditions` agrees with the amended claim-C3
description of deletability. -/
theorem is_deletable_eq_amended {b : TextBuffer} (hinv : SealInv b) (p : Nat) :
    _is_deletable_wo_preconditions b p = is_deletable_amended b p := by
  have hss := hinv.startSorted
  by_cases hA : ∃ r ∈ b.tags, r.1 < p ∧ p ≤ r.2
  · -- The position hits a range strictly after its start: both sides false.
    obtain ⟨r, hr, hr1, hr2⟩ := hA
    have hprev : tag_prevrange b.tags p = some r := by
      refine tag_prevrange_eq_some hss hr hr1 ?_
      intro r' hr' hr'p
      by_contra hc
      have hne : r ≠ r' := by
        intro he
        subst he
        omega
      rcases pairwise_cases hinv.ord hr hr' with he | hord | hord
      · exact hne he
      · omega
      · have := hinv.lt r' hr'
        omega
    have hlhs : _is_deletable_wo_preconditions b p = false := by
      simp only [_is_deletable_wo_preconditions, hprev]
      rw [if_pos hr2]
    rw [hlhs]
    symm
    rw [is_deletable_amended_false_iff]
    exact ⟨r, hr, Or.inl ⟨le_of_lt hr1, hr2⟩⟩
  · -- The previous range does not decide; the code falls through to the
    -- next range.
    have hstep : _is_deletable_wo_preconditions b p = _is_deletable_next b p := by
      cases hp : tag_prevrange b.tags p with
      | none => simp only [_is_deletable_wo_preconditions, hp]
      | some r =>
        obtain ⟨hmem, hlt, _⟩ := tag_prevrange_max hss hp
        have hne : ¬p ≤ r.2 := by
          intro hc
          exact hA ⟨r, hmem, hlt, hc⟩
        simp only [_is_deletable_wo_preconditions, hp]
        rw [if_neg hne]
    rw [hstep]
    cases hn : tag_nextrange b.tags p with
    | none =>
      have hall := tag_nextrange_none hn
      have hlhs : _is_deletable_next b p = true := by
        simp only [_is_deletable_next, hn]
      rw [hlhs]
      symm
      refine is_deletable_amended_true_of b p ?_
      intro r hr hbad
      have hrlt := hall r hr
      rcases hbad with ⟨h1, h2⟩ | h1 | ⟨_, h2, _⟩
      · rcases Nat.lt_or_ge r.1 p with hc | hc
        · exact hA ⟨r, hr, hc, h2⟩
        · omega
      · omega
      · omega
    | some r =>
      obtain ⟨hmem, hge, hmin⟩ := tag_nextrange_min hss hn
      by_cases hps : p = r.1
      · have hlhs : _is_deletable_next b p = false := by
          simp only [_is_deletable_next, hn]
          rw [if_pos hps]
        rw [hlhs]
        symm
        rw [is_deletable_amended_false_iff]
        exact ⟨r, hmem, Or.inl ⟨le_of_eq hps.symm, by have := hinv.lt r hmem; omega⟩⟩
      · have hpltr : p < r.1 := lt_of_le_of_ne hge hps
        by_cases hsep : p + 1 = r.1
        · -- Just before the start of the next sealed block.
          have hlhs : _is_deletable_next b p =
              (if p = 0 then true else decide (charAt b (p - 1) = '\n')) := by
            simp only [_is_deletable_next, hn]
            rw [if_neg hps, if_pos hsep]
          rw [hlhs]
          have hchp : charAt b p = '\n' := by
            rcases hinv.nlBefore r hmem with hz | hnl
            · omega
            · rw [← hsep] at hnl
              simpa using hnl
          by_cases hz : p = 0
          · rw [if_pos hz]
            symm
            refine is_deletable_amended_true_of b p ?_
            intro r' hr' hbad
            rcases hbad with ⟨h1, h2⟩ | h1 | ⟨_, _, h3, _⟩
            · rcases Nat.lt_or_ge r'.1 p with hc | hc
              · exact hA ⟨r', hr', hc, h2⟩
              · have := hmin r' hr' hc
                omega
            · have := hmin r' hr' (le_of_eq h1)
              omega
            · exact h3 hz
          · rw [if_neg hz]
            by_cases hnl : charAt b (p - 1) = '\n'
            · rw [decide_eq_true hnl]
              symm
              refine is_deletable_amended_true_of b p ?_
              intro r' hr' hbad
              rcases hbad with ⟨h1, h2⟩ | h1 | ⟨_, _, _, h4⟩
              · rcases Nat.lt_or_ge r'.1 p with hc | hc
                · exact hA ⟨r', hr', hc, h2⟩
                · have := hmin r' hr' hc
                  omega
              · have := hmin r' hr' (le_of_eq h1)
                omega
              · exact h4 hnl
            · rw [decide_eq_false hnl]
              symm
              rw [is_deletable_amended_false_iff]
              exact ⟨r, hmem, Or.inr (Or.inr ⟨hchp, hsep, hz, hnl⟩)⟩
        · -- Strictly more than one position before the next block.
          have hlhs : _is_deletable_next b p = true := by
            simp only [_is_deletable_next, hn]
            rw [if_neg hps, if_neg hsep]
          rw [hlhs]
          symm
          refine is_deletable_amended_true_of b p ?_
          intro r' hr' hbad
          rcases hbad with ⟨h1, h2⟩ | h1 | ⟨_, h2, _, _⟩
          · rcases Nat.lt_or_ge r'.1 p with hc | hc
            · exact hA ⟨r', hr', hc, h2⟩
            · have := hmin r' hr' hc
              omega
          · have := hmin r' hr' (le_of_eq h1)
            omega
          · have := hmin r' hr' (by omega)
            omega

theorem prevrange_at_end {b : TextBuffer} (hinv : SealInv b) {r : Nat × Nat}
    (hr : r ∈ b.tags) : tag_prevrange b.tags r.2 = some r := by
  refine tag_prevrange_eq_some hinv.startSorted hr (hinv.lt r hr) ?_
  intro r' hr' hlt
  rcases pairwise_cases hinv.ord hr hr' with rfl | hord | hord
  · exact le_refl _
  · omega
  · have := hinv.lt r' hr'
    omega

theorem nextrange_at_start {b : TextBuffer} (hinv : SealInv b) {r : Nat × Nat}
    (hr : r ∈ b.tags) : tag_nextrange b.tags r.1 = some r := by
  refine tag_nextrange_eq_some hinv.startSorted hr (le_refl _) ?_
  intro r' hr' hge
  rcases pairwise_cases hinv.ord hr hr' with rfl | hord | hord
  · exact le_refl _
  · have := hinv.lt r hr
    omega
  · have := hinv.lt r' hr'
    omega

theorem prevrange_before_start {b : TextBuffer} (hinv : SealInv b) {r : Nat × Nat}
    (hr : r ∈ b.tags) :
    tag_prevrange b.tags r.1 = none ∨
      ∃ q ∈ b.tags, tag_prevrange b.tags r.1 = some q ∧ q.2 < r.1 := by
  cases hp : tag_prevrange b.tags r.1 with
  | none => exact Or.inl rfl
  | some q =>
    obtain ⟨hq, hqlt, _⟩ := tag_prevrange_max hinv.startSorted hp
    refine Or.inr ⟨q, hq, rfl, ?_⟩
    rcases pairwise_cases hinv.ord hr hq with rfl | hord | hord
    · omega
    · have := hinv.lt r hr
      omega
    · exact hord

/-- Claim C4: the insertion boundary laws.  Inserting empty text is
always legal; at a tagged range's end boundary insertion is legal iff
the text starts with a newline; at a start boundary iff it ends with a
newline; strictly inside a tagged range insertion of nonempty text is
illegal. -/
theorem C4_insertion_boundary_laws (b : TextBuffer) (h : check_tags b = none)
    (p : Nat) (chars : List Char) :
    (chars = [] → is_insertable b p chars = true) ∧
    (∀ r ∈ b.tags, p = r.2 →
      (is_insertable b p chars = true ↔ (chars = [] ∨ chars.head? = some '\n'))) ∧
    (∀ r ∈ b.tags, p = r.1 →
      (is_insertable b p chars = true ↔ (chars = [] ∨ chars.getLast? = some '\n'))) ∧
    (∀ r ∈ b.tags, r.1 < p → p < r.2 → chars ≠ [] →
      is_insertable b p chars = false) := by
  have hinv := seal_inv_of_check_tags h
  have hss := hinv.startSorted
  refine ⟨?_, ?_, ?_, ?_⟩
  · intro hc
    subst hc
    rfl
  · -- end boundary
    intro r hr hp
    subst hp
    cases hc : chars with
    | nil => simp [is_insertable]
    | cons c cs =>
      rw [← hc]
      have hprev := prevrange_at_end hinv hr
      have hne : ¬chars.isEmpty = true := by
        rw [hc]
        simp
      simp only [is_insertable, if_neg hne, hprev, if_true]
      constructor
      · intro hh
        exact Or.inr (by simpa using hh)
      · rintro (hnil | hh)
        · rw [hnil] at hc; cases hc
        · simpa using hh
  · -- start boundary
    intro r hr hp
    subst hp
    cases hc : chars with
    | nil => simp [is_insertable]
    | cons c cs =>
      rw [← hc]
      have hne : ¬chars.isEmpty = true := by
        rw [hc]
        simp
      have hnext := nextrange_at_start hinv hr
      have hfall : is_insertable b r.1 chars = is_insertable_next b r.1 chars := by
        rcases prevrange_before_start hinv hr with hp0 | ⟨q, _hq, hp0, hqlt⟩
        · simp only [is_insertable, if_neg hne, hp0]
        · simp only [is_insertable, if_neg hne, hp0]
          rw [if_neg (by omega), if_neg (by omega)]
      rw [hfall]
      simp only [is_insertable_next, hnext, if_true]
      constructor
      · intro hh
        exact Or.inr (by simpa using hh)
      · rintro (hnil | hh)
        · rw [hnil] at hc; cases hc
        · simpa using hh
  · -- strictly inside
    intro r hr h1 h2 hcne
    have hprev : tag_prevrange b.tags p = some r := by
      refine tag_prevrange_eq_some hss hr h1 ?_
      intro r' hr' hlt
      rcases pairwise_cases hinv.ord hr hr' with rfl | hord | hord
      · exact le_refl _
      · omega
      · have := hinv.lt r' hr'
        omega
    have hne : ¬chars.isEmpty = true := by
      cases chars with
      | nil => exact absurd rfl hcne
      | cons c cs => simp
    simp only [is_insertable, if_neg hne, hprev]
    rw [if_neg (by omega), if_pos (by omega)]

/-- Claim C3 (amended): under `check_tags`, `is_deletable` returns
false exactly for (a) positions from a tagged range's start through
its end position inclusive — i.e. the characters inside the range, its
exact start, and the newline sitting exactly at its end — and (c)
a newline that is the sole separator immediately preceding a tagged
range's start, unless that newline is at the buffer's very beginning
or preceded by another newline; every other position is deletable. -/
theorem C3_is_deletable_amended (b : TextBuffer) (h : check_tags b = none) (p : Nat) :
    _is_deletable_wo_preconditions b p = is_deletable_amended b p :=
  is_deletable_eq_amended (seal_inv_of_check_tags h) p

/-- Claim C3, as stated, is false: in `demoBuffer` the newline at
position 26 — the end position of the tagged range `(0, 26)`, not
inside the range, not its start, and not preceding any following
range — is refused by `is_deletable` although cases (a)-(c) of the
claim do not cover it. -/
theorem C3_is_deletable_counterexample :
    check_tags demoBuffer = none ∧
    _is_deletable_wo_preconditions demoBuffer 26 = false ∧
    is_deletable_claimed demoBuffer 26 = true := by
  refine ⟨by decide, by decide, by decide⟩

theorem C3_is_deletable_amended_witness :
    check_tags demoBuffer2 = none ∧
    _is_deletable_wo_preconditions demoBuffer2 0 = is_deletable_amended demoBuffer2 0 :=
  ⟨by decide, C3_is_deletable_amended demoBuffer2 (by decide) 0⟩

theorem C4_insertion_boundary_laws_witness :
    check_tags demoBuffer = none ∧
    (("\nx".toList = [] → is_insertable demoBuffer 26 "\nx".toList = true) ∧
    (∀ r ∈ demoBuffer.tags, 26 = r.2 →
      (is_insertable demoBuffer 26 "\nx".toList = true ↔
        ("\nx".toList = [] ∨ "\nx".toList.head? = some '\n'))) ∧
    (∀ r ∈ demoBuffer.tags, 26 = r.1 →
      (is_insertable demoBuffer 26 "\nx".toList = true ↔
        ("\nx".toList = [] ∨ "\nx".toList.getLast? = some '\n'))) ∧
    (∀ r ∈ demoBuffer.tags, r.1 < 26 → 26 < r.2 → "\nx".toList ≠ [] →
      is_insertable demoBuffer 26 "\nx".toList = false)) :=
  ⟨by decide, C4_insertion_boundary_laws demoBuffer (by decide) 26 "\nx".toList⟩

/-- Claim C10: `set_tags` is atomic on error.  If parsing the buffer
content fails, the parse error alone is returned and no tagged range
is installed; if `verify_blocks` reports any fingerprint error, the
errors are returned and no tagged range is installed, not even for
blocks that verified correctly. -/
theorem C10_set_tags_atomic (t : List Char) :
    (∀ err, (parse_blocks (extract_markers (splitlines t))).2 = some err →
      set_tags t = ([err], [])) ∧
    (∀ blocks, parse_blocks (extract_markers (splitlines t)) = (some blocks, none) →
      (verify_blocks (splitlines t) blocks).2 ≠ [] →
      set_tags t = ((verify_blocks (splitlines t) blocks).2, [])) := by
  constructor
  · intro err herr
    cases hp : parse_blocks (extract_markers (splitlines t)) with
    | mk p1 p2 =>
      rw [hp] at herr
      simp only at herr
      subst herr
      simp only [set_tags, hp]
  · intro blocks hp hne
    simp only [set_tags, hp]
    rw [if_neg (by simpa [List.isEmpty_iff] using hne)]

set_option maxRecDepth 1000000 in
theorem C10_set_tags_atomic_witness :
    parse_blocks (extract_markers (splitlines demoText10)) = (some demoBlocks10, none) ∧
    (verify_blocks (splitlines demoText10) demoBlocks10).2 ≠ [] ∧
    set_tags demoText10 = ((verify_blocks (splitlines demoText10) demoBlocks10).2, []) :=
  ⟨by decide, by decide,
    (C10_set_tags_atomic demoText10).2 demoBlocks10 (by decide) (by decide)⟩

theorem citesLine_base (a : String) (n : Nat) : citesLine (a ++ lineRef n) n := by
  refine ⟨a.data, [], ?_⟩
  rw [String.data_append]
  rw [lineRef]
  simp

theorem citesLine_append_right {msg : String} {n : Nat} (s : String)
    (h : citesLine msg n) : citesLine (msg ++ s) n := by
  obtain ⟨pre, post, hp⟩ := h
  refine ⟨pre, post ++ s.data, ?_⟩
  rw [String.data_append, hp]
  simp

theorem suffixCheck_none_iff (f m : SealMarker) :
    suffixCheck f m = none ↔ suffixesDisagree f m = false := by
  obtain ⟨fl, fk, fp, fs⟩ := f
  obtain ⟨ml, mk2, mp, ms⟩ := m
  cases fs <;> cases ms
  · simp [suffixCheck, suffixesDisagree]
  · simp [suffixCheck, suffixesDisagree]
  · simp [suffixCheck, suffixesDisagree]
  · rename_i s1 s2
    by_cases hs : s1 = s2
    · simp [suffixCheck, suffixesDisagree, hs]
    · simp [suffixCheck, suffixesDisagree, hs]

theorem suffixCheck_cites {f m : SealMarker} {msg : String}
    (h : suffixCheck f m = some msg) : citesLine msg f.lineno := by
  obtain ⟨fl, fk, fp, fs⟩ := f
  obtain ⟨ml, mk2, mp, ms⟩ := m
  cases fs <;> cases ms <;> simp only [suffixCheck] at h ⊢
  · cases h
  · cases h
    exact citesLine_append_right _ (citesLine_append_right _ (citesLine_append_right _
      (citesLine_append_right _ (citesLine_base _ _))))
  · cases h
    exact citesLine_append_right _ (citesLine_append_right _ (citesLine_append_right _
      (citesLine_append_right _ (citesLine_append_right _ (citesLine_base _ _)))))
  · rename_i s1 s2
    by_cases hs : s1 = s2
    · rw [if_pos hs] at h
      cases h
    · rw [if_neg hs] at h
      cases h
      exact citesLine_append_right _ (citesLine_append_right _ (citesLine_append_right _
        (citesLine_append_right _ (citesLine_append_right _ (citesLine_append_right _
          (citesLine_base _ _))))))

theorem parse_blocks_loop_contract (ms : List SealMarker) : ∀ (acc : List Block)
    (open? : Option SealMarker),
    (((parse_blocks_loop acc open? ms).1.isSome = true ∧
        (parse_blocks_loop acc open? ms).2 = none) ∨
      ((parse_blocks_loop acc open? ms).1 = none ∧
        (parse_blocks_loop acc open? ms).2.isSome = true)) ∧
    ((parse_blocks_loop acc open? ms).2.isSome = true ↔
      assembler_error_spec open? ms = true) ∧
    (∀ msg, (parse_blocks_loop acc open? ms).2 = some msg →
      (∃ m ∈ ms, citesLine msg m.lineno) ∨
        (∃ f, open? = some f ∧ citesLine msg f.lineno)) := by
  induction ms with
  | nil =>
    intro acc open?
    cases open? with
    | none =>
      refine ⟨Or.inl ⟨rfl, rfl⟩, by simp [parse_blocks_loop, assembler_error_spec], ?_⟩
      intro msg hmsg
      cases hmsg
    | some f =>
      refine ⟨Or.inr ⟨rfl, rfl⟩, by simp [parse_blocks_loop, assembler_error_spec], ?_⟩
      intro msg hmsg
      simp only [parse_blocks_loop, Option.some_inj] at hmsg
      subst hmsg
      exact Or.inr ⟨f, rfl, citesLine_append_right _ (citesLine_base _ _)⟩
  | cons m rest ih =>
    intro acc open?
    obtain ⟨ml, kindm, mp, msfx⟩ := m
    cases kindm with
    | first =>
      cases open? with
      | some f =>
        simp only [parse_blocks_loop, assembler_error_spec]
        refine ⟨Or.inr ⟨by simp, by simp⟩, by simp, ?_⟩
        intro msg hmsg
        simp only [Option.some_inj] at hmsg
        subst hmsg
        refine Or.inl ⟨_, List.mem_cons_self _ _, ?_⟩
        exact citesLine_append_right _ (citesLine_append_right _ (citesLine_append_right _
          (citesLine_base _ _)))
      | none =>
        simp only [parse_blocks_loop, assembler_error_spec]
        obtain ⟨hx, hs, hc⟩ := ih acc (some ⟨ml, MarkerKind.first, mp, msfx⟩)
        refine ⟨hx, hs, ?_⟩
        intro msg hmsg
        rcases hc msg hmsg with ⟨m', hm', hcite⟩ | ⟨f, hf, hcite⟩
        · exact Or.inl ⟨m', List.mem_cons_of_mem _ hm', hcite⟩
        · simp only [Option.some_inj] at hf
          subst hf
          exact Or.inl ⟨_, List.mem_cons_self _ _, hcite⟩
    | last =>
      cases open? with
      | none =>
        simp only [parse_blocks_loop, assembler_error_spec]
        refine ⟨Or.inr ⟨by simp, by simp⟩, by simp, ?_⟩
        intro msg hmsg
        simp only [Option.some_inj] at hmsg
        subst hmsg
        exact Or.inl ⟨_, List.mem_cons_self _ _,
          citesLine_append_right _ (citesLine_base _ _)⟩
      | some f =>
        simp only [parse_blocks_loop, assembler_error_spec]
        cases hsc : suffixCheck f ⟨ml, MarkerKind.last, mp, msfx⟩ with
        | some err =>
          have hdis : suffixesDisagree f ⟨ml, MarkerKind.last, mp, msfx⟩ = true := by
            by_contra hcon
            rw [Bool.not_eq_true] at hcon
            rw [(suffixCheck_none_iff _ _).mpr hcon] at hsc
            cases hsc
          refine ⟨Or.inr ⟨by simp, by simp⟩, by simp [hdis], ?_⟩
          intro msg hmsg
          simp only [Option.some_inj] at hmsg
          subst hmsg
          exact Or.inr ⟨f, rfl, suffixCheck_cites hsc⟩
        | none =>
          have hdis : suffixesDisagree f ⟨ml, MarkerKind.last, mp, msfx⟩ = false :=
            (suffixCheck_none_iff _ _).mp hsc
          obtain ⟨hx, hs, hc⟩ :=
            ih (acc ++ [⟨f, ⟨ml, MarkerKind.last, mp, msfx⟩⟩]) none
          refine ⟨hx, ?_, ?_⟩
          · rw [hs, hdis, Bool.false_or]
          · intro msg hmsg
            rcases hc msg hmsg with ⟨m', hm', hcite⟩ | ⟨f', hf', _⟩
            · exact Or.inl ⟨m', List.mem_cons_of_mem _ hm', hcite⟩
            · cases hf'

/-- Claim C8: `parse_blocks` returns exactly one of a block list or an
error (never both, never neither); it errors exactly when the marker
sequence trips one of the four assembler error conditions (double
start, end without start, suffix disagreement, unterminated block);
and every error message cites a relevant 1-based line number. -/
theorem C8_parse_blocks_contract (markers : List SealMarker) :
    (((parse_blocks markers).1.isSome = true ∧ (parse_blocks markers).2 = none) ∨
      ((parse_blocks markers).1 = none ∧ (parse_blocks markers).2.isSome = true)) ∧
    ((parse_blocks markers).2.isSome = true ↔
      assembler_error_spec none markers = true) ∧
    (∀ msg, (parse_blocks markers).2 = some msg →
      ∃ m ∈ markers, citesLine msg m.lineno) := by
  obtain ⟨hx, hs, hc⟩ := parse_blocks_loop_contract markers [] none
  refine ⟨hx, hs, ?_⟩
  intro msg hmsg
  rcases hc msg hmsg with ⟨m', hm', hcite⟩ | ⟨f, hf, _⟩
  · exact ⟨m', hm', hcite⟩
  · cases hf

theorem C8_parse_blocks_contract_witness :
    (parse_blocks [⟨0, MarkerKind.first, "#".toList, none⟩]).2 =
      some "Unexpected open block at the end. The block started at line 1." ∧
    (∃ m ∈ [(⟨0, MarkerKind.first, "#".toList, none⟩ : SealMarker)],
      citesLine "Unexpected open block at the end. The block started at line 1." m.lineno) :=
  ⟨by decide, (C8_parse_blocks_contract _).2.2 _ (by decide)⟩

/-- Claim C5 (amended): the tagged range `set_tags` installs for a
verified block spans from the start of the block's start marker's own
line (not the line after it) to the end of the end marker's own line,
excluding that line's trailing newline; and `check_tags` accepts
exactly the `tags_wellformed` shape (first line of each range matches
the start-marker pattern, last line the end-marker pattern, ordered,
non-overlapping, line-isolated, newline at end). -/
theorem C5_set_tags_shape (t : List Char) :
    (∀ blocks, parse_blocks (extract_markers (splitlines t)) = (some blocks, none) →
      (verify_blocks (splitlines t) blocks).2 = [] →
      (set_tags t).2 = ((verify_blocks (splitlines t) blocks).1).map
        (set_tags_range (splitlines t))) ∧
    (∀ b : TextBuffer, check_tags b = none ↔ tags_wellformed b) := by
  constructor
  · intro blocks hp hv
    simp only [set_tags, hp]
    rw [if_pos (by simp [hv])]
    rfl
  · intro b
    exact check_tags_none_iff b

set_option maxRecDepth 1000000 in
/-- Claim C5, as stated, is false: on `demoText5` the installed range
is `(0, 44)` — starting at the start of the marker line itself —
whereas the claim's range for the same block starts at the line after
the start marker (offset 22). -/
theorem C5_set_tags_counterexample :
    (set_tags demoText5).1 = [] ∧
    (set_tags demoText5).2 = [(0, 44)] ∧
    set_tags_claimed_range (splitlines demoText5) demoBlock5 = (22, 44) ∧
    (set_tags demoText5).2 ≠
      [set_tags_claimed_range (splitlines demoText5) demoBlock5] := by
  refine ⟨by decide, by decide, by decide, by decide⟩

set_option maxRecDepth 1000000 in
theorem C5_set_tags_shape_witness :
    parse_blocks (extract_markers (splitlines demoText5)) = (some [demoBlock5], none) ∧
    (verify_blocks (splitlines demoText5) [demoBlock5]).2 = [] ∧
    (set_tags demoText5).2 = ((verify_blocks (splitlines demoText5) [demoBlock5]).1).map
      (set_tags_range (splitlines demoText5)) ∧
    (check_tags demoBuffer = none ↔ tags_wellformed demoBuffer) :=
  ⟨by decide, by decide,
    (C5_set_tags_shape demoText5).1 [demoBlock5] (by decide) (by decide),
    (C5_set_tags_shape demoText5).2 demoBuffer⟩

theorem pin_loop_some {b : TextBuffer} (hinv : SealInv b) (i2 : Nat) :
    ∀ (fuel cs : Nat), i2 ≤ cs + fuel → (pin_loop b i2 fuel cs).isSome = true := by
  intro fuel
  induction fuel with
  | zero =>
    intro cs hle
    simp only [pin_loop]
    rw [if_pos (by omega)]
    rfl
  | succ fuel ih =>
    intro cs hle
    by_cases hcs : i2 ≤ cs
    · simp only [pin_loop]
      rw [if_pos hcs]
      rfl
    · cases hn : tag_nextrange b.tags cs with
      | none =>
        simp only [pin_loop, hn]
        rw [if_neg hcs]
        rfl
      | some se =>
        obtain ⟨s, e⟩ := se
        obtain ⟨hmem, hge, _⟩ := tag_nextrange_min hinv.startSorted hn
        have hse : s < e := hinv.lt (s, e) hmem
        have hrec := ih (e + 1) (by omega)
        cases hrest : pin_loop b i2 fuel (e + 1) with
        | none => rw [hrest] at hrec; cases hrec
        | some rest =>
          simp only [pin_loop, hn]
          rw [if_neg hcs, if_neg (by omega), if_neg (by omega), hrest]
          rfl

theorem pin_loop_props {b : TextBuffer} (hinv : SealInv b) (i2 : Nat) :
    ∀ (fuel cs : Nat) (r : List (Nat × Nat)), pin_loop b i2 fuel cs = some r →
      (∀ q ∈ r, cs ≤ q.1 ∧ q.1 < q.2 ∧ q.2 ≤ i2) ∧
      List.Chain' (fun q1 q2 : Nat × Nat => q1.2 ≤ q2.1) r := by
  intro fuel
  induction fuel with
  | zero =>
    intro cs r hr
    simp only [pin_loop] at hr
    split_ifs at hr
    simp only [Option.some_inj] at hr
    subst hr
    exact ⟨by simp, List.chain'_nil⟩
  | succ fuel ih =>
    intro cs r hr
    by_cases hcs : i2 ≤ cs
    · simp only [pin_loop] at hr
      rw [if_pos hcs] at hr
      simp only [Option.some_inj] at hr
      subst hr
      exact ⟨by simp, List.chain'_nil⟩
    · cases hn : tag_nextrange b.tags cs with
      | none =>
        simp only [pin_loop, hn] at hr
        rw [if_neg hcs] at hr
        simp only [Option.some_inj] at hr
        subst hr
        refine ⟨?_, List.chain'_singleton _⟩
        intro q hq
        simp only [List.mem_singleton] at hq
        subst hq
        exact ⟨le_refl _, by omega, le_refl _⟩
      | some se =>
        obtain ⟨s, e⟩ := se
        obtain ⟨hmem, hge, _⟩ := tag_nextrange_min hinv.startSorted hn
        have hse : s < e := hinv.lt (s, e) hmem
        simp only [pin_loop, hn] at hr
        rw [if_neg hcs, if_neg (by omega), if_neg (by omega)] at hr
        cases hrest : pin_loop b i2 fuel (e + 1) with
        | none => rw [hrest] at hr; cases hr
        | some rest =>
          rw [hrest] at hr
          simp only [Option.some_inj] at hr
          obtain ⟨hrest_mem, hrest_chain⟩ := ih (e + 1) rest hrest
          -- the emitted list in this iteration
          have hemit : ∀ (em : List (Nat × Nat)),
              (∀ q ∈ em, cs ≤ q.1 ∧ q.1 < q.2 ∧ q.2 ≤ i2 ∧ q.2 ≤ e + 1) →
              List.Chain' (fun q1 q2 : Nat × Nat => q1.2 ≤ q2.1) em →
              r = em ++ rest →
              (∀ q ∈ r, cs ≤ q.1 ∧ q.1 < q.2 ∧ q.2 ≤ i2) ∧
                List.Chain' (fun q1 q2 : Nat × Nat => q1.2 ≤ q2.1) r := by
            intro em hem hchain hreq
            subst hreq
            constructor
            · intro q hq
              rcases List.mem_append.mp hq with hq | hq
              · obtain ⟨h1, h2, h3, _⟩ := hem q hq
                exact ⟨h1, h2, h3⟩
              · obtain ⟨h1, h2, h3⟩ := hrest_mem q hq
                exact ⟨by omega, h2, h3⟩
            · rw [List.chain'_append]
              refine ⟨hchain, hrest_chain, ?_⟩
              intro x hx y hy
              have hxm : x ∈ em := by
                obtain ⟨hh, rfl⟩ := List.mem_getLast?_eq_getLast hx
                exact List.getLast_mem hh
              obtain ⟨_, _, _, hx4⟩ := hem x hxm
              have hym : y ∈ rest := by
                cases rest with
                | nil => cases hy
                | cons z zs =>
                  simp only [List.head?_cons, Option.mem_def, Option.some_inj] at hy
                  subst hy
                  simp
              obtain ⟨hy1, _, _⟩ := hrest_mem y hym
              omega
          by_cases h1 : cs = s
          · rw [if_pos h1] at hr
            exact hemit [] (by simp) List.chain'_nil hr.symm
          · rw [if_neg h1] at hr
            by_cases h2 : i2 < s
            · rw [if_pos h2] at hr
              refine hemit [(cs, i2)] ?_ (List.chain'_singleton _) hr.symm
              intro q hq
              simp only [List.mem_singleton] at hq
              subst hq
              refine ⟨le_refl _, by omega, le_refl _, by omega⟩
            · rw [if_neg h2] at hr
              by_cases h3 : cs = 0
              · rw [if_pos h3] at hr
                refine hemit [(cs, s)] ?_ (List.chain'_singleton _) hr.symm
                intro q hq
                simp only [List.mem_singleton] at hq
                subst hq
                exact ⟨le_refl _, by omega, by omega, by omega⟩
              · rw [if_neg h3] at hr
                by_cases h4 : charAt b (cs - 1) = '\n'
                · rw [if_pos h4] at hr
                  refine hemit [(cs, s)] ?_ (List.chain'_singleton _) hr.symm
                  intro q hq
                  simp only [List.mem_singleton] at hq
                  subst hq
                  exact ⟨le_refl _, by omega, by omega, by omega⟩
                · rw [if_neg h4] at hr
                  by_cases h5 : cs < s - 1
                  · rw [if_pos h5] at hr
                    refine hemit [(cs, s - 1)] ?_ (List.chain'_singleton _) hr.symm
                    intro q hq
                    simp only [List.mem_singleton] at hq
                    subst hq
                    exact ⟨le_refl _, by omega, by omega, by omega⟩
                  · rw [if_neg h5] at hr
                    exact hemit [] (by simp) List.chain'_nil hr.symm

/-- Claim C9: under `check_tags`, the cursor of the walk-forward loop
strictly increases on every iteration (whenever the next range `(s,e)`
is found from cursor `cs`, the new cursor `e + 1` exceeds `cs`), and
consequently `pin_deletable_ranges` terminates with a result. -/
theorem C9_pin_loop_terminates (b : TextBuffer) (h : check_tags b = none) (i1 i2 : Nat)
    (h12 : i1 < i2) :
    (∀ cs s e, tag_nextrange b.tags cs = some (s, e) → cs < e + 1) ∧
    (pin_deletable_ranges b i1 i2).isSome = true := by
  have hinv := seal_inv_of_check_tags h
  constructor
  · intro cs s e hn
    obtain ⟨hmem, hge, _⟩ := tag_nextrange_min hinv.startSorted hn
    have hge' : cs ≤ s := hge
    have hlt : s < e := hinv.lt (s, e) hmem
    omega
  · by_cases hsc : i2 = i1 + 1
    · simp only [pin_deletable_ranges]
      rw [if_pos hsc]
      rfl
    · simp only [pin_deletable_ranges]
      rw [if_neg hsc]
      cases hp : tag_prevrange b.tags i1 with
      | none => exact pin_loop_some hinv i2 (i2 + 1) i1 (by omega)
      | some r =>
        obtain ⟨s, e⟩ := r
        dsimp only
        by_cases h1 : i2 ≤ e + 1
        · rw [if_pos h1]
          rfl
        · rw [if_neg h1]
          by_cases h2 : i1 ≤ e
          · rw [if_pos h2]
            exact pin_loop_some hinv i2 (i2 + 1) (e + 1) (by omega)
          · rw [if_neg h2]
            exact pin_loop_some hinv i2 (i2 + 1) i1 (by omega)

theorem C9_pin_loop_terminates_witness :
    check_tags demoBuffer2 = none ∧ (0 : Nat) < 35 ∧
    ((∀ cs s e, tag_nextrange demoBuffer2.tags cs = some (s, e) → cs < e + 1) ∧
      (pin_deletable_ranges demoBuffer2 0 35).isSome = true) :=
  ⟨by decide, by decide, C9_pin_loop_terminates demoBuffer2 (by decide) 0 35 (by decide)⟩

/-- Claim C2: every range emitted by `pin_deletable_ranges` lies
within the query interval `[i1, i2)`, is non-empty, and the emitted
ranges are non-overlapping and ordered (each range ends no later than
the next one starts, hence strictly increasing in buffer order). -/
theorem C2_pin_ranges (b : TextBuffer) (h : check_tags b = none) (i1 i2 : Nat)
    (h12 : i1 < i2) (r : List (Nat × Nat)) (hr : pin_deletable_ranges b i1 i2 = some r) :
    (∀ q ∈ r, i1 ≤ q.1 ∧ q.1 < q.2 ∧ q.2 ≤ i2) ∧
    List.Chain' (fun q1 q2 : Nat × Nat => q1.2 ≤ q2.1) r := by
  have hinv := seal_inv_of_check_tags h
  by_cases hsc : i2 = i1 + 1
  · simp only [pin_deletable_ranges] at hr
    rw [if_pos hsc] at hr
    simp only [Option.some_inj] at hr
    by_cases hd : _is_deletable_wo_preconditions b i1 = true
    · rw [if_pos hd] at hr
      subst hr
      refine ⟨?_, List.chain'_singleton _⟩
      intro q hq
      simp only [List.mem_singleton] at hq
      subst hq
      exact ⟨le_refl _, by omega, le_refl _⟩
    · rw [if_neg hd] at hr
      subst hr
      exact ⟨by simp, List.chain'_nil⟩
  · simp only [pin_deletable_ranges] at hr
    rw [if_neg hsc] at hr
    cases hp : tag_prevrange b.tags i1 with
    | none =>
      rw [hp] at hr
      obtain ⟨hmem, hchain⟩ := pin_loop_props hinv i2 (i2 + 1) i1 r hr
      exact ⟨fun q hq => hmem q hq, hchain⟩
    | some pr =>
      obtain ⟨s, e⟩ := pr
      rw [hp] at hr
      dsimp only at hr
      by_cases h1 : i2 ≤ e + 1
      · rw [if_pos h1] at hr
        simp only [Option.some_inj] at hr
        subst hr
        exact ⟨by simp, List.chain'_nil⟩
      · rw [if_neg h1] at hr
        by_cases h2 : i1 ≤ e
        · rw [if_pos h2] at hr
          obtain ⟨hmem, hchain⟩ := pin_loop_props hinv i2 (i2 + 1) (e + 1) r hr
          refine ⟨?_, hchain⟩
          intro q hq
          obtain ⟨hq1, hq2, hq3⟩ := hmem q hq
          exact ⟨by omega, hq2, hq3⟩
        · rw [if_neg h2] at hr
          obtain ⟨hmem, hchain⟩ := pin_loop_props hinv i2 (i2 + 1) i1 r hr
          exact ⟨fun q hq => hmem q hq, hchain⟩

theorem C2_pin_ranges_witness :
    check_tags demoBuffer2 = none ∧
    pin_deletable_ranges demoBuffer2 0 35 = some [(0, 2), (34, 35)] ∧
    ((∀ q ∈ [((0 : Nat), (2 : Nat)), (34, 35)], 0 ≤ q.1 ∧ q.1 < q.2 ∧ q.2 ≤ 35) ∧
      List.Chain' (fun q1 q2 : Nat × Nat => q1.2 ≤ q2.1) [(0, 2), (34, 35)]) :=
  ⟨by decide, by decide,
    C2_pin_ranges demoBuffer2 (by decide) 0 35 (by decide) [(0, 2), (34, 35)] (by decide)⟩

/-! ### Matcher inversion and replay (for the sealing transform) -/

theorem startsWithWord_iff {w l : List Char} :
    startsWithWord w l = true ↔ ∃ t, l = w ++ t := by
  induction w generalizing l with
  | nil => simp [startsWithWord]
  | cons c w ih =>
    cases l with
    | nil =>
      simp only [startsWithWord]
      constructor
      · intro hc; cases hc
      · rintro ⟨t, ht⟩; cases ht
    | cons d l =>
      simp only [startsWithWord, Bool.and_eq_true, decide_eq_true_eq]
      rw [ih]
      constructor
      · rintro ⟨rfl, t, rfl⟩
        exact ⟨t, rfl⟩
      · rintro ⟨t, ht⟩
        injection ht with h1 h2
        exact ⟨h1.symm, t, h2⟩

theorem dropWhile_eq_cons_split {P : Char → Bool} {l : List Char} {c : Char} {t : List Char}
    (h : l.dropWhile P = c :: t) :
    ∃ a, l = a ++ c :: t ∧ (∀ x ∈ a, P x = true) ∧ P c = false := by
  induction l with
  | nil => cases h
  | cons d l ih =>
    rw [List.dropWhile_cons] at h
    split_ifs at h with hd
    · obtain ⟨a, ha, hall, hc⟩ := ih h
      exact ⟨d :: a, by rw [ha]; rfl, by
        intro x hx
        rcases List.mem_cons.mp hx with rfl | hx
        · exact hd
        · exact hall x hx, hc⟩
    · injection h with h1 h2
      subst h1
      subst h2
      exact ⟨[], rfl, by simp, by simpa using hd⟩

theorem dropWhile_append_stop {P : Char → Bool} {a : List Char} {c : Char} (t : List Char)
    (hall : ∀ x ∈ a, P x = true) (hc : P c = false) :
    (a ++ c :: t).dropWhile P = c :: t := by
  induction a with
  | nil => simp [List.dropWhile_cons, hc]
  | cons d a ih =>
    rw [List.cons_append, List.dropWhile_cons]
    rw [if_pos (hall d (List.mem_cons_self _ _))]
    exact ih (fun x hx => hall x (List.mem_cons_of_mem _ hx))

theorem takeWhile_append_stop {P : Char → Bool} {a : List Char} {c : Char} (t : List Char)
    (hall : ∀ x ∈ a, P x = true) (hc : P c = false) :
    (a ++ c :: t).takeWhile P = a := by
  induction a with
  | nil => simp [List.takeWhile_cons, hc]
  | cons d a ih =>
    rw [List.cons_append, List.takeWhile_cons]
    rw [if_pos (hall d (List.mem_cons_self _ _))]
    rw [ih (fun x hx => hall x (List.mem_cons_of_mem _ hx))]

theorem dropWhile_eq_nil_all {P : Char → Bool} {l : List Char}
    (h : l.dropWhile P = []) : ∀ x ∈ l, P x = true := by
  induction l with
  | nil => intro x hx; cases hx
  | cons d l ih =>
    rw [List.dropWhile_cons] at h
    by_cases hd : P d = true
    · rw [if_pos hd] at h
      intro x hx
      rcases List.mem_cons.mp hx with rfl | hx
      · exact hd
      · exact ih h x hx
    · rw [if_neg hd] at h
      cases h

theorem startsWithWord_append (w t : List Char) : startsWithWord w (w ++ t) = true := by
  induction w with
  | nil => rfl
  | cons c w ih => simp [startsWithWord, ih]

theorem stripAnyKeyword_inv : ∀ {kws : List (List Char)} {l r : List Char},
    stripAnyKeyword kws l = some r → ∃ kw ∈ kws, l = kw ++ r := by
  intro kws
  induction kws with
  | nil => intro l r h; simp [stripAnyKeyword] at h
  | cons kw kws ih =>
    intro l r h
    simp only [stripAnyKeyword] at h
    by_cases hs : startsWithWord kw l = true
    · rw [if_pos hs] at h
      obtain ⟨t, ht⟩ := startsWithWord_iff.mp hs
      refine ⟨kw, List.mem_cons_self _ _, ?_⟩
      simp only [Option.some_inj] at h
      subst ht
      rw [List.drop_left] at h
      rw [h]
    · rw [if_neg hs] at h
      obtain ⟨kw', hmem, heq⟩ := ih h
      exact ⟨kw', List.mem_cons_of_mem _ hmem, heq⟩

theorem stripAnyKeyword_replay : ∀ {kws : List (List Char)} {kw : List Char},
    (∀ kw' ∈ kws, kw'.length = kw.length) → kw ∈ kws → ∀ y : List Char,
    stripAnyKeyword kws (kw ++ y) = some y := by
  intro kws
  induction kws with
  | nil => intro kw _ hmem; cases hmem
  | cons k0 ks ih =>
    intro kw hlen hmem y
    simp only [stripAnyKeyword]
    by_cases hs : startsWithWord k0 (kw ++ y) = true
    · rw [if_pos hs]
      obtain ⟨t, ht⟩ := startsWithWord_iff.mp hs
      have hl : kw.length = k0.length := (hlen k0 (List.mem_cons_self _ _)).symm
      obtain ⟨hk, -⟩ := List.append_inj ht hl
      rw [← hk, List.drop_left]
    · rw [if_neg hs]
      rcases List.mem_cons.mp hmem with h0 | hks
      · exact absurd (h0 ▸ startsWithWord_append kw y) hs
      · exact ih (fun kw' h => hlen kw' (List.mem_cons_of_mem _ h)) hks y

theorem sealedKeywords_spec : ∀ kw ∈ sealedKeywords,
    kw.length = 6 ∧ ∃ c t, kw = c :: t ∧ isPySpace c = false := by
  intro kw hkw
  fin_cases hkw
  · exact ⟨by decide, 's', ['e', 'a', 'l', 'e', 'd'], by decide, by decide⟩
  · exact ⟨by decide, 'S', ['e', 'a', 'l', 'e', 'd'], by decide, by decide⟩
  · exact ⟨by decide, 'S', ['E', 'A', 'L', 'E', 'D'], by decide, by decide⟩

theorem onKeywords_spec : ∀ kw ∈ onKeywords,
    kw.length = 2 ∧ (∃ c t, kw = c :: t ∧ isPySpace c = false ∧ c ≠ ':') ∧
      ∃ ini d, kw = ini ++ [d] ∧ isPySpace d = false := by
  intro kw hkw
  fin_cases hkw
  · exact ⟨by decide, ⟨'o', ['n'], by decide, by decide, by decide⟩,
      ['o'], 'n', by decide, by decide⟩
  · exact ⟨by decide, ⟨'O', ['n'], by decide, by decide, by decide⟩,
      ['O'], 'n', by decide, by decide⟩
  · exact ⟨by decide, ⟨'O', ['N'], by decide, by decide, by decide⟩,
      ['O'], 'N', by decide, by decide⟩

theorem offKeywords_spec : ∀ kw ∈ offKeywords,
    kw.length = 3 ∧ (∃ c t, kw = c :: t ∧ isPySpace c = false ∧ c ≠ ':') ∧
      ∃ ini d, kw = ini ++ [d] ∧ isPySpace d = false := by
  intro kw hkw
  fin_cases hkw
  · exact ⟨by decide, ⟨'o', ['f', 'f'], by decide, by decide, by decide⟩,
      ['o', 'f'], 'f', by decide, by decide⟩
  · exact ⟨by decide, ⟨'O', ['f', 'f'], by decide, by decide, by decide⟩,
      ['O', 'f'], 'f', by decide, by decide⟩
  · exact ⟨by decide, ⟨'O', ['F', 'F'], by decide, by decide, by decide⟩,
      ['O', 'F'], 'F', by decide, by decide⟩

theorem stripOn_off : ∀ kw ∈ offKeywords, ∀ y : List Char,
    stripAnyKeyword onKeywords (kw ++ y) = none := by
  intro kw hkw y
  fin_cases hkw <;>
    simp [stripAnyKeyword, onKeywords, startsWithWord, List.cons_append]

theorem mem_takeWhile_space {l : List Char} : ∀ c ∈ l.takeWhile isPySpace, isPySpace c = true :=
  fun _ hc => List.mem_takeWhile_imp hc

theorem dropWhile_append_head {P : Char → Bool} {a b : List Char}
    (hall : ∀ x ∈ a, P x = true) (hb : ∃ c t, b = c :: t ∧ P c = false) :
    (a ++ b).dropWhile P = b := by
  obtain ⟨c, t, rfl, hc⟩ := hb
  exact dropWhile_append_stop t hall hc

theorem afterSeparator_inv {l r : List Char} (h : afterSeparator l = some r) :
    ∃ sep, l = sep ++ r ∧ sepShape sep := by
  cases hd : l.dropWhile isPySpace with
  | nil =>
    simp only [afterSeparator, hd] at h
    by_cases he : (l.takeWhile isPySpace).isEmpty = true
    · rw [if_pos he] at h; cases h
    · rw [if_neg he] at h
      simp only [Option.some_inj] at h
      subst h
      refine ⟨l.takeWhile isPySpace, ?_, Or.inr ⟨?_, mem_takeWhile_space⟩⟩
      · rw [List.append_nil]
        conv_lhs => rw [← List.takeWhile_append_dropWhile (p := isPySpace) (l := l)]
        rw [hd, List.append_nil]
      · intro hnil
        rw [hnil] at he
        exact he rfl
  | cons c r2 =>
    simp only [afterSeparator, hd] at h
    obtain ⟨w, hl, hwall, hcns⟩ := dropWhile_eq_cons_split hd
    by_cases hc : c = ':'
    · rw [if_pos hc] at h
      simp only [Option.some_inj] at h
      subst hc
      refine ⟨w ++ ':' :: r2.takeWhile isPySpace, ?_,
        Or.inl ⟨w, r2.takeWhile isPySpace, rfl, hwall, mem_takeWhile_space⟩⟩
      rw [hl, ← h]
      conv_lhs => rw [← List.takeWhile_append_dropWhile (p := isPySpace) (l := r2)]
      simp [List.append_assoc]
    · rw [if_neg hc] at h
      by_cases he : (l.takeWhile isPySpace).isEmpty = true
      · rw [if_pos he] at h; cases h
      · rw [if_neg he] at h
        simp only [Option.some_inj] at h
        subst h
        refine ⟨w, hl, Or.inr ⟨?_, hwall⟩⟩
        intro hnil
        subst hnil
        rw [List.nil_append] at hl
        subst hl
        rw [List.takeWhile_cons, if_neg (by simp [hcns])] at he
        exact he rfl

theorem afterSeparator_replay {sep b : List Char}
    (hsep : sepShape sep) (hb : ∃ c t, b = c :: t ∧ isPySpace c = false ∧ c ≠ ':') :
    afterSeparator (sep ++ b) = some b := by
  obtain ⟨c, t, rfl, hc, hcol⟩ := hb
  rcases hsep with ⟨wa, wb, rfl, ha, hbal⟩ | ⟨hne, hall⟩
  · rw [show (wa ++ ':' :: wb) ++ c :: t = wa ++ ':' :: (wb ++ c :: t) from by simp]
    have hd : (wa ++ ':' :: (wb ++ c :: t)).dropWhile isPySpace = ':' :: (wb ++ c :: t) :=
      dropWhile_append_stop _ ha (by decide)
    simp only [afterSeparator, hd, if_true]
    rw [dropWhile_append_stop t hbal hc]
  · have hd : (sep ++ c :: t).dropWhile isPySpace = c :: t := dropWhile_append_stop t hall hc
    have ht : (sep ++ c :: t).takeWhile isPySpace = sep := takeWhile_append_stop t hall hc
    have hie : sep.isEmpty = false := by
      cases sep with
      | nil => exact absurd rfl hne
      | cons a s => rfl
    simp only [afterSeparator, hd, ht]
    rw [if_neg hcol, if_neg (by simp [hie])]

theorem suffixRest_inv {r sfx : List Char} (h : suffixRest r = some sfx) :
    sfx = r ∧ sfxShape r := by
  cases r with
  | nil =>
    simp only [suffixRest, Option.some_inj] at h
    exact ⟨h.symm, Or.inl rfl⟩
  | cons c t =>
    simp only [suffixRest] at h
    by_cases hc : isPySpace c = true
    · rw [if_pos hc] at h
      simp only [Option.some_inj] at h
      exact ⟨h.symm, Or.inr ⟨c, t, rfl, hc⟩⟩
    · rw [if_neg hc] at h; cases h

theorem suffixRest_replay {sfx : List Char} (hs : sfxShape sfx) : suffixRest sfx = some sfx := by
  rcases hs with rfl | ⟨c, t, rfl, hc⟩
  · rfl
  · simp [suffixRest, hc]

theorem seal_match_core_inv {endKws : List (List Char)} {line sfx : List Char}
    (h : seal_match_core endKws line = some sfx) :
    ∃ pfx, line = pfx ++ sfx ∧ pfxShape endKws pfx ∧ sfxShape sfx := by
  cases hd : line.dropWhile isPySpace with
  | nil => simp only [seal_match_core, hd] at h; cases h
  | cons c r1 =>
    simp only [seal_match_core, hd] at h
    by_cases hc : c = '#'
    · rw [if_pos hc] at h
      subst hc
      cases h1 : stripAnyKeyword sealedKeywords (r1.dropWhile isPySpace) with
      | none => simp only [h1] at h; cases h
      | some r3 =>
        simp only [h1] at h
        cases h2 : afterSeparator r3 with
        | none => simp only [h2] at h; cases h
        | some r5 =>
          simp only [h2] at h
          cases h3 : stripAnyKeyword endKws r5 with
          | none => simp only [h3] at h; cases h
          | some r6 =>
            simp only [h3] at h
            obtain ⟨w1, hline, hw1, -⟩ := dropWhile_eq_cons_split hd
            obtain ⟨kw1, hkw1, hr2⟩ := stripAnyKeyword_inv h1
            obtain ⟨sep, hr3, hsep⟩ := afterSeparator_inv h2
            obtain ⟨kw2, hkw2, hr5⟩ := stripAnyKeyword_inv h3
            obtain ⟨hsfx, hshape⟩ := suffixRest_inv h
            refine ⟨w1 ++ '#' :: (r1.takeWhile isPySpace) ++ kw1 ++ sep ++ kw2, ?_,
              ⟨w1, r1.takeWhile isPySpace, kw1, sep, kw2, rfl, hw1,
                mem_takeWhile_space, hkw1, hkw2, hsep⟩, hsfx ▸ hshape⟩
            rw [hline]
            subst hsfx
            conv_lhs =>
              rw [show r1 = r1.takeWhile isPySpace ++ r1.dropWhile isPySpace from
                (List.takeWhile_append_dropWhile isPySpace r1).symm]
            rw [hr2, hr3, hr5]
            simp [List.append_assoc]
    · rw [if_neg hc] at h; cases h

theorem seal_match_core_replay {endKws : List (List Char)} {w1 w2 kw1 sep kw2 : List Char}
    (hw1 : ∀ c ∈ w1, isPySpace c = true) (hw2 : ∀ c ∈ w2, isPySpace c = true)
    (hkw1 : kw1 ∈ sealedKeywords) (hsep : sepShape sep) (hkw2 : kw2 ∈ endKws)
    (hulen : ∀ kw ∈ endKws, kw.length = kw2.length)
    (hc2 : ∃ c t, kw2 = c :: t ∧ isPySpace c = false ∧ c ≠ ':')
    {sfx : List Char} (hs : sfxShape sfx) :
    seal_match_core endKws ((w1 ++ '#' :: w2 ++ kw1 ++ sep ++ kw2) ++ sfx) = some sfx := by
  obtain ⟨hkl1, c1, t1, hck1, hns1⟩ := sealedKeywords_spec kw1 hkw1
  obtain ⟨c2, t2, hck2, hns2, hnc2⟩ := hc2
  rw [show (w1 ++ '#' :: w2 ++ kw1 ++ sep ++ kw2) ++ sfx =
      w1 ++ '#' :: (w2 ++ (kw1 ++ (sep ++ (kw2 ++ sfx)))) from by simp]
  have hd1 : (w1 ++ '#' :: (w2 ++ (kw1 ++ (sep ++ (kw2 ++ sfx))))).dropWhile isPySpace =
      '#' :: (w2 ++ (kw1 ++ (sep ++ (kw2 ++ sfx)))) :=
    dropWhile_append_stop _ hw1 (by decide)
  have hd2 : (w2 ++ (kw1 ++ (sep ++ (kw2 ++ sfx)))).dropWhile isPySpace =
      kw1 ++ (sep ++ (kw2 ++ sfx)) := by
    refine dropWhile_append_head hw2 ⟨c1, t1 ++ (sep ++ (kw2 ++ sfx)), ?_, hns1⟩
    rw [hck1]
    simp
  have hlen1 : ∀ kw' ∈ sealedKeywords, kw'.length = kw1.length := fun kw' h' =>
    (sealedKeywords_spec kw' h').1.trans hkl1.symm
  have hd3 : afterSeparator (sep ++ (kw2 ++ sfx)) = some (kw2 ++ sfx) := by
    refine afterSeparator_replay hsep ⟨c2, t2 ++ sfx, ?_, hns2, hnc2⟩
    rw [hck2]
    simp
  simp only [seal_match_core, hd1, if_true,
    stripAnyKeyword_replay hlen1 hkw1, hd2, hd3,
    stripAnyKeyword_replay hulen hkw2, suffixRest_replay hs]

theorem seal_match_core_cross {w1 w2 kw1 sep kw2 : List Char}
    (hw1 : ∀ c ∈ w1, isPySpace c = true) (hw2 : ∀ c ∈ w2, isPySpace c = true)
    (hkw1 : kw1 ∈ sealedKeywords) (hsep : sepShape sep) (hkw2 : kw2 ∈ offKeywords)
    (sfx : List Char) :
    seal_match_core onKeywords ((w1 ++ '#' :: w2 ++ kw1 ++ sep ++ kw2) ++ sfx) = none := by
  obtain ⟨hkl1, c1, t1, hck1, hns1⟩ := sealedKeywords_spec kw1 hkw1
  obtain ⟨hkl2, ⟨c2, t2, hck2, hns2, hnc2⟩, -⟩ := offKeywords_spec kw2 hkw2
  rw [show (w1 ++ '#' :: w2 ++ kw1 ++ sep ++ kw2) ++ sfx =
      w1 ++ '#' :: (w2 ++ (kw1 ++ (sep ++ (kw2 ++ sfx)))) from by simp]
  have hd1 : (w1 ++ '#' :: (w2 ++ (kw1 ++ (sep ++ (kw2 ++ sfx))))).dropWhile isPySpace =
      '#' :: (w2 ++ (kw1 ++ (sep ++ (kw2 ++ sfx)))) :=
    dropWhile_append_stop _ hw1 (by decide)
  have hd2 : (w2 ++ (kw1 ++ (sep ++ (kw2 ++ sfx)))).dropWhile isPySpace =
      kw1 ++ (sep ++ (kw2 ++ sfx)) := by
    refine dropWhile_append_head hw2 ⟨c1, t1 ++ (sep ++ (kw2 ++ sfx)), ?_, hns1⟩
    rw [hck1]
    simp
  have hlen1 : ∀ kw' ∈ sealedKeywords, kw'.length = kw1.length := fun kw' h' =>
    (sealedKeywords_spec kw' h').1.trans hkl1.symm
  have hd3 : afterSeparator (sep ++ (kw2 ++ sfx)) = some (kw2 ++ sfx) := by
    refine afterSeparator_replay hsep ⟨c2, t2 ++ sfx, ?_, hns2, hnc2⟩
    rw [hck2]
    simp
  simp only [seal_match_core, hd1, if_true,
    stripAnyKeyword_replay hlen1 hkw1, hd2, hd3, stripOn_off kw2 hkw2 sfx]

theorem seal_match_inv {endKws : List (List Char)} {line pfx sfx : List Char}
    (h : seal_match endKws line = some (pfx, sfx)) :
    markerLineShape endKws line pfx sfx := by
  cases hc : seal_match_core endKws line with
  | none => rw [seal_match, hc] at h; cases h
  | some s =>
    rw [seal_match, hc] at h
    simp only [Option.some_inj, Prod.mk.injEq] at h
    obtain ⟨hp, hsfx⟩ := h
    obtain ⟨pfx0, hline, hshape, hsh⟩ := seal_match_core_inv hc
    have hlen : line.length - s.length = pfx0.length := by
      rw [hline, List.length_append]
      omega
    subst hsfx
    refine ⟨?_, ?_, hsh⟩
    · rw [← hp, hlen, hline, List.take_left]
      exact hshape
    · rw [← hp, hlen, hline, List.take_left]

theorem seal_match_replay {endKws : List (List Char)}
    (he : endKws = onKeywords ∨ endKws = offKeywords)
    {pfx sfx : List Char} (hp : pfxShape endKws pfx) (hs : sfxShape sfx) :
    seal_match endKws (pfx ++ sfx) = some (pfx, sfx) := by
  obtain ⟨w1, w2, kw1, sep, kw2, rfl, hw1, hw2, hkw1, hkw2, hsep⟩ := hp
  have hulen : ∀ kw ∈ endKws, kw.length = kw2.length := by
    rcases he with rfl | rfl
    · exact fun kw h' => ((onKeywords_spec kw h').1).trans ((onKeywords_spec kw2 hkw2).1).symm
    · exact fun kw h' => ((offKeywords_spec kw h').1).trans ((offKeywords_spec kw2 hkw2).1).symm
  have hc2 : ∃ c t, kw2 = c :: t ∧ isPySpace c = false ∧ c ≠ ':' := by
    rcases he with rfl | rfl
    · exact (onKeywords_spec kw2 hkw2).2.1
    · exact (offKeywords_spec kw2 hkw2).2.1
  have hcore := seal_match_core_replay hw1 hw2 hkw1 hsep hkw2 hulen hc2 hs
  have hlen : ((w1 ++ '#' :: w2 ++ kw1 ++ sep ++ kw2) ++ sfx).length - sfx.length =
      (w1 ++ '#' :: w2 ++ kw1 ++ sep ++ kw2).length := by
    rw [List.length_append]
    omega
  simp only [seal_match, hcore]
  rw [hlen, List.take_left]

theorem seal_match_cross {pfx : List Char} (hp : pfxShape offKeywords pfx)
    (sfx : List Char) :
    seal_match onKeywords (pfx ++ sfx) = none := by
  obtain ⟨w1, w2, kw1, sep, kw2, rfl, hw1, hw2, hkw1, hkw2, hsep⟩ := hp
  simp only [seal_match, seal_match_core_cross hw1 hw2 hkw1 hsep hkw2 sfx]

theorem dropWhile_head_false {P : Char → Bool} {l : List Char}
    (h : ∀ c ∈ l, P c = false) : l.dropWhile P = l := by
  cases l with
  | nil => rfl
  | cons c t =>
    rw [List.dropWhile_cons, if_neg]
    simp [h c (List.mem_cons_self _ _)]

theorem pyRstrip_eq_self {l : List Char}
    (h : ∃ ini c, l = ini ++ [c] ∧ isPySpace c = false) : pyRstrip l = l := by
  obtain ⟨ini, c, rfl, hc⟩ := h
  rw [pyRstrip]
  rw [show (ini ++ [c]).reverse = c :: ini.reverse from by simp]
  rw [List.dropWhile_cons, if_neg (by simp [hc])]
  simp

theorem pyStrip_space_cons {l : List Char}
    (h : ∀ c ∈ l, isPySpace c = false) : pyStrip (' ' :: l) = l := by
  rw [pyStrip, List.dropWhile_cons, if_pos (by decide)]
  rw [dropWhile_head_false h]
  rw [dropWhile_head_false (fun c hc => h c (List.mem_reverse.mp hc))]
  exact List.reverse_reverse l

theorem pfxShape_last_nonspace {endKws : List (List Char)} {pfx : List Char}
    (he : endKws = onKeywords ∨ endKws = offKeywords)
    (hp : pfxShape endKws pfx) :
    ∃ ini c, pfx = ini ++ [c] ∧ isPySpace c = false := by
  obtain ⟨w1, w2, kw1, sep, kw2, rfl, -, -, -, hkw2, -⟩ := hp
  have hk : ∃ ini d, kw2 = ini ++ [d] ∧ isPySpace d = false := by
    rcases he with rfl | rfl
    · exact (onKeywords_spec kw2 hkw2).2.2
    · exact (offKeywords_spec kw2 hkw2).2.2
  obtain ⟨ini2, d, hd, hdns⟩ := hk
  exact ⟨w1 ++ '#' :: w2 ++ kw1 ++ sep ++ ini2, d, by rw [hd]; simp, hdns⟩

theorem leBytes_lt : ∀ (k n : Nat), ∀ b ∈ leBytes n k, b < 256 := by
  intro k
  induction k with
  | zero => intro n b hb; cases hb
  | succ k ih =>
    intro n b hb
    rcases List.mem_cons.mp hb with rfl | hb
    · exact Nat.mod_lt _ (by omega)
    · exact ih _ b hb

theorem leBytes_length : ∀ (k n : Nat), (leBytes n k).length = k := by
  intro k
  induction k with
  | zero => intro n; rfl
  | succ k ih => intro n; simp [leBytes, ih]

theorem md5Bytes_lt {msg : List Nat} : ∀ b ∈ md5Bytes msg, b < 256 := by
  intro b hb
  rw [md5Bytes] at hb
  rcases hx : (chunks64 (md5Pad msg)).foldl md5Chunk
      (0x67452301, 0xefcdab89, 0x98badcfe, 0x10325476) with ⟨a0, b0, c0, d0⟩
  simp only [hx] at hb
  rcases List.mem_append.mp hb with h | h
  · rcases List.mem_append.mp h with h | h
    · rcases List.mem_append.mp h with h | h
      · exact leBytes_lt 4 a0 b h
      · exact leBytes_lt 4 b0 b h
    · exact leBytes_lt 4 c0 b h
  · exact leBytes_lt 4 d0 b h

theorem md5Bytes_length {msg : List Nat} : (md5Bytes msg).length = 16 := by
  rw [md5Bytes]
  rcases hx : (chunks64 (md5Pad msg)).foldl md5Chunk
      (0x67452301, 0xefcdab89, 0x98badcfe, 0x10325476) with ⟨a0, b0, c0, d0⟩
  simp [leBytes_length]

theorem hexDigit_nonspace {n : Nat} (h : n < 16) : isPySpace (hexDigit n) = false := by
  interval_cases n <;> decide

theorem hexOfBytes_nonspace : ∀ {bs : List Nat}, (∀ b ∈ bs, b < 256) →
    ∀ c ∈ hexOfBytes bs, isPySpace c = false := by
  intro bs
  induction bs with
  | nil => intro _ c hc; cases hc
  | cons b bs ih =>
    intro hlt c hc
    have hb := hlt b (List.mem_cons_self _ _)
    rcases List.mem_cons.mp hc with rfl | hc
    · exact hexDigit_nonspace (by omega)
    rcases List.mem_cons.mp hc with rfl | hc
    · exact hexDigit_nonspace (Nat.mod_lt _ (by omega))
    · exact ih (fun x hx => hlt x (List.mem_cons_of_mem _ hx)) c hc

theorem hexOfBytes_length : ∀ (bs : List Nat), (hexOfBytes bs).length = 2 * bs.length := by
  intro bs
  induction bs with
  | nil => rfl
  | cons b bs ih => simp [hexOfBytes, ih]; omega

theorem md5Hex_nonspace {s : List Char} : ∀ c ∈ md5Hex s, isPySpace c = false := by
  intro c hc
  exact hexOfBytes_nonspace md5Bytes_lt c hc

theorem md5Hex_length {s : List Char} : (md5Hex s).length = 32 := by
  rw [md5Hex, hexOfBytes_length, md5Bytes_length]

theorem blockFingerprint_nonspace {lines : List (List Char)} {i : Nat} {b : Block} :
    ∀ c ∈ blockFingerprint lines i b, isPySpace c = false := by
  intro c hc
  rw [blockFingerprint] at hc
  exact md5Hex_nonspace c (List.drop_subset _ _ hc)

theorem blockFingerprint_length {lines : List (List Char)} {i : Nat} {b : Block} :
    (blockFingerprint lines i b).length = 8 := by
  rw [blockFingerprint]
  simp [md5Hex_length]

theorem pyStrip_fingerprint {lines : List (List Char)} {i : Nat} {b : Block} :
    pyStrip (' ' :: blockFingerprint lines i b) = blockFingerprint lines i b :=
  pyStrip_space_cons blockFingerprint_nonspace

theorem sealedLine_eq_append {endKws : List (List Char)} {pfx : List Char}
    (he : endKws = onKeywords ∨ endKws = offKeywords)
    (hp : pfxShape endKws pfx) (h : List Char) :
    sealedLine pfx h = pfx ++ ' ' :: h := by
  rw [sealedLine, pyRstrip_eq_self (pfxShape_last_nonspace he hp)]

theorem markerOfLine_eq_some {n : Nat} {line : List Char} {m : SealMarker} :
    markerOfLine n line = some m ↔
      (∃ p s, seal_match onKeywords line = some (p, s) ∧
         m = ⟨n, MarkerKind.first, p, some (pyStrip s)⟩) ∨
      (seal_match onKeywords line = none ∧ ∃ p s,
         seal_match offKeywords line = some (p, s) ∧
         m = ⟨n, MarkerKind.last, p, some (pyStrip s)⟩) := by
  constructor
  · intro h
    rcases h1 : seal_match onKeywords line with - | ⟨p, s⟩
    · rcases h2 : seal_match offKeywords line with - | ⟨p, s⟩
      · simp only [markerOfLine, h1, h2] at h
        cases h
      · simp only [markerOfLine, h1, h2, Option.some_inj] at h
        exact Or.inr ⟨rfl, p, s, rfl, h.symm⟩
    · simp only [markerOfLine, h1, Option.some_inj] at h
      exact Or.inl ⟨p, s, rfl, h.symm⟩
  · rintro (⟨p, s, h1, rfl⟩ | ⟨h1, p, s, h2, rfl⟩)
    · simp only [markerOfLine, h1]
    · simp only [markerOfLine, h1, h2]

theorem markerOfLine_lineno {n : Nat} {line : List Char} {m : SealMarker}
    (h : markerOfLine n line = some m) : m.lineno = n := by
  rcases markerOfLine_eq_some.mp h with ⟨p, s, -, rfl⟩ | ⟨-, p, s, -, rfl⟩ <;> rfl

theorem extract_markers_from_append (a b : List (List Char)) : ∀ i,
    extract_markers_from i (a ++ b) =
      extract_markers_from i a ++ extract_markers_from (i + a.length) b := by
  induction a with
  | nil => intro i; simp [extract_markers_from]
  | cons line rest ih =>
    intro i
    simp only [List.cons_append, extract_markers_from]
    cases hm : markerOfLine i line with
    | some m =>
      simp only [hm, List.append_eq, ih (i + 1), List.length_cons, List.cons_append]
      rw [show i + (rest.length + 1) = i + 1 + rest.length from by omega]
    | none =>
      simp only [hm, List.append_eq, ih (i + 1), List.length_cons]
      rw [show i + (rest.length + 1) = i + 1 + rest.length from by omega]

theorem extract_markers_from_mem {ls : List (List Char)} : ∀ {i : Nat} {m : SealMarker},
    m ∈ extract_markers_from i ls →
    ∃ j, j < ls.length ∧ m.lineno = i + j ∧ markerOfLine (i + j) (ls.getD j []) = some m := by
  induction ls with
  | nil => intro i m hm; cases hm
  | cons line rest ih =>
    intro i m hm
    cases hm0 : markerOfLine i line with
    | some m0 =>
      simp only [extract_markers_from, hm0] at hm
      rcases List.mem_cons.mp hm with rfl | hm
      · refine ⟨0, by simp, ?_, ?_⟩
        · rw [markerOfLine_lineno hm0]
          omega
        · simpa using hm0
      · obtain ⟨j, hj, hl, hmo⟩ := ih hm
        refine ⟨j + 1, by simpa using Nat.succ_lt_succ hj, by omega, ?_⟩
        rw [List.getD_cons_succ, show i + (j + 1) = i + 1 + j from by omega]
        exact hmo
    | none =>
      simp only [extract_markers_from, hm0] at hm
      obtain ⟨j, hj, hl, hmo⟩ := ih hm
      refine ⟨j + 1, by simpa using Nat.succ_lt_succ hj, by omega, ?_⟩
      rw [List.getD_cons_succ, show i + (j + 1) = i + 1 + j from by omega]
      exact hmo

theorem extract_markers_from_of_line {ls : List (List Char)} : ∀ {i j : Nat} {m : SealMarker},
    j < ls.length → markerOfLine (i + j) (ls.getD j []) = some m →
    m ∈ extract_markers_from i ls := by
  induction ls with
  | nil => intro i j m hj; exact absurd hj (by simp)
  | cons line rest ih =>
    intro i j m hj hm
    cases j with
    | zero =>
      rw [List.getD_cons_zero, Nat.add_zero] at hm
      simp only [extract_markers_from, hm]
      exact List.mem_cons_self _ _
    | succ j =>
      rw [List.getD_cons_succ, show i + (j + 1) = i + 1 + j from by omega] at hm
      have hmem := ih (by simpa using Nat.lt_of_succ_lt_succ hj) hm
      cases hm0 : markerOfLine i line with
      | some m0 =>
        simp only [extract_markers_from, hm0]
        exact List.mem_cons_of_mem _ hmem
      | none =>
        simp only [extract_markers_from, hm0]
        exact hmem

theorem extract_markers_from_sorted (ls : List (List Char)) : ∀ i,
    (extract_markers_from i ls).Pairwise (fun a b => a.lineno < b.lineno) := by
  induction ls with
  | nil => intro i; simp [extract_markers_from]
  | cons line rest ih =>
    intro i
    cases hm0 : markerOfLine i line with
    | none =>
      simp only [extract_markers_from, hm0]
      exact ih (i + 1)
    | some m0 =>
      simp only [extract_markers_from, hm0]
      refine List.Pairwise.cons ?_ (ih (i + 1))
      intro m hm
      obtain ⟨j, hj, hl, -⟩ := extract_markers_from_mem hm
      rw [markerOfLine_lineno hm0, hl]
      omega

theorem extract_markers_from_none {ls : List (List Char)} : ∀ {i : Nat},
    (∀ j, j < ls.length → markerOfLine (i + j) (ls.getD j []) = none) →
    extract_markers_from i ls = [] := by
  induction ls with
  | nil => intro i _; rfl
  | cons line rest ih =>
    intro i h
    have h0 : markerOfLine i line = none := by
      have := h 0 (by simp)
      simpa using this
    simp only [extract_markers_from, h0]
    refine ih ?_
    intro j hj
    have := h (j + 1) (by simpa using Nat.succ_lt_succ hj)
    rw [List.getD_cons_succ] at this
    rw [show i + 1 + j = i + (j + 1) from by omega]
    exact this

theorem extract_markers_from_cons_some {i : Nat} {line : List Char}
    {rest : List (List Char)} {m : SealMarker} (h : markerOfLine i line = some m) :
    extract_markers_from i (line :: rest) = m :: extract_markers_from (i + 1) rest := by
  simp only [extract_markers_from, h]

theorem parse_blocks_loop_flat : ∀ (ms : List SealMarker) (acc : List Block)
    (open? : Option SealMarker) (bs : List Block),
    (∀ f, open? = some f → f.kind = MarkerKind.first) →
    parse_blocks_loop acc open? ms = (some bs, none) →
    ∃ bs', bs = acc ++ bs' ∧
      (match open? with | none => ms | some f => f :: ms) =
        bs'.flatMap (fun b => [b.first, b.last]) ∧
      ∀ b ∈ bs', b.first.kind = MarkerKind.first ∧ b.last.kind = MarkerKind.last := by
  intro ms
  induction ms with
  | nil =>
    intro acc open? bs hopen h
    cases open? with
    | some f => simp [parse_blocks_loop] at h
    | none =>
      simp only [parse_blocks_loop, Prod.mk.injEq, Option.some_inj] at h
      refine ⟨[], ?_, rfl, by simp⟩
      rw [← h.1, List.append_nil]
  | cons m rest ih =>
    intro acc open? bs hopen h
    cases hk : m.kind with
    | first =>
      cases open? with
      | none =>
        have h' : parse_blocks_loop acc (some m) rest = (some bs, none) := by
          simpa only [parse_blocks_loop, hk] using h
        obtain ⟨bs', hbs, hflat, hkinds⟩ :=
          ih acc (some m) bs (fun f hf => by injection hf with hf; rw [← hf]; exact hk) h'
        exact ⟨bs', hbs, hflat, hkinds⟩
      | some f => simp [parse_blocks_loop, hk] at h
    | last =>
      cases open? with
      | none => simp [parse_blocks_loop, hk] at h
      | some f =>
        cases hs : suffixCheck f m with
        | some err => simp [parse_blocks_loop, hk, hs] at h
        | none =>
          have h' : parse_blocks_loop (acc ++ [⟨f, m⟩]) none rest = (some bs, none) := by
            simpa only [parse_blocks_loop, hk, hs] using h
          obtain ⟨bs', hbs, hflat, hkinds⟩ := ih _ none bs (by intro f hf; cases hf) h'
          have hflat' : rest = bs'.flatMap (fun b => [b.first, b.last]) := hflat
          refine ⟨⟨f, m⟩ :: bs', by simp [hbs], ?_, ?_⟩
          · rw [hflat']
            simp
          · intro b hb
            rcases List.mem_cons.mp hb with rfl | hb
            · exact ⟨hopen f rfl, hk⟩
            · exact hkinds b hb

theorem parse_blocks_flat {ms : List SealMarker} {bs : List Block}
    (h : parse_blocks ms = (some bs, none)) :
    ms = bs.flatMap (fun b => [b.first, b.last]) ∧
    ∀ b ∈ bs, b.first.kind = MarkerKind.first ∧ b.last.kind = MarkerKind.last := by
  obtain ⟨bs', hbs, hflat, hkinds⟩ :=
    parse_blocks_loop_flat ms [] none bs (by intro f hf; cases hf) h
  rw [List.nil_append] at hbs
  subst hbs
  exact ⟨hflat, hkinds⟩

theorem ordered_of_flat {n : Nat} : ∀ {bs : List Block},
    ((bs.flatMap fun b => [b.first, b.last]).Pairwise (fun a b => a.lineno < b.lineno)) →
    (∀ m ∈ bs.flatMap (fun b => [b.first, b.last]), m.lineno < n) →
    blocksOrdered n bs := by
  intro bs
  induction bs with
  | nil => intro _ _; exact ⟨by simp, by simp⟩
  | cons b rest ih =>
    intro hp hb
    rw [show (b :: rest).flatMap (fun b => [b.first, b.last]) =
        b.first :: b.last :: rest.flatMap (fun b => [b.first, b.last]) from by simp] at hp hb
    obtain ⟨hp1, hp'⟩ := List.pairwise_cons.mp hp
    obtain ⟨hp2, hp3⟩ := List.pairwise_cons.mp hp'
    obtain ⟨hrb, hrp⟩ := ih hp3 (fun m hm => hb m (by simp [hm]))
    constructor
    · intro b' hb'
      rcases List.mem_cons.mp hb' with rfl | hb'
      · exact ⟨hp1 b'.last (by simp), hb b'.last (by simp)⟩
      · exact hrb b' hb'
    · refine List.pairwise_cons.mpr ⟨?_, hrp⟩
      intro y hy
      exact hp2 y.first (List.mem_flatMap.mpr ⟨y, hy, by simp⟩)

theorem blocksOrdered_of_parse {lines : List (List Char)} {bs : List Block}
    (h : parse_blocks (extract_markers lines) = (some bs, none)) :
    blocksOrdered lines.length bs := by
  obtain ⟨hflat, -⟩ := parse_blocks_flat h
  refine ordered_of_flat (hflat ▸ extract_markers_from_sorted lines 0) ?_
  intro m hm
  rw [← hflat] at hm
  obtain ⟨j, hj, hl, -⟩ := extract_markers_from_mem hm
  omega

theorem blocks_shape {lines : List (List Char)} {bs : List Block}
    (h : parse_blocks (extract_markers lines) = (some bs, none)) :
    ∀ b ∈ bs, pfxShape onKeywords b.first.pfx ∧ pfxShape offKeywords b.last.pfx := by
  obtain ⟨hflat, hkinds⟩ := parse_blocks_flat h
  intro b hb
  constructor
  · have hmem : b.first ∈ extract_markers lines := by
      rw [hflat]
      exact List.mem_flatMap.mpr ⟨b, hb, by simp⟩
    obtain ⟨j, hj, hl, hmo⟩ := extract_markers_from_mem hmem
    rcases markerOfLine_eq_some.mp hmo with ⟨p, s, hmatch, heq⟩ | ⟨-, p, s, hmatch, heq⟩
    · have := (seal_match_inv hmatch).1
      rw [heq]
      exact this
    · exact absurd (congrArg SealMarker.kind heq) (by
        rw [(hkinds b hb).1]
        simp)
  · have hmem : b.last ∈ extract_markers lines := by
      rw [hflat]
      exact List.mem_flatMap.mpr ⟨b, hb, by simp⟩
    obtain ⟨j, hj, hl, hmo⟩ := extract_markers_from_mem hmem
    rcases markerOfLine_eq_some.mp hmo with ⟨p, s, hmatch, heq⟩ | ⟨-, p, s, hmatch, heq⟩
    · exact absurd (congrArg SealMarker.kind heq) (by
        rw [(hkinds b hb).2]
        simp)
    · have := (seal_match_inv hmatch).1
      rw [heq]
      exact this

theorem markerOfLine_nil (n : Nat) : markerOfLine n [] = none := rfl

theorem no_marker_off {lines : List (List Char)} {bs : List Block}
    (h : parse_blocks (extract_markers lines) = (some bs, none)) {j : Nat}
    (hj : ∀ b ∈ bs, j ≠ b.first.lineno ∧ j ≠ b.last.lineno) :
    markerOfLine j (lines.getD j []) = none := by
  obtain ⟨hflat, -⟩ := parse_blocks_flat h
  by_cases hlen : j < lines.length
  · cases hmo : markerOfLine j (lines.getD j []) with
    | none => rfl
    | some m =>
      have hmem : m ∈ extract_markers lines :=
        extract_markers_from_of_line hlen (by simpa using hmo)
      rw [hflat] at hmem
      obtain ⟨b, hb, hm⟩ := List.mem_flatMap.mp hmem
      have hlm : m.lineno = j := markerOfLine_lineno hmo
      simp only [List.mem_cons, List.not_mem_nil, or_false] at hm
      rcases hm with rfl | rfl
      · exact absurd hlm.symm (hj b hb).1
      · exact absurd hlm.symm (hj b hb).2
  · rw [List.getD_eq_default _ _ (by omega), markerOfLine_nil]

theorem parse_blocks_loop_resealed (L : List (List Char)) : ∀ (bs : List Block) (i : Nat)
    (acc : List Block), parse_blocks_loop acc none (resealedMarkers L i bs) =
      (some (acc ++ resealedBlocks L i bs), none) := by
  intro bs
  induction bs with
  | nil => intro i acc; simp [resealedMarkers, resealedBlocks, parse_blocks_loop]
  | cons b rest ih =>
    intro i acc
    simp only [resealedMarkers, resealedBlocks, parse_blocks_loop, suffixCheck, if_pos rfl]
    rw [ih (i + 1)]
    simp

theorem seg_length {L : List (List Char)} {a b : Nat} (hb : b ≤ L.length) :
    (seg L a b).length = b - a := by
  rw [seg, List.length_take, List.length_drop]
  omega

theorem getD_drop (L : List (List Char)) (n k : Nat) (d : List Char) :
    (L.drop n).getD k d = L.getD (n + k) d := by
  simp [List.getD_eq_getElem?_getD, List.getElem?_drop]

theorem seg_getD {L : List (List Char)} {a b k : Nat} (hk : k < b - a) (d : List Char) :
    (seg L a b).getD k d = L.getD (a + k) d := by
  rw [seg, List.getD_eq_getElem?_getD, List.getElem?_take_of_lt (by omega),
    List.getElem?_drop, ← List.getD_eq_getElem?_getD]

theorem seal_rest_cons (L : List (List Char)) (i : Nat) (b : Block) (rest : List Block) :
    seal_rest L i (b :: rest) =
      sealedLine b.first.pfx (blockFingerprint L i b) ::
        (seg L (b.first.lineno + 1) b.last.lineno ++
         sealedLine b.last.pfx (blockFingerprint L i b) ::
         (match rest with
          | [] => L.drop (b.last.lineno + 1)
          | b2 :: _ => seg L (b.last.lineno + 1) b2.first.lineno ++ seal_rest L (i + 1) rest)) := by
  cases rest <;> simp [seal_rest]

theorem blocksOrdered_tail {n : Nat} {b : Block} {rest : List Block}
    (h : blocksOrdered n (b :: rest)) : blocksOrdered n rest :=
  ⟨fun b' hb' => h.1 b' (List.mem_cons_of_mem _ hb'), (List.pairwise_cons.mp h.2).2⟩

theorem blocksOrdered_head_lt {n : Nat} {b : Block} {rest : List Block}
    (h : blocksOrdered n (b :: rest)) : ∀ y ∈ rest, b.last.lineno < y.first.lineno :=
  (List.pairwise_cons.mp h.2).1

theorem blocksOrdered_head_le {n : Nat} {b : Block} {rest : List Block}
    (h : blocksOrdered n (b :: rest)) : ∀ bk ∈ b :: rest,
      b.first.lineno ≤ bk.first.lineno ∧ b.first.lineno ≤ bk.last.lineno := by
  intro bk hbk
  have hfb := h.1 b (List.mem_cons_self _ _)
  rcases List.mem_cons.mp hbk with rfl | hbk
  · exact ⟨Nat.le_refl _, Nat.le_of_lt hfb.1⟩
  · have h1 := blocksOrdered_head_lt h bk hbk
    have h2 := (h.1 bk (List.mem_cons_of_mem _ hbk)).1
    omega

theorem seal_rest_length (L : List (List Char)) : ∀ (bs : List Block) (b0 : Block) (i : Nat),
    bs.head? = some b0 → blocksOrdered L.length bs →
    (seal_rest L i bs).length = L.length - b0.first.lineno := by
  intro bs
  induction bs with
  | nil => intro b0 i h; cases h
  | cons b rest ih =>
    intro b0 i hh hord
    injection hh with hh
    subst hh
    have hfb := hord.1 b (List.mem_cons_self _ _)
    rw [seal_rest_cons]
    cases rest with
    | nil =>
      simp only [List.length_cons, List.length_append, List.length_drop]
      rw [seg_length (by omega)]
      omega
    | cons b2 rest' =>
      have h12 := blocksOrdered_head_lt hord b2 (List.mem_cons_self _ _)
      have hfb2 := hord.1 b2 (by simp)
      have ihr := ih b2 (i + 1) rfl (blocksOrdered_tail hord)
      simp only [List.length_cons, List.length_append]
      rw [seg_length (by omega), seg_length (by omega), ihr]
      omega

theorem seal_rest_marker_getD (L : List (List Char)) : ∀ (bs : List Block) (b0 : Block) (i : Nat),
    bs.head? = some b0 → blocksOrdered L.length bs →
    ∀ (k : Nat) (bk : Block), bs[k]? = some bk →
      (seal_rest L i bs).getD (bk.first.lineno - b0.first.lineno) [] =
        sealedLine bk.first.pfx (blockFingerprint L (i + k) bk) ∧
      (seal_rest L i bs).getD (bk.last.lineno - b0.first.lineno) [] =
        sealedLine bk.last.pfx (blockFingerprint L (i + k) bk) := by
  intro bs
  induction bs with
  | nil => intro b0 i h; cases h
  | cons b rest ih =>
    intro b0 i hh hord k bk hk
    injection hh with hh
    subst hh
    have hfb := hord.1 b (List.mem_cons_self _ _)
    rw [seal_rest_cons]
    cases k with
    | zero =>
      rw [List.getElem?_cons_zero, Option.some_inj] at hk
      subst hk
      constructor
      · rw [Nat.sub_self, List.getD_cons_zero, Nat.add_zero]
      · have hsl : (seg L (b.first.lineno + 1) b.last.lineno).length =
            b.last.lineno - b.first.lineno - 1 := by
          rw [seg_length (by omega)]
          omega
        have he : b.last.lineno - b.first.lineno = (b.last.lineno - b.first.lineno - 1) + 1 := by
          omega
        rw [he, List.getD_cons_succ, List.getD_append_right _ _ _ _ (by omega), hsl,
          Nat.sub_self, List.getD_cons_zero, Nat.add_zero]
    | succ k' =>
      rw [List.getElem?_cons_succ] at hk
      cases rest with
      | nil => simp at hk
      | cons b2 rest' =>
        have hordr := blocksOrdered_tail hord
        have h12 := blocksOrdered_head_lt hord b2 (List.mem_cons_self _ _)
        have hfb2 := hord.1 b2 (by simp)
        have hbk := List.getElem?_mem hk
        have hble := blocksOrdered_head_le hordr bk hbk
        have ihk := ih b2 (i + 1) rfl hordr k' bk hk
        have hsl : (seg L (b.first.lineno + 1) b.last.lineno).length =
            b.last.lineno - b.first.lineno - 1 := by
          rw [seg_length (by omega)]
          omega
        have hgl : (seg L (b.last.lineno + 1) b2.first.lineno).length =
            b2.first.lineno - b.last.lineno - 1 := by
          rw [seg_length (by omega)]
          omega
        have hstep : ∀ x, b2.first.lineno ≤ x →
            (sealedLine b.first.pfx (blockFingerprint L i b) ::
              (seg L (b.first.lineno + 1) b.last.lineno ++
               sealedLine b.last.pfx (blockFingerprint L i b) ::
               (seg L (b.last.lineno + 1) b2.first.lineno ++
                seal_rest L (i + 1) (b2 :: rest')))).getD (x - b.first.lineno) [] =
            (seal_rest L (i + 1) (b2 :: rest')).getD (x - b2.first.lineno) [] := by
          intro x hx
          have he1 : x - b.first.lineno = (x - b.first.lineno - 1) + 1 := by omega
          rw [he1, List.getD_cons_succ,
            List.getD_append_right _ _ _ _ (by omega), hsl]
          have he2 : x - b.first.lineno - 1 - (b.last.lineno - b.first.lineno - 1) =
              (x - b.last.lineno - 1) + 1 := by omega
          rw [he2, List.getD_cons_succ,
            List.getD_append_right _ _ _ _ (by omega), hgl]
          congr 1
          omega
        rw [show (match (b2 :: rest' : List Block) with
            | [] => L.drop (b.last.lineno + 1)
            | b2 :: _ => seg L (b.last.lineno + 1) b2.first.lineno ++
                seal_rest L (i + 1) (b2 :: rest')) =
            seg L (b.last.lineno + 1) b2.first.lineno ++
              seal_rest L (i + 1) (b2 :: rest') from rfl]
        constructor
        · rw [hstep bk.first.lineno hble.1, ihk.1]
          congr 2
          omega
        · rw [hstep bk.last.lineno hble.2, ihk.2]
          congr 2
          omega

theorem seal_rest_getD_off (L : List (List Char)) : ∀ (bs : List Block) (b0 : Block) (i : Nat),
    bs.head? = some b0 → blocksOrdered L.length bs →
    ∀ j, b0.first.lineno ≤ j → (∀ b ∈ bs, j ≠ b.first.lineno ∧ j ≠ b.last.lineno) →
      (seal_rest L i bs).getD (j - b0.first.lineno) [] = L.getD j [] := by
  intro bs
  induction bs with
  | nil => intro b0 i h; cases h
  | cons b rest ih =>
    intro b0 i hh hord j hj hoff
    injection hh with hh
    subst hh
    have hfb := hord.1 b (List.mem_cons_self _ _)
    have hoffb := hoff b (List.mem_cons_self _ _)
    have hjf : b.first.lineno < j := by
      rcases Nat.lt_or_ge b.first.lineno j with h | h
      · exact h
      · exact absurd (by omega) hoffb.1
    rw [seal_rest_cons]
    have hsl : (seg L (b.first.lineno + 1) b.last.lineno).length =
        b.last.lineno - b.first.lineno - 1 := by
      rw [seg_length (by omega)]
      omega
    have he1 : j - b.first.lineno = (j - b.first.lineno - 1) + 1 := by omega
    rw [he1, List.getD_cons_succ]
    rcases Nat.lt_or_ge j b.last.lineno with hjl | hjl
    · rw [List.getD_append _ _ _ _ (by omega),
        seg_getD (by omega) []]
      congr 1
      omega
    · have hjl' : b.last.lineno < j := by
        rcases Nat.lt_or_ge b.last.lineno j with h | h
        · exact h
        · exact absurd (by omega) hoffb.2
      rw [List.getD_append_right _ _ _ _ (by omega), hsl]
      have he2 : j - b.first.lineno - 1 - (b.last.lineno - b.first.lineno - 1) =
          (j - b.last.lineno - 1) + 1 := by omega
      rw [he2, List.getD_cons_succ]
      cases rest with
      | nil =>
        rw [show (match ([] : List Block) with
            | [] => L.drop (b.last.lineno + 1)
            | b2 :: _ => seg L (b.last.lineno + 1) b2.first.lineno ++
                seal_rest L (i + 1) ([] : List Block)) =
            L.drop (b.last.lineno + 1) from rfl]
        rw [getD_drop]
        congr 1
        omega
      | cons b2 rest' =>
        rw [show (match (b2 :: rest' : List Block) with
            | [] => L.drop (b.last.lineno + 1)
            | b2 :: _ => seg L (b.last.lineno + 1) b2.first.lineno ++
                seal_rest L (i + 1) (b2 :: rest')) =
            seg L (b.last.lineno + 1) b2.first.lineno ++
              seal_rest L (i + 1) (b2 :: rest') from rfl]
        have h12 := blocksOrdered_head_lt hord b2 (List.mem_cons_self _ _)
        have hfb2 := hord.1 b2 (by simp)
        have hgl : (seg L (b.last.lineno + 1) b2.first.lineno).length =
            b2.first.lineno - b.last.lineno - 1 := by
          rw [seg_length (by omega)]
          omega
        rcases Nat.lt_or_ge j b2.first.lineno with hj2 | hj2
        · rw [List.getD_append _ _ _ _ (by omega), seg_getD (by omega) []]
          congr 1
          omega
        · rw [List.getD_append_right _ _ _ _ (by omega), hgl]
          have ihr := ih b2 (i + 1) rfl (blocksOrdered_tail hord) j hj2
            (fun b' hb' => hoff b' (List.mem_cons_of_mem _ hb'))
          rw [show j - b.last.lineno - 1 - (b2.first.lineno - b.last.lineno - 1) =
              j - b2.first.lineno from by omega]
          exact ihr

theorem take_getD {L : List (List Char)} {n k : Nat} (h : k < n) (d : List Char) :
    (L.take n).getD k d = L.getD k d := by
  rw [List.getD_eq_getElem?_getD, List.getElem?_take_of_lt h, ← List.getD_eq_getElem?_getD]

theorem out_length {L : List (List Char)} {bs : List Block} {b0 : Block}
    (hh : bs.head? = some b0) (hord : blocksOrdered L.length bs) :
    (L.take b0.first.lineno ++ seal_rest L 0 bs).length = L.length := by
  have hfb := hord.1 b0 (List.mem_of_mem_head? hh)
  rw [List.length_append, List.length_take, seal_rest_length L bs b0 0 hh hord]
  omega

theorem out_getD_off {L : List (List Char)} {bs : List Block} {b0 : Block}
    (hh : bs.head? = some b0) (hord : blocksOrdered L.length bs) {j : Nat}
    (hoff : ∀ b ∈ bs, j ≠ b.first.lineno ∧ j ≠ b.last.lineno) :
    (L.take b0.first.lineno ++ seal_rest L 0 bs).getD j [] = L.getD j [] := by
  have hfb := hord.1 b0 (List.mem_of_mem_head? hh)
  rcases Nat.lt_or_ge j b0.first.lineno with hj | hj
  · rw [List.getD_append _ _ _ _ (by rw [List.length_take]; omega), take_getD hj]
  · rw [List.getD_append_right _ _ _ _ (by rw [List.length_take]; omega)]
    rw [show j - (L.take b0.first.lineno).length = j - b0.first.lineno from
      by rw [List.length_take]; omega]
    exact seal_rest_getD_off L bs b0 0 hh hord j hj hoff

theorem seg_congr {L L' : List (List Char)} (hlen : L'.length = L.length) {a b : Nat}
    (hb : b ≤ L.length) (hagree : ∀ j, a ≤ j → j < b → L'.getD j [] = L.getD j []) :
    seg L' a b = seg L a b := by
  apply List.ext_getElem
  · rw [seg_length (by omega), seg_length hb]
  · intro k h1 h2
    have h1' : k < b - a := by
      rw [seg_length (by omega)] at h1
      exact h1
    rw [← List.getD_eq_getElem (seg L' a b) [] h1, ← List.getD_eq_getElem (seg L a b) [] h2,
      seg_getD h1' [], seg_getD h1' []]
    exact hagree (a + k) (by omega) (by omega)

theorem drop_congr {L L' : List (List Char)} (hlen : L'.length = L.length) {a : Nat}
    (hagree : ∀ j, a ≤ j → L'.getD j [] = L.getD j []) :
    L'.drop a = L.drop a := by
  apply List.ext_getElem
  · simp [hlen]
  · intro k h1 h2
    rw [← List.getD_eq_getElem (L'.drop a) [] h1, ← List.getD_eq_getElem (L.drop a) [] h2,
      getD_drop, getD_drop]
    exact hagree (a + k) (by omega)

theorem blockFingerprint_resealed (L L' : List (List Char)) (i : Nat) (b : Block)
    (hseg : seg L' (b.first.lineno + 1) b.last.lineno =
      seg L (b.first.lineno + 1) b.last.lineno) :
    blockFingerprint L' i
      ⟨⟨b.first.lineno, MarkerKind.first, b.first.pfx, some (blockFingerprint L i b)⟩,
       ⟨b.last.lineno, MarkerKind.last, b.last.pfx, some (blockFingerprint L i b)⟩⟩ =
    blockFingerprint L i b := by
  rw [blockFingerprint, blockFingerprint, blockContent, blockContent]
  dsimp only
  rw [hseg]

theorem seal_rest_congr {L L' : List (List Char)} (hlen : L'.length = L.length) :
    ∀ (bs : List Block) (b0 : Block) (i : Nat),
    bs.head? = some b0 → blocksOrdered L.length bs →
    (∀ j, b0.first.lineno ≤ j → (∀ b ∈ bs, j ≠ b.first.lineno ∧ j ≠ b.last.lineno) →
      L'.getD j [] = L.getD j []) →
    seal_rest L' i (resealedBlocks L i bs) = seal_rest L i bs := by
  intro bs
  induction bs with
  | nil => intro b0 i h; cases h
  | cons b rest ih =>
    intro b0 i hh hord hagree
    injection hh with hh
    subst hh
    have hfb := hord.1 b (List.mem_cons_self _ _)
    have hlt := blocksOrdered_head_lt hord
    have hseg : seg L' (b.first.lineno + 1) b.last.lineno =
        seg L (b.first.lineno + 1) b.last.lineno := by
      refine seg_congr hlen (by omega) ?_
      intro j hj1 hj2
      refine hagree j (by omega) ?_
      intro b'' hb''
      rcases List.mem_cons.mp hb'' with rfl | hb''
      · omega
      · have h1 := hlt b'' hb''
        have h2 := (hord.1 b'' (List.mem_cons_of_mem _ hb'')).1
        omega
    rw [show resealedBlocks L i (b :: rest) =
      (⟨⟨b.first.lineno, MarkerKind.first, b.first.pfx, some (blockFingerprint L i b)⟩,
       ⟨b.last.lineno, MarkerKind.last, b.last.pfx, some (blockFingerprint L i b)⟩⟩ : Block) ::
      resealedBlocks L (i + 1) rest from rfl]
    rw [seal_rest_cons, seal_rest_cons]
    dsimp only
    rw [blockFingerprint_resealed L L' i b hseg, hseg]
    cases rest with
    | nil =>
      rw [show resealedBlocks L (i + 1) ([] : List Block) = [] from rfl]
      have hdrop : L'.drop (b.last.lineno + 1) = L.drop (b.last.lineno + 1) := by
        refine drop_congr hlen ?_
        intro j hj
        refine hagree j (by omega) ?_
        intro b'' hb''
        rcases List.mem_cons.mp hb'' with rfl | hb''
        · omega
        · cases hb''
      rw [hdrop]
    | cons b2 rest' =>
      have hfb2 := hord.1 b2 (by simp)
      have h12 := hlt b2 (List.mem_cons_self _ _)
      rw [show resealedBlocks L (i + 1) (b2 :: rest') =
        (⟨⟨b2.first.lineno, MarkerKind.first, b2.first.pfx,
            some (blockFingerprint L (i + 1) b2)⟩,
          ⟨b2.last.lineno, MarkerKind.last, b2.last.pfx,
            some (blockFingerprint L (i + 1) b2)⟩⟩ : Block) ::
        resealedBlocks L (i + 1 + 1) rest' from rfl]
      dsimp only
      have hgap : seg L' (b.last.lineno + 1) b2.first.lineno =
          seg L (b.last.lineno + 1) b2.first.lineno := by
        refine seg_congr hlen (by omega) ?_
        intro j hj1 hj2
        refine hagree j (by omega) ?_
        intro b'' hb''
        rcases List.mem_cons.mp hb'' with rfl | hb''
        · omega
        · have h1 := hlt b'' hb''
          have h2 := (hord.1 b'' (List.mem_cons_of_mem _ hb'')).1
          have hle := blocksOrdered_head_le (blocksOrdered_tail hord) b'' hb''
          omega
      have hrest : seal_rest L' (i + 1) (resealedBlocks L (i + 1) (b2 :: rest')) =
          seal_rest L (i + 1) (b2 :: rest') := by
        refine ih b2 (i + 1) rfl (blocksOrdered_tail hord) ?_
        intro j hj hoffj
        refine hagree j (by omega) ?_
        intro b'' hb''
        rcases List.mem_cons.mp hb'' with rfl | hb''
        · omega
        · exact hoffj b'' hb''
      rw [show resealedBlocks L (i + 1) (b2 :: rest') =
        (⟨⟨b2.first.lineno, MarkerKind.first, b2.first.pfx,
            some (blockFingerprint L (i + 1) b2)⟩,
          ⟨b2.last.lineno, MarkerKind.last, b2.last.pfx,
            some (blockFingerprint L (i + 1) b2)⟩⟩ : Block) ::
        resealedBlocks L (i + 1 + 1) rest' from rfl] at hrest
      rw [hgap, hrest]

theorem markerOfLine_sealed_first {f : Nat} {pfx h : List Char}
    (hsh : pfxShape onKeywords pfx) (hfp : pyStrip (' ' :: h) = h) :
    markerOfLine f (sealedLine pfx h) = some ⟨f, MarkerKind.first, pfx, some h⟩ := by
  rw [sealedLine_eq_append (Or.inl rfl) hsh h]
  rw [show (⟨f, MarkerKind.first, pfx, some h⟩ : SealMarker) =
    ⟨f, MarkerKind.first, pfx, some (pyStrip (' ' :: h))⟩ from by rw [hfp]]
  exact markerOfLine_eq_some.mpr (Or.inl ⟨pfx, ' ' :: h,
    seal_match_replay (Or.inl rfl) hsh (Or.inr ⟨' ', h, rfl, by decide⟩), rfl⟩)

theorem markerOfLine_sealed_last {l : Nat} {pfx h : List Char}
    (hsh : pfxShape offKeywords pfx) (hfp : pyStrip (' ' :: h) = h) :
    markerOfLine l (sealedLine pfx h) = some ⟨l, MarkerKind.last, pfx, some h⟩ := by
  rw [sealedLine_eq_append (Or.inr rfl) hsh h]
  rw [show (⟨l, MarkerKind.last, pfx, some h⟩ : SealMarker) =
    ⟨l, MarkerKind.last, pfx, some (pyStrip (' ' :: h))⟩ from by rw [hfp]]
  exact markerOfLine_eq_some.mpr (Or.inr ⟨seal_match_cross hsh (' ' :: h), pfx, ' ' :: h,
    seal_match_replay (Or.inr rfl) hsh (Or.inr ⟨' ', h, rfl, by decide⟩), rfl⟩)

theorem extract_seal_rest (L : List (List Char)) : ∀ (bs : List Block) (b0 : Block) (i : Nat),
    bs.head? = some b0 → blocksOrdered L.length bs →
    (∀ b ∈ bs, pfxShape onKeywords b.first.pfx ∧ pfxShape offKeywords b.last.pfx) →
    (∀ j, b0.first.lineno ≤ j → (∀ b ∈ bs, j ≠ b.first.lineno ∧ j ≠ b.last.lineno) →
      markerOfLine j (L.getD j []) = none) →
    extract_markers_from b0.first.lineno (seal_rest L i bs) = resealedMarkers L i bs := by
  intro bs
  induction bs with
  | nil => intro b0 i h; cases h
  | cons b rest ih =>
    intro b0 i hh hord hshape hmarks
    injection hh with hh
    subst hh
    have hfb := hord.1 b (List.mem_cons_self _ _)
    have hlt := blocksOrdered_head_lt hord
    obtain ⟨hsh1, hsh2⟩ := hshape b (List.mem_cons_self _ _)
    have hm1 := markerOfLine_sealed_first (f := b.first.lineno) hsh1
      (@pyStrip_fingerprint L i b)
    have hm2 := markerOfLine_sealed_last (l := b.last.lineno) hsh2
      (@pyStrip_fingerprint L i b)
    have hsl : (seg L (b.first.lineno + 1) b.last.lineno).length =
        b.last.lineno - b.first.lineno - 1 := by
      rw [seg_length (by omega)]
      omega
    rw [seal_rest_cons, extract_markers_from_cons_some hm1, extract_markers_from_append,
      extract_markers_from_none (i := b.first.lineno + 1) ?hseg]
    case hseg =>
      intro k hk
      rw [hsl] at hk
      rw [seg_getD (by omega) []]
      refine hmarks (b.first.lineno + 1 + k) (by omega) ?_
      intro b'' hb''
      rcases List.mem_cons.mp hb'' with rfl | hb''
      · omega
      · have h1 := hlt b'' hb''
        have h2 := (hord.1 b'' (List.mem_cons_of_mem _ hb'')).1
        omega
    rw [show b.first.lineno + 1 + (seg L (b.first.lineno + 1) b.last.lineno).length =
        b.last.lineno from by rw [hsl]; omega]
    rw [extract_markers_from_cons_some hm2]
    cases rest with
    | nil =>
      rw [show (match ([] : List Block) with
          | [] => L.drop (b.last.lineno + 1)
          | b2 :: _ => seg L (b.last.lineno + 1) b2.first.lineno ++
              seal_rest L (i + 1) ([] : List Block)) =
          L.drop (b.last.lineno + 1) from rfl]
      rw [extract_markers_from_none (i := b.last.lineno + 1) ?hdrop]
      case hdrop =>
        intro k hk
        rw [getD_drop]
        refine hmarks (b.last.lineno + 1 + k) (by omega) ?_
        intro b'' hb''
        rcases List.mem_cons.mp hb'' with rfl | hb''
        · omega
        · cases hb''
      rfl
    | cons b2 rest' =>
      have hfb2 := hord.1 b2 (by simp)
      have h12 := hlt b2 (List.mem_cons_self _ _)
      have hgl : (seg L (b.last.lineno + 1) b2.first.lineno).length =
          b2.first.lineno - b.last.lineno - 1 := by
        rw [seg_length (by omega)]
        omega
      rw [show (match (b2 :: rest' : List Block) with
          | [] => L.drop (b.last.lineno + 1)
          | b2 :: _ => seg L (b.last.lineno + 1) b2.first.lineno ++
              seal_rest L (i + 1) (b2 :: rest')) =
          seg L (b.last.lineno + 1) b2.first.lineno ++
            seal_rest L (i + 1) (b2 :: rest') from rfl]
      rw [extract_markers_from_append,
        extract_markers_from_none (i := b.last.lineno + 1) ?hgap]
      case hgap =>
        intro k hk
        rw [hgl] at hk
        rw [seg_getD (by omega) []]
        refine hmarks (b.last.lineno + 1 + k) (by omega) ?_
        intro b'' hb''
        rcases List.mem_cons.mp hb'' with rfl | hb''
        · omega
        · have hle := blocksOrdered_head_le (blocksOrdered_tail hord) b'' hb''
          omega
      rw [show b.last.lineno + 1 + (seg L (b.last.lineno + 1) b2.first.lineno).length =
          b2.first.lineno from by rw [hgl]; omega]
      rw [ih b2 (i + 1) rfl (blocksOrdered_tail hord)
        (fun b' hb' => hshape b' (List.mem_cons_of_mem _ hb'))
        (fun j hj hoffj => hmarks j (by omega) (fun b'' hb'' => by
          rcases List.mem_cons.mp hb'' with rfl | hb''
          · constructor <;> omega
          · exact hoffj b'' hb''))]
      rfl

theorem seal_lines_success {lines out : List (List Char)} {b : Block} {rest : List Block}
    (hp : parse_blocks (extract_markers lines) = (some (b :: rest), none))
    (h : seal_lines lines = (some out, none)) :
    out = lines.take b.first.lineno ++ seal_rest lines 0 (b :: rest) := by
  simp only [seal_lines, hp] at h
  simp only [Prod.mk.injEq, Option.some_inj] at h
  exact h.1.symm

/-- C7: sealing is idempotent on already-sealed content: whenever `seal`
succeeds and returns sealed lines, running `seal` again on those sealed
lines succeeds and returns them unchanged. -/
theorem C7_seal_idempotent (lines out : List (List Char))
    (h : seal_lines lines = (some out, none)) : seal_lines out = (some out, none) := by
  rcases hp : parse_blocks (extract_markers lines) with ⟨bo, eo⟩
  cases eo with
  | some err =>
    simp only [seal_lines, hp] at h
    simp at h
  | none =>
    cases bo with
    | none =>
      simp only [seal_lines, hp] at h
      simp at h
    | some bs =>
      cases bs with
      | nil =>
        simp only [seal_lines, hp] at h
        simp only [Prod.mk.injEq, Option.some_inj] at h
        rw [← h.1]
        simp only [seal_lines, hp]
      | cons b rest =>
        have hout := seal_lines_success hp h
        have hord := blocksOrdered_of_parse hp
        have hshape := blocks_shape hp
        have hfb := hord.1 b (List.mem_cons_self _ _)
        have hemout : extract_markers out = resealedMarkers lines 0 (b :: rest) := by
          rw [hout, extract_markers, extract_markers_from_append]
          have htake : extract_markers_from 0 (lines.take b.first.lineno) = [] := by
            refine extract_markers_from_none ?_
            intro j hj
            rw [List.length_take] at hj
            rw [take_getD (by omega) [], Nat.zero_add]
            refine no_marker_off hp ?_
            intro b'' hb''
            have hle := blocksOrdered_head_le hord b'' hb''
            constructor <;> omega
          rw [htake, List.nil_append,
            show (lines.take b.first.lineno).length = b.first.lineno from
              by rw [List.length_take]; omega,
            Nat.zero_add]
          exact extract_seal_rest lines (b :: rest) b 0 rfl hord hshape
            (fun j hj hoffj => no_marker_off hp hoffj)
        have hpout : parse_blocks (extract_markers out) =
            (some (resealedBlocks lines 0 (b :: rest)), none) := by
          rw [hemout, parse_blocks, parse_blocks_loop_resealed lines (b :: rest) 0 [],
            List.nil_append]
        rw [show resealedBlocks lines 0 (b :: rest) =
          (⟨⟨b.first.lineno, MarkerKind.first, b.first.pfx,
              some (blockFingerprint lines 0 b)⟩,
            ⟨b.last.lineno, MarkerKind.last, b.last.pfx,
              some (blockFingerprint lines 0 b)⟩⟩ : Block) ::
          resealedBlocks lines (0 + 1) rest from rfl] at hpout
        simp only [seal_lines, hpout]
        rw [show ((⟨⟨b.first.lineno, MarkerKind.first, b.first.pfx,
              some (blockFingerprint lines 0 b)⟩,
            ⟨b.last.lineno, MarkerKind.last, b.last.pfx,
              some (blockFingerprint lines 0 b)⟩⟩ : Block) ::
          resealedBlocks lines (0 + 1) rest) = resealedBlocks lines 0 (b :: rest) from rfl]
        have hlenout : out.length = lines.length := by
          rw [hout]
          exact out_length rfl hord
        have hagree : ∀ j, b.first.lineno ≤ j →
            (∀ b'' ∈ b :: rest, j ≠ b''.first.lineno ∧ j ≠ b''.last.lineno) →
            out.getD j [] = lines.getD j [] := by
          intro j hj hoffj
          rw [hout]
          exact @out_getD_off lines (b :: rest) b rfl hord j hoffj
        have hsrc : seal_rest out 0 (resealedBlocks lines 0 (b :: rest)) =
            seal_rest lines 0 (b :: rest) :=
          seal_rest_congr hlenout (b :: rest) b 0 rfl hord hagree
        have htake2 : out.take b.first.lineno = lines.take b.first.lineno := by
          rw [hout]
          exact List.take_left' (by rw [List.length_take]; omega)
        rw [hsrc, htake2, ← hout]

set_option maxRecDepth 1000000 in
/-- C7 witness: the sealed two-line file is a fixed point of the sealing
transform. -/
theorem C7_seal_idempotent_witness :
    seal_lines ["# sealed: on 88209294".toList, "# sealed: off 88209294".toList] =
      (some ["# sealed: on 88209294".toList, "# sealed: off 88209294".toList], none) :=
  C7_seal_idempotent ["# sealed: on".toList, "# sealed: off".toList]
    ["# sealed: on 88209294".toList, "# sealed: off 88209294".toList] (by decide)

set_option maxRecDepth 1000000 in
/-- C6: on every successful run of `seal`, the output line at each block's
start and at its end marker position is the rstripped marker prefix followed
by the block's fingerprint, where the fingerprint (`blockFingerprint`) is by
definition the last 8 hex digits of the MD5 digest of `"{i}.{content}"`
(`i` the 0-based ordinal of the block in this call, `content` the lines
strictly between the markers joined by newline); in particular sealing the
two-line input `"# sealed: on"` / `"# sealed: off"` yields
`"# sealed: on 88209294"` / `"# sealed: off 88209294"`. -/
theorem C6_seal_fingerprints :
    (∀ (lines out : List (List Char)) (bs : List Block),
      parse_blocks (extract_markers lines) = (some bs, none) →
      seal_lines lines = (some out, none) →
      ∀ (k : Nat) (bk : Block), bs[k]? = some bk →
        out.getD bk.first.lineno [] =
          sealedLine bk.first.pfx (blockFingerprint lines k bk) ∧
        out.getD bk.last.lineno [] =
          sealedLine bk.last.pfx (blockFingerprint lines k bk)) ∧
    seal_lines ["# sealed: on".toList, "# sealed: off".toList] =
      (some ["# sealed: on 88209294".toList, "# sealed: off 88209294".toList], none) := by
  constructor
  · intro lines out bs hp hseal k bk hk
    cases bs with
    | nil => simp at hk
    | cons b rest =>
      have hout := seal_lines_success hp hseal
      have hord := blocksOrdered_of_parse hp
      have hfb := hord.1 b (List.mem_cons_self _ _)
      have hbk := List.getElem?_mem hk
      have hble := blocksOrdered_head_le hord bk hbk
      have hm := seal_rest_marker_getD lines (b :: rest) b 0 rfl hord k bk hk
      have key : ∀ x, b.first.lineno ≤ x →
          out.getD x [] = (seal_rest lines 0 (b :: rest)).getD (x - b.first.lineno) [] := by
        intro x hx
        rw [hout, List.getD_append_right _ _ _ _ (by rw [List.length_take]; omega),
          show x - (lines.take b.first.lineno).length = x - b.first.lineno from by
            rw [List.length_take]; omega]
      constructor
      · rw [key bk.first.lineno hble.1, hm.1, Nat.zero_add]
      · rw [key bk.last.lineno hble.2, hm.2, Nat.zero_add]
  · decide

set_option maxRecDepth 1000000 in
/-- C6 witness: at the concrete two-line scenario, the output start-marker
line is the prefix plus the fingerprint of block 0. -/
theorem C6_seal_fingerprints_witness :
    ["# sealed: on 88209294".toList, "# sealed: off 88209294".toList].getD 0 [] =
      sealedLine "# sealed: on".toList
        (blockFingerprint ["# sealed: on".toList, "# sealed: off".toList] 0
          ⟨⟨0, MarkerKind.first, "# sealed: on".toList, some []⟩,
           ⟨1, MarkerKind.last, "# sealed: off".toList, some []⟩⟩) :=
  (C6_seal_fingerprints.1 ["# sealed: on".toList, "# sealed: off".toList]
    ["# sealed: on 88209294".toList, "# sealed: off 88209294".toList]
    [⟨⟨0, MarkerKind.first, "# sealed: on".toList, some []⟩,
      ⟨1, MarkerKind.last, "# sealed: off".toList, some []⟩⟩]
    (by decide) (by decide) 0
    ⟨⟨0, MarkerKind.first, "# sealed: on".toList, some []⟩,
     ⟨1, MarkerKind.last, "# sealed: off".toList, some []⟩⟩ rfl).1

theorem naive_loop_fuel : ∀ (fuel : Nat) (b : TextBuffer) (c E : Nat), E - c ≤ fuel →
    naive_loop fuel b c E = naive_delete b c E := by
  intro fuel
  induction fuel with
  | zero =>
    intro b c E h
    rw [naive_delete, show E - c = 0 from by omega]
  | succ fuel ih =>
    intro b c E h
    by_cases hce : c < E
    · rw [naive_delete, show E - c = (E - c - 1) + 1 from by omega]
      simp only [naive_loop]
      rw [if_pos hce, if_pos hce]
      by_cases hd : _is_deletable_wo_preconditions b c = true
      · rw [if_pos hd, if_pos hd, ih _ _ _ (by omega),
          show E - c - 1 = (E - 1) - c from by omega, ← naive_delete]
      · rw [if_neg hd, if_neg hd, ih _ _ _ (by omega),
          show E - c - 1 = E - (c + 1) from by omega, ← naive_delete]
    · simp only [naive_loop]
      rw [if_neg hce, naive_delete, show E - c = 0 from by omega]
      rfl

theorem naive_delete_stop {b : TextBuffer} {c E : Nat} (h : E ≤ c) :
    naive_delete b c E = b := by
  rw [naive_delete, show E - c = 0 from by omega]
  rfl

theorem naive_delete_skip_one {b : TextBuffer} {c E : Nat} (hce : c < E)
    (hd : _is_deletable_wo_preconditions b c = false) :
    naive_delete b c E = naive_delete b (c + 1) E := by
  rw [naive_delete, show E - c = (E - c - 1) + 1 from by omega]
  simp only [naive_loop]
  rw [if_pos hce, if_neg (by simp [hd])]
  exact naive_loop_fuel _ _ _ _ (by omega)

theorem naive_delete_del_one {b : TextBuffer} {c E : Nat} (hce : c < E)
    (hd : _is_deletable_wo_preconditions b c = true) :
    naive_delete b c E = naive_delete (deleteCharAt b c) c (E - 1) := by
  rw [naive_delete, show E - c = (E - c - 1) + 1 from by omega]
  simp only [naive_loop]
  rw [if_pos hce, if_pos hd]
  exact naive_loop_fuel _ _ _ _ (by omega)

theorem naive_delete_skip {b : TextBuffer} : ∀ (n : Nat) (c E : Nat),
    (∀ p, c ≤ p → p < c + n → _is_deletable_wo_preconditions b p = false) →
    naive_delete b c E = naive_delete b (c + n) E := by
  intro n
  induction n with
  | zero => intro c E _; rfl
  | succ n ih =>
    intro c E h
    by_cases hce : c < E
    · rw [naive_delete_skip_one hce (h c (Nat.le_refl _) (by omega))]
      rw [ih (c + 1) E (fun p hp1 hp2 => h p (by omega) (by omega))]
      rw [show c + 1 + n = c + (n + 1) from by omega]
    · rw [naive_delete_stop (by omega), naive_delete_stop (by omega)]

theorem tag_prevrange_mem {tags : List (Nat × Nat)} {i : Nat} {r : Nat × Nat}
    (h : tag_prevrange tags i = some r) : r ∈ tags ∧ r.1 < i := by
  rw [tag_prevrange] at h
  have hmem : r ∈ tags.filter (fun r => r.1 < i) := by
    cases hl : tags.filter (fun r => r.1 < i) with
    | nil => rw [hl] at h; cases h
    | cons x xs =>
      rw [hl] at h
      rw [List.getLast?_eq_getLast (x :: xs) (by simp)] at h
      simp only [Option.some_inj] at h
      rw [← h]
      exact List.getLast_mem _
  have := List.mem_filter.mp hmem
  exact ⟨this.1, by simpa using this.2⟩

theorem tag_nextrange_mem {tags : List (Nat × Nat)} {i : Nat} {r : Nat × Nat}
    (h : tag_nextrange tags i = some r) : r ∈ tags ∧ i ≤ r.1 := by
  rw [tag_nextrange] at h
  have hmem : r ∈ tags.filter (fun r => i ≤ r.1) := List.mem_of_mem_head? h
  have := List.mem_filter.mp hmem
  exact ⟨this.1, by simpa using this.2⟩

theorem del_true_of {b : TextBuffer} {p : Nat}
    (hprev : ∀ r ∈ b.tags, r.1 < p → r.2 < p)
    (hnext : ∀ r ∈ b.tags, p ≤ r.1 →
      p ≠ r.1 ∧ (p + 1 = r.1 → p = 0 ∨ charAt b (p - 1) = '\n')) :
    _is_deletable_wo_preconditions b p = true := by
  have hn2 : _is_deletable_next b p = true := by
    rcases hn : tag_nextrange b.tags p with - | ⟨s, e⟩
    · simp [_is_deletable_next, hn]
    · obtain ⟨hmem, hge⟩ := tag_nextrange_mem hn
      obtain ⟨hne, himp⟩ := hnext (s, e) hmem hge
      simp only [_is_deletable_next, hn]
      rw [if_neg (by simpa using hne)]
      by_cases h1 : p + 1 = s
      · rw [if_pos h1]
        rcases himp h1 with h0 | hch
        · rw [if_pos h0]
        · by_cases h0 : p = 0
          · rw [if_pos h0]
          · rw [if_neg h0]
            simp [hch]
      · rw [if_neg h1]
  rcases hp : tag_prevrange b.tags p with - | ⟨s, e⟩
  · simp only [_is_deletable_wo_preconditions, hp]
    exact hn2
  · obtain ⟨hmem, hlt⟩ := tag_prevrange_mem hp
    simp only [_is_deletable_wo_preconditions, hp]
    rw [if_neg (by have := hprev (s, e) hmem hlt; simp at this ⊢; omega)]
    exact hn2

theorem rangeShift_self (a x : Nat) : rangeShift a a x = x := by
  rw [rangeShift]
  split_ifs <;> omega

theorem deleteRange_self (b : TextBuffer) (a : Nat) : deleteRange b a a = b := by
  rw [deleteRange]
  cases b with
  | mk text tags =>
    simp [rangeShift_self]

theorem getD_take {α : Type} {l : List α} {n k : Nat} (h : k < n) (d : α) :
    (l.take n).getD k d = l.getD k d := by
  rw [List.getD_eq_getElem?_getD, List.getElem?_take_of_lt h, ← List.getD_eq_getElem?_getD]

theorem getD_drop2 {α : Type} (l : List α) (n k : Nat) (d : α) :
    (l.drop n).getD k d = l.getD (n + k) d := by
  simp [List.getD_eq_getElem?_getD, List.getElem?_drop]

theorem charAt_deleteRange_low {b : TextBuffer} {a c x : Nat} (hac : a ≤ c) (hx : x < a) :
    charAt (deleteRange b a c) x = charAt b x := by
  rw [charAt, charAt, deleteRange]
  dsimp only
  by_cases hxl : x < b.text.length
  · rw [List.getD_append _ _ _ _ (by rw [List.length_take]; omega), getD_take hx]
  · have h1 : (b.text.take a ++ b.text.drop c).length ≤ x := by
      rw [List.length_append, List.length_take, List.length_drop]
      omega
    rw [List.getD_eq_default _ _ h1, List.getD_eq_default _ _ (by omega)]

theorem charAt_deleteRange_high {b : TextBuffer} {a c x : Nat} (hac : a ≤ c) (hx : a ≤ x) :
    charAt (deleteRange b a c) x = charAt b (x + (c - a)) := by
  rw [charAt, charAt, deleteRange]
  dsimp only
  by_cases hlen : a ≤ b.text.length
  · rw [List.getD_append_right _ _ _ _ (by rw [List.length_take]; omega)]
    rw [show x - (b.text.take a).length = x - a from by rw [List.length_take]; omega]
    rw [getD_drop2]
    congr 1
    omega
  · rw [List.getD_append_right _ _ _ _ (by rw [List.length_take]; omega)]
    rw [show b.text.drop c = [] from List.drop_eq_nil_of_le (by omega)]
    rw [List.getD_eq_default _ _ (by simp), List.getD_eq_default _ _ (by omega)]

theorem deleteCharAt_eq (b : TextBuffer) (c : Nat) :
    deleteCharAt b c = deleteRange b c (c + 1) := by
  rw [deleteCharAt, deleteRange]
  cases b with
  | mk text tags =>
    simp only [TextBuffer.mk.injEq]
    refine ⟨by trivial, List.map_congr_left ?_⟩
    intro r _
    rw [rangeShift, rangeShift]
    split_ifs <;> simp <;> omega

theorem rangeShift_comp {a c c2 : Nat} (h1 : a ≤ c) (h2 : a ≤ c2) (x : Nat) :
    rangeShift a c2 (rangeShift a c x) = rangeShift a (c + c2 - a) x := by
  rw [rangeShift, rangeShift, rangeShift]
  split_ifs <;> omega

theorem deleteRange_comp (b : TextBuffer) {a c c2 : Nat} (h1 : a ≤ c) (h2 : a ≤ c2) :
    deleteRange (deleteRange b a c) a c2 = deleteRange b a (c + c2 - a) := by
  rw [deleteRange, deleteRange, deleteRange]
  cases b with
  | mk text tags =>
    simp only [TextBuffer.mk.injEq]
    constructor
    · by_cases hlen : a ≤ text.length
      · have hL : (text.take a).length = a := by rw [List.length_take]; omega
        rw [List.take_left' hL]
        have hdrop : (text.take a ++ text.drop c).drop c2 = (text.drop c).drop (c2 - a) := by
          conv_lhs => rw [show c2 = (text.take a).length + (c2 - a) from by rw [hL]; omega]
          exact List.drop_append _
        rw [hdrop, List.drop_drop]
        rw [show c + (c2 - a) = c + c2 - a from by omega]
      · have ht : text.take a = text := List.take_of_length_le (by omega)
        have h3 : text.drop c = [] := List.drop_eq_nil_of_le (by omega)
        have h4 : text.drop (c + c2 - a) = [] := List.drop_eq_nil_of_le (by omega)
        have h5 : text.drop c2 = [] := List.drop_eq_nil_of_le (by omega)
        simp [ht, h3, h4, h5]
    · rw [List.map_map]
      refine List.map_congr_left ?_
      intro r _
      simp only [Function.comp]
      rw [rangeShift_comp h1 h2, rangeShift_comp h1 h2]

theorem rangeShift_low {a c x : Nat} (h : x ≤ a) : rangeShift a c x = x := by
  rw [rangeShift, if_pos h]

theorem rangeShift_high {a c x : Nat} (hac : a ≤ c) (h : c ≤ x) :
    rangeShift a c x = x - (c - a) := by
  rw [rangeShift]
  split_ifs <;> omega

theorem naive_run : ∀ (k : Nat) (B : TextBuffer) (a E : Nat), a + k ≤ E →
    (∀ r ∈ B.tags, (r.1 < r.2 ∧ r.2 < a) ∨ (a + k ≤ r.1 ∧ r.1 < r.2)) →
    ((∀ r ∈ B.tags, r.1 ≠ a + k) ∨ a = 0 ∨ charAt B (a - 1) = '\n') →
    naive_delete B a E = naive_delete (deleteRange B a (a + k)) a (E - k) := by
  intro k
  induction k with
  | zero =>
    intro B a E hE htags hlast
    rw [Nat.add_zero, deleteRange_self, Nat.sub_zero]
  | succ k ih =>
    intro B a E hE htags hlast
    have hdel : _is_deletable_wo_preconditions B a = true := by
      refine del_true_of ?_ ?_
      · intro r hr hlt
        rcases htags r hr with ⟨h1, h2⟩ | ⟨h1, h2⟩
        · exact h2
        · omega
      · intro r hr hge
        rcases htags r hr with ⟨h1, h2⟩ | ⟨h1, h2⟩
        · omega
        · refine ⟨by omega, ?_⟩
          intro heq
          rcases hlast with hne | h0 | hch
          · exact absurd (show r.1 = a + (k + 1) from by omega) (hne r hr)
          · exact Or.inl h0
          · exact Or.inr hch
    have htags' : ∀ r' ∈ (deleteRange B a (a + 1)).tags,
        (r'.1 < r'.2 ∧ r'.2 < a) ∨ (a + k ≤ r'.1 ∧ r'.1 < r'.2) := by
      intro r' hr'
      simp only [deleteRange] at hr'
      obtain ⟨r, hr, rfl⟩ := List.mem_map.mp hr'
      rcases htags r hr with ⟨h1, h2⟩ | ⟨h1, h2⟩
      · rw [rangeShift_low (show r.1 ≤ a from by omega),
          rangeShift_low (show r.2 ≤ a from by omega)]
        exact Or.inl ⟨h1, h2⟩
      · rw [rangeShift_high (by omega) (show a + 1 ≤ r.1 from by omega),
          rangeShift_high (by omega) (show a + 1 ≤ r.2 from by omega)]
        exact Or.inr ⟨by omega, by omega⟩
    have hlast' : (∀ r' ∈ (deleteRange B a (a + 1)).tags, r'.1 ≠ a + k) ∨
        a = 0 ∨ charAt (deleteRange B a (a + 1)) (a - 1) = '\n' := by
      by_cases ha : a = 0
      · exact Or.inr (Or.inl ha)
      · rcases hlast with hne | h0 | hch
        · refine Or.inl ?_
          intro r' hr'
          simp only [deleteRange] at hr'
          obtain ⟨r, hr, rfl⟩ := List.mem_map.mp hr'
          rcases htags r hr with ⟨h1, h2⟩ | ⟨h1, h2⟩
          · rw [rangeShift_low (show r.1 ≤ a from by omega)]
            omega
          · rw [rangeShift_high (by omega) (show a + 1 ≤ r.1 from by omega)]
            have := hne r hr
            omega
        · exact absurd h0 ha
        · refine Or.inr (Or.inr ?_)
          rw [charAt_deleteRange_low (by omega) (by omega)]
          exact hch
    rw [naive_delete_del_one (by omega) hdel, deleteCharAt_eq]
    rw [ih (deleteRange B a (a + 1)) a (E - 1) (by omega) htags' hlast']
    rw [deleteRange_comp B (by omega) (by omega)]
    rw [show a + 1 + (a + k) - a = a + (k + 1) from by omega]
    rw [show E - 1 - k = E - (k + 1) from by omega]

theorem tag_nextrange_shift {tags : List (Nat × Nat)} {a c : Nat} (hac : a ≤ c)
    (hgap : ∀ r ∈ tags, (r.1 < r.2 ∧ r.2 < a) ∨ (c ≤ r.1 ∧ r.1 < r.2))
    {p : Nat} (hp : c ≤ p) :
    tag_nextrange (tags.map (fun r => (rangeShift a c r.1, rangeShift a c r.2))) (p - (c - a))
      = (tag_nextrange tags p).map (fun r => (r.1 - (c - a), r.2 - (c - a))) := by
  rw [tag_nextrange, tag_nextrange, List.filter_map]
  have hfc : List.filter ((fun r : Nat × Nat => decide (p - (c - a) ≤ r.1)) ∘
      (fun r : Nat × Nat => (rangeShift a c r.1, rangeShift a c r.2))) tags =
      List.filter (fun r : Nat × Nat => decide (p ≤ r.1)) tags := by
    refine List.filter_congr ?_
    intro r hr
    simp only [Function.comp]
    rcases hgap r hr with ⟨h1, h2⟩ | ⟨h1, h2⟩
    · simp only [rangeShift_low (show r.1 ≤ a from by omega), decide_eq_decide]
      omega
    · simp only [rangeShift_high hac h1, decide_eq_decide]
      omega
  rw [hfc, List.head?_map]
  cases hh : (List.filter (fun r : Nat × Nat => decide (p ≤ r.1)) tags).head? with
  | none => rfl
  | some r =>
    have hmem := List.mem_filter.mp (List.mem_of_mem_head? hh)
    have hpr : p ≤ r.1 := by simpa using hmem.2
    rcases hgap r hmem.1 with ⟨h1, h2⟩ | ⟨h1, h2⟩
    · omega
    · simp only [Option.map_some']
      rw [rangeShift_high hac h1, rangeShift_high hac (by omega)]

theorem pin_loop_equiv {B : TextBuffer} {a c : Nat} (hac : a ≤ c)
    (hgap : ∀ r ∈ B.tags, (r.1 < r.2 ∧ r.2 < a) ∨ (c ≤ r.1 ∧ r.1 < r.2))
    {i2 : Nat} (hi2 : c ≤ i2) :
    ∀ (fuel cs : Nat) (R : List (Nat × Nat)), c < cs →
    pin_loop B i2 fuel cs = some R →
    pin_loop (deleteRange B a c) (i2 - (c - a)) fuel (cs - (c - a)) =
      some (R.map (fun r => (r.1 - (c - a), r.2 - (c - a)))) := by
  intro fuel
  induction fuel with
  | zero =>
    intro cs R hcs h
    simp only [pin_loop] at h ⊢
    by_cases hle : i2 ≤ cs
    · rw [if_pos hle] at h
      simp only [Option.some_inj] at h
      subst h
      rw [if_pos (by omega)]
      rfl
    · rw [if_neg hle] at h
      cases h
  | succ fuel ih =>
    intro cs R hcs h
    by_cases hle : i2 ≤ cs
    · simp only [pin_loop] at h
      rw [if_pos hle] at h
      simp only [Option.some_inj] at h
      subst h
      simp only [pin_loop]
      rw [if_pos (by omega)]
      rfl
    · have hnr := tag_nextrange_shift hac hgap (show c ≤ cs from by omega)
      cases hn : tag_nextrange B.tags cs with
      | none =>
        simp only [pin_loop, hn] at h
        rw [if_neg hle] at h
        simp only [Option.some_inj] at h
        subst h
        rw [hn] at hnr
        have hnr2 : tag_nextrange (deleteRange B a c).tags (cs - (c - a)) = none := by
          simpa using hnr
        simp only [pin_loop, hnr2]
        rw [if_neg (by omega)]
        rfl
      | some se =>
        obtain ⟨s, e⟩ := se
        have hmem := tag_nextrange_mem hn
        have hclass : c ≤ s ∧ s < e := by
          rcases hgap (s, e) hmem.1 with ⟨h1, h2⟩ | ⟨h1, h2⟩
          · simp only at h1 h2
            omega
          · exact ⟨h1, h2⟩
        rw [hn] at hnr
        have hnr2 : tag_nextrange (deleteRange B a c).tags (cs - (c - a)) =
            some (s - (c - a), e - (c - a)) := by
          simpa using hnr
        simp only [pin_loop, hn] at h
        rw [if_neg hle] at h
        by_cases hslt : s < cs
        · rw [if_pos hslt] at h
          cases h
        rw [if_neg hslt] at h
        by_cases hec : e + 1 ≤ cs
        · rw [if_pos hec] at h
          cases h
        rw [if_neg hec] at h
        cases hrest : pin_loop B i2 fuel (e + 1) with
        | none =>
          simp only [hrest] at h
          cases h
        | some rest =>
          simp only [hrest, Option.some_inj] at h
          subst h
          have hrec := ih (e + 1) rest (by omega) hrest
          have hch : charAt (deleteRange B a c) (cs - (c - a) - 1) = charAt B (cs - 1) := by
            rw [charAt_deleteRange_high hac (by omega)]
            congr 1
            omega
          simp only [pin_loop, hnr2]
          rw [if_neg (show ¬ i2 - (c - a) ≤ cs - (c - a) from by omega)]
          rw [if_neg (show ¬ s - (c - a) < cs - (c - a) from by omega)]
          rw [if_neg (show ¬ (e - (c - a)) + 1 ≤ cs - (c - a) from by omega)]
          rw [show (e - (c - a)) + 1 = e + 1 - (c - a) from by omega, hrec]
          rw [List.map_append]
          by_cases hcss : cs = s
          · rw [if_pos hcss, if_pos (show cs - (c - a) = s - (c - a) from by rw [hcss])]
            rfl
          · rw [if_neg hcss, if_neg (show ¬ cs - (c - a) = s - (c - a) from by omega)]
            by_cases hi2s : i2 < s
            · rw [if_pos hi2s, if_pos (show i2 - (c - a) < s - (c - a) from by omega)]
              rfl
            · rw [if_neg hi2s, if_neg (show ¬ i2 - (c - a) < s - (c - a) from by omega)]
              by_cases hcs0 : cs = 0
              · exact absurd hcs0 (by omega)
              · rw [if_neg hcs0, if_neg (show ¬ cs - (c - a) = 0 from by omega)]
                by_cases hnl : charAt B (cs - 1) = '\n'
                · rw [if_pos hnl, if_pos (by rw [hch]; exact hnl)]
                  rfl
                · rw [if_neg hnl, if_neg (by rw [hch]; exact hnl)]
                  by_cases hlt1 : cs < s - 1
                  · rw [if_pos hlt1,
                      if_pos (show cs - (c - a) < s - (c - a) - 1 from by omega)]
                    rw [show s - (c - a) - 1 = s - 1 - (c - a) from by omega]
                    rfl
                  · rw [if_neg hlt1,
                      if_neg (show ¬ cs - (c - a) < s - (c - a) - 1 from by omega)]
                    rfl

theorem applyDeletables_nil (b : TextBuffer) : applyDeletables b [] = b := rfl

theorem applyDeletables_cons (b : TextBuffer) (s e : Nat) (rest : List (Nat × Nat)) :
    applyDeletables b ((s, e) :: rest) = applyDeletables (deleteRange b s e)
      (rest.map (fun r => (rangeShift s e r.1, rangeShift s e r.2))) := by
  rw [applyDeletables, applyDeletables]
  simp only [List.length_cons, List.length_map, applyDeletablesAux]

theorem sealInv_deleteRange {B : TextBuffer} (hinv : SealInv B) {a c : Nat} (hac : a ≤ c)
    (hgap : ∀ r ∈ B.tags, (r.1 < r.2 ∧ r.2 < a) ∨ (c ≤ r.1 ∧ r.1 < r.2))
    (hstart : (∀ r ∈ B.tags, r.1 ≠ c) ∨ a = 0 ∨ charAt B (a - 1) = '\n') :
    SealInv (deleteRange B a c) := by
  have htags : (deleteRange B a c).tags =
      B.tags.map (fun r => (rangeShift a c r.1, rangeShift a c r.2)) := rfl
  constructor
  · rw [htags, List.pairwise_map]
    refine List.Pairwise.imp_of_mem ?_ hinv.ord
    intro r1 r2 h1 h2 hlt
    rcases hgap r1 h1 with ⟨ha1, ha2⟩ | ⟨ha1, ha2⟩ <;>
      rcases hgap r2 h2 with ⟨hb1, hb2⟩ | ⟨hb1, hb2⟩
    · rw [rangeShift_low (show r1.2 ≤ a from by omega),
        rangeShift_low (show r2.1 ≤ a from by omega)]
      exact hlt
    · rw [rangeShift_low (show r1.2 ≤ a from by omega),
        rangeShift_high hac hb1]
      omega
    · omega
    · rw [rangeShift_high hac (show c ≤ r1.2 from by omega),
        rangeShift_high hac hb1]
      omega
  · intro r' hr'
    rw [htags] at hr'
    obtain ⟨r, hr, rfl⟩ := List.mem_map.mp hr'
    rcases hgap r hr with ⟨h1, h2⟩ | ⟨h1, h2⟩
    · rw [rangeShift_low (show r.1 ≤ a from by omega),
        rangeShift_low (show r.2 ≤ a from by omega)]
      exact h1
    · rw [rangeShift_high hac h1, rangeShift_high hac (show c ≤ r.2 from by omega)]
      omega
  · intro r' hr'
    rw [htags] at hr'
    obtain ⟨r, hr, rfl⟩ := List.mem_map.mp hr'
    rcases hgap r hr with ⟨h1, h2⟩ | ⟨h1, h2⟩
    · rw [rangeShift_low (show r.2 ≤ a from by omega)]
      rw [charAt_deleteRange_low hac (by omega)]
      exact hinv.nlEnd r hr
    · rw [rangeShift_high hac (show c ≤ r.2 from by omega)]
      rw [charAt_deleteRange_high hac (by omega)]
      rw [show r.2 - (c - a) + (c - a) = r.2 from by omega]
      exact hinv.nlEnd r hr
  · intro r' hr'
    rw [htags] at hr'
    obtain ⟨r, hr, rfl⟩ := List.mem_map.mp hr'
    rcases hgap r hr with ⟨h1, h2⟩ | ⟨h1, h2⟩
    · rcases hinv.nlBefore r hr with h0 | hch
      · refine Or.inl ?_
        rw [rangeShift_low (show r.1 ≤ a from by omega), h0]
      · refine Or.inr ?_
        rw [rangeShift_low (show r.1 ≤ a from by omega)]
        rw [charAt_deleteRange_low hac (by omega)]
        exact hch
    · by_cases hr1c : r.1 = c
      · rw [rangeShift_high hac h1, hr1c, Nat.sub_sub_self hac]
        by_cases ha0 : a = 0
        · exact Or.inl ha0
        · rcases hstart with hns | h0 | hch
          · exact absurd hr1c (hns r hr)
          · exact absurd h0 ha0
          · refine Or.inr ?_
            rw [charAt_deleteRange_low hac (by omega)]
            exact hch
      · rw [rangeShift_high hac h1]
        rcases hinv.nlBefore r hr with h0 | hch
        · omega
        · refine Or.inr ?_
          rw [charAt_deleteRange_high hac (by omega)]
          rw [show r.1 - (c - a) - 1 + (c - a) = r.1 - 1 from by omega]
          exact hch

theorem pin_loop_stop {b : TextBuffer} {i2 cs : Nat} (h : i2 ≤ cs) (fuel : Nat) :
    pin_loop b i2 fuel cs = some [] := by
  cases fuel <;> simp [pin_loop, h]

theorem freePos_shift {B : TextBuffer} {a c cs' : Nat} (hac : a ≤ c)
    (hgap : ∀ r ∈ B.tags, (r.1 < r.2 ∧ r.2 < a) ∨ (c ≤ r.1 ∧ r.1 < r.2))
    (hcs : c ≤ cs') (hfree : freePos B cs') :
    freePos (deleteRange B a c) (cs' - (c - a)) := by
  intro r' hr'
  simp only [deleteRange] at hr'
  obtain ⟨r, hr, rfl⟩ := List.mem_map.mp hr'
  rcases hgap r hr with ⟨h1, h2⟩ | ⟨h1, h2⟩
  · refine Or.inl ?_
    rw [rangeShift_low (show r.2 ≤ a from by omega)]
    omega
  · rcases hfree r hr with h3 | h3
    · refine Or.inl ?_
      rw [rangeShift_high hac (show c ≤ r.2 from by omega)]
      omega
    · refine Or.inr ?_
      rw [rangeShift_high hac h1]
      omega

theorem del_false_inside {b : TextBuffer} (hinv : SealInv b) {s e p : Nat}
    (hmem : (s, e) ∈ b.tags) (h1 : s ≤ p) (h2 : p ≤ e) :
    _is_deletable_wo_preconditions b p = false := by
  rw [is_deletable_eq_amended hinv]
  exact (is_deletable_amended_false_iff b p).mpr ⟨(s, e), hmem, Or.inl ⟨h1, h2⟩⟩

theorem del_false_gap {b : TextBuffer} (hinv : SealInv b) {s e p : Nat}
    (hmem : (s, e) ∈ b.tags) (h1 : p + 1 = s) (h0 : ¬p = 0)
    (hch : ¬charAt b (p - 1) = '\n') :
    _is_deletable_wo_preconditions b p = false := by
  have hnl : charAt b p = '\n' := by
    rcases hinv.nlBefore (s, e) hmem with hz | hc
    · simp only at hz
      omega
    · simp only at hc
      rw [show p = s - 1 from by omega]
      exact hc
  rw [is_deletable_eq_amended hinv]
  exact (is_deletable_amended_false_iff b p).mpr
    ⟨(s, e), hmem, Or.inr (Or.inr ⟨hnl, h1, h0, hch⟩)⟩


theorem pin_naive : ∀ (fuel i2 : Nat) (B : TextBuffer) (cs : Nat) (R : List (Nat × Nat)),
    SealInv B → freePos B cs → pin_loop B i2 fuel cs = some R →
    naive_delete B cs i2 = applyDeletables B R := by
  intro fuel
  induction fuel with
  | zero =>
    intro i2 B cs R hinv hfree h
    simp only [pin_loop] at h
    by_cases hle : i2 ≤ cs
    · rw [if_pos hle] at h
      simp only [Option.some_inj] at h
      subst h
      rw [naive_delete_stop hle, applyDeletables_nil]
    · rw [if_neg hle] at h
      cases h
  | succ fuel ih =>
    intro i2 B cs R hinv hfree h
    by_cases hle : i2 ≤ cs
    · simp only [pin_loop] at h
      rw [if_pos hle] at h
      simp only [Option.some_inj] at h
      subst h
      rw [naive_delete_stop hle, applyDeletables_nil]
    · cases hn : tag_nextrange B.tags cs with
      | none =>
        simp only [pin_loop, hn] at h
        rw [if_neg hle] at h
        simp only [Option.some_inj] at h
        subst h
        have hbefore : ∀ r ∈ B.tags, r.1 < r.2 ∧ r.2 < cs := by
          intro r hr
          have h1 := tag_nextrange_none hn r hr
          rcases hfree r hr with h2 | h2
          · exact ⟨hinv.lt r hr, h2⟩
          · omega
        have htagsr : ∀ r ∈ B.tags, (r.1 < r.2 ∧ r.2 < cs) ∨
            (cs + (i2 - cs) ≤ r.1 ∧ r.1 < r.2) := fun r hr => Or.inl (hbefore r hr)
        have hlastr : (∀ r ∈ B.tags, r.1 ≠ cs + (i2 - cs)) ∨ cs = 0 ∨
            charAt B (cs - 1) = '\n' :=
          Or.inl (fun r hr => by have := hbefore r hr; omega)
        rw [naive_run (i2 - cs) B cs i2 (by omega) htagsr hlastr]
        rw [show cs + (i2 - cs) = i2 from by omega, show i2 - (i2 - cs) = cs from by omega]
        rw [naive_delete_stop (Nat.le_refl _)]
        rw [applyDeletables_cons, show ([] : List (Nat × Nat)).map
          (fun r => (rangeShift cs i2 r.1, rangeShift cs i2 r.2)) = [] from rfl,
          applyDeletables_nil]
      | some se =>
        obtain ⟨s, e⟩ := se
        obtain ⟨hmem, hges⟩ := tag_nextrange_mem hn
        have hse : s < e := hinv.lt (s, e) hmem
        have hmin := (tag_nextrange_min hinv.startSorted hn).2.2
        simp only [pin_loop, hn] at h
        rw [if_neg hle, if_neg (show ¬ s < cs from by omega),
          if_neg (show ¬ e + 1 ≤ cs from by omega)] at h
        cases hrest : pin_loop B i2 fuel (e + 1) with
        | none =>
          simp only [hrest] at h
          cases h
        | some rest =>
          simp only [hrest, Option.some_inj] at h
          subst h
          have hfreeE : freePos B (e + 1) := by
            intro r hr
            rcases pairwise_cases hinv.ord hr hmem with heq | hlt | hgt
            · rw [heq]
              exact Or.inl (by omega)
            · exact Or.inl (by omega)
            · exact Or.inr (by omega)
          by_cases hcss : cs = s
          · rw [if_pos hcss]
            rw [naive_delete_skip (e + 1 - cs) cs i2 (fun p hp1 hp2 =>
              del_false_inside hinv hmem (by omega) (by omega))]
            rw [show cs + (e + 1 - cs) = e + 1 from by omega, List.nil_append]
            exact ih i2 B (e + 1) rest hinv hfreeE hrest
          · rw [if_neg hcss]
            by_cases hi2s : i2 < s
            · rw [if_pos hi2s]
              have hrest0 : rest = [] := by
                have hs := pin_loop_stop (show i2 ≤ e + 1 from by omega) fuel (b := B)
                rw [hrest] at hs
                simpa using hs
              subst hrest0
              have htagsr : ∀ r ∈ B.tags, (r.1 < r.2 ∧ r.2 < cs) ∨
                  (cs + (i2 - cs) ≤ r.1 ∧ r.1 < r.2) := by
                intro r hr
                rcases hfree r hr with h2 | h2
                · exact Or.inl ⟨hinv.lt r hr, h2⟩
                · refine Or.inr ⟨?_, hinv.lt r hr⟩
                  have := hmin r hr h2
                  omega
              have hlastr : (∀ r ∈ B.tags, r.1 ≠ cs + (i2 - cs)) ∨ cs = 0 ∨
                  charAt B (cs - 1) = '\n' := by
                refine Or.inl ?_
                intro r hr
                rcases hfree r hr with h2 | h2
                · have := hinv.lt r hr
                  omega
                · have := hmin r hr h2
                  omega
              rw [naive_run (i2 - cs) B cs i2 (by omega) htagsr hlastr]
              rw [show cs + (i2 - cs) = i2 from by omega,
                show i2 - (i2 - cs) = cs from by omega]
              rw [naive_delete_stop (Nat.le_refl _)]
              rw [List.append_nil, applyDeletables_cons,
                show ([] : List (Nat × Nat)).map
                  (fun r => (rangeShift cs i2 r.1, rangeShift cs i2 r.2)) = [] from rfl,
                applyDeletables_nil]
            · rw [if_neg hi2s]
              have hgapcl : ∀ r ∈ B.tags, (r.1 < r.2 ∧ r.2 < cs) ∨
                  (s ≤ r.1 ∧ r.1 < r.2) := by
                intro r hr
                rcases hfree r hr with h2 | h2
                · exact Or.inl ⟨hinv.lt r hr, h2⟩
                · exact Or.inr ⟨hmin r hr h2, hinv.lt r hr⟩
              have hprops := (pin_loop_props hinv i2 fuel (e + 1) rest hrest).1
              have hrun_full : (cs = 0 ∨ charAt B (cs - 1) = '\n') →
                  naive_delete B cs i2 = applyDeletables B ([(cs, s)] ++ rest) := by
                intro hcond
                have htagsr : ∀ r ∈ B.tags, (r.1 < r.2 ∧ r.2 < cs) ∨
                    (cs + (s - cs) ≤ r.1 ∧ r.1 < r.2) := by
                  intro r hr
                  rcases hgapcl r hr with h2 | h2
                  · exact Or.inl h2
                  · exact Or.inr ⟨by omega, h2.2⟩
                have hlastr : (∀ r ∈ B.tags, r.1 ≠ cs + (s - cs)) ∨ cs = 0 ∨
                    charAt B (cs - 1) = '\n' := Or.inr hcond
                rw [naive_run (s - cs) B cs i2 (by omega) htagsr hlastr]
                rw [show cs + (s - cs) = s from by omega]
                have hinv2 : SealInv (deleteRange B cs s) :=
                  sealInv_deleteRange hinv (by omega) hgapcl (Or.inr hcond)
                have hmem2 : (cs, e - (s - cs)) ∈ (deleteRange B cs s).tags := by
                  simp only [deleteRange]
                  refine List.mem_map.mpr ⟨(s, e), hmem, ?_⟩
                  simp only
                  rw [rangeShift_high (show cs ≤ s from by omega) (Nat.le_refl s),
                    rangeShift_high (show cs ≤ s from by omega) (show s ≤ e from by omega),
                    show s - (s - cs) = cs from by omega]
                rw [naive_delete_skip (e - (s - cs) + 1 - cs) cs (i2 - (s - cs))
                  (fun p hp1 hp2 => del_false_inside hinv2 hmem2 (by omega) (by omega))]
                rw [show cs + (e - (s - cs) + 1 - cs) = e + 1 - (s - cs) from by omega]
                have hequiv := pin_loop_equiv (show cs ≤ s from by omega) hgapcl
                  (show s ≤ i2 from by omega) fuel (e + 1) rest
                  (show s < e + 1 from by omega) hrest
                have hfree2 : freePos (deleteRange B cs s) (e + 1 - (s - cs)) :=
                  freePos_shift (show cs ≤ s from by omega) hgapcl
                    (show s ≤ e + 1 from by omega) hfreeE
                rw [ih (i2 - (s - cs)) (deleteRange B cs s) (e + 1 - (s - cs)) _
                  hinv2 hfree2 hequiv]
                rw [List.singleton_append, applyDeletables_cons]
                refine congrArg (applyDeletables (deleteRange B cs s)) ?_
                refine (List.map_congr_left ?_).symm
                intro q hq
                have hqp := hprops q hq
                rw [rangeShift_high (show cs ≤ s from by omega)
                    (show s ≤ q.1 from by omega),
                  rangeShift_high (show cs ≤ s from by omega)
                    (show s ≤ q.2 from by omega)]
              by_cases hcs0 : cs = 0
              · rw [if_pos hcs0]
                exact hrun_full (Or.inl hcs0)
              · rw [if_neg hcs0]
                by_cases hnl : charAt B (cs - 1) = '\n'
                · rw [if_pos hnl]
                  exact hrun_full (Or.inr hnl)
                · rw [if_neg hnl]
                  by_cases hlt1 : cs < s - 1
                  · rw [if_pos hlt1]
                    have hgapcl' : ∀ r ∈ B.tags, (r.1 < r.2 ∧ r.2 < cs) ∨
                        (s - 1 ≤ r.1 ∧ r.1 < r.2) := by
                      intro r hr
                      rcases hgapcl r hr with h2 | h2
                      · exact Or.inl h2
                      · exact Or.inr ⟨by omega, h2.2⟩
                    have htagsr : ∀ r ∈ B.tags, (r.1 < r.2 ∧ r.2 < cs) ∨
                        (cs + (s - 1 - cs) ≤ r.1 ∧ r.1 < r.2) := by
                      intro r hr
                      rcases hgapcl r hr with h2 | h2
                      · exact Or.inl h2
                      · exact Or.inr ⟨by omega, h2.2⟩
                    have hlastr : (∀ r ∈ B.tags, r.1 ≠ cs + (s - 1 - cs)) ∨ cs = 0 ∨
                        charAt B (cs - 1) = '\n' := by
                      refine Or.inl ?_
                      intro r hr
                      rcases hgapcl r hr with h2 | h2 <;> omega
                    rw [naive_run (s - 1 - cs) B cs i2 (by omega) htagsr hlastr]
                    rw [show cs + (s - 1 - cs) = s - 1 from by omega]
                    have hstart' : (∀ r ∈ B.tags, r.1 ≠ s - 1) ∨ cs = 0 ∨
                        charAt B (cs - 1) = '\n' := by
                      refine Or.inl ?_
                      intro r hr
                      rcases hgapcl r hr with h2 | h2 <;> omega
                    have hinv2 : SealInv (deleteRange B cs (s - 1)) :=
                      sealInv_deleteRange hinv (by omega) hgapcl' hstart'
                    have hmem2 : (cs + 1, e - (s - 1 - cs)) ∈
                        (deleteRange B cs (s - 1)).tags := by
                      simp only [deleteRange]
                      refine List.mem_map.mpr ⟨(s, e), hmem, ?_⟩
                      simp only
                      rw [rangeShift_high (show cs ≤ s - 1 from by omega)
                          (show s - 1 ≤ s from by omega),
                        rangeShift_high (show cs ≤ s - 1 from by omega)
                          (show s - 1 ≤ e from by omega),
                        show s - (s - 1 - cs) = cs + 1 from by omega]
                    have hskipcond : ∀ p, cs ≤ p → p < cs + (e - (s - 1 - cs) + 1 - cs) →
                        _is_deletable_wo_preconditions (deleteRange B cs (s - 1)) p =
                          false := by
                      intro p hp1 hp2
                      by_cases hpcs : p = cs
                      · subst hpcs
                        refine del_false_gap hinv2 hmem2 (by omega) hcs0 ?_
                        rw [charAt_deleteRange_low (by omega) (by omega)]
                        exact hnl
                      · exact del_false_inside hinv2 hmem2 (by omega) (by omega)
                    rw [naive_delete_skip (e - (s - 1 - cs) + 1 - cs) cs
                      (i2 - (s - 1 - cs)) hskipcond]
                    rw [show cs + (e - (s - 1 - cs) + 1 - cs) =
                      e + 1 - (s - 1 - cs) from by omega]
                    have hequiv := pin_loop_equiv (show cs ≤ s - 1 from by omega) hgapcl'
                      (show s - 1 ≤ i2 from by omega) fuel (e + 1) rest
                      (show s - 1 < e + 1 from by omega) hrest
                    have hfree2 : freePos (deleteRange B cs (s - 1))
                        (e + 1 - (s - 1 - cs)) :=
                      freePos_shift (show cs ≤ s - 1 from by omega) hgapcl'
                        (show s - 1 ≤ e + 1 from by omega) hfreeE
                    rw [ih (i2 - (s - 1 - cs)) (deleteRange B cs (s - 1))
                      (e + 1 - (s - 1 - cs)) _ hinv2 hfree2 hequiv]
                    rw [List.singleton_append, applyDeletables_cons]
                    refine congrArg (applyDeletables (deleteRange B cs (s - 1))) ?_
                    refine (List.map_congr_left ?_).symm
                    intro q hq
                    have hqp := hprops q hq
                    rw [rangeShift_high (show cs ≤ s - 1 from by omega)
                        (show s - 1 ≤ q.1 from by omega),
                      rangeShift_high (show cs ≤ s - 1 from by omega)
                        (show s - 1 ≤ q.2 from by omega)]
                  · rw [if_neg hlt1]
                    have hskipcond : ∀ p, cs ≤ p → p < cs + (e + 1 - cs) →
                        _is_deletable_wo_preconditions B p = false := by
                      intro p hp1 hp2
                      by_cases hpcs : p = cs
                      · subst hpcs
                        exact del_false_gap hinv hmem (by omega) hcs0 hnl
                      · exact del_false_inside hinv hmem (by omega) (by omega)
                    rw [naive_delete_skip (e + 1 - cs) cs i2 hskipcond]
                    rw [show cs + (e + 1 - cs) = e + 1 from by omega, List.nil_append]
                    exact ih i2 B (e + 1) rest hinv hfreeE hrest

theorem delete_equiv_main {b : TextBuffer} (hinv : SealInv b) (i1 i2 : Nat) (h12 : i1 < i2) :
    delete_the_deletables b i1 i2 = some (naive_delete b i1 i2) := by
  simp only [delete_the_deletables, pin_deletable_ranges]
  by_cases hsp : i2 = i1 + 1
  · rw [if_pos hsp]
    by_cases hd : _is_deletable_wo_preconditions b i1 = true
    · rw [if_pos hd]
      simp only [Option.map_some', Option.some_inj]
      rw [applyDeletables_cons, show ([] : List (Nat × Nat)).map
        (fun r => (rangeShift i1 i2 r.1, rangeShift i1 i2 r.2)) = [] from rfl,
        applyDeletables_nil]
      rw [naive_delete_del_one h12 hd, naive_delete_stop (by omega), deleteCharAt_eq]
      rw [hsp]
    · rw [if_neg hd]
      have hd' : _is_deletable_wo_preconditions b i1 = false := by
        simpa using hd
      simp only [Option.map_some', Option.some_inj]
      rw [applyDeletables_nil]
      rw [naive_delete_skip_one h12 hd', naive_delete_stop (by omega)]
  · rw [if_neg hsp]
    cases hp : tag_prevrange b.tags i1 with
    | none =>
      show Option.map (applyDeletables b) (pin_loop b i2 (i2 + 1) i1) =
        some (naive_delete b i1 i2)
      have hfree : freePos b i1 := fun r hr => Or.inr (tag_prevrange_none hp r hr)
      have hsome := pin_loop_some hinv i2 (i2 + 1) i1 (by omega)
      cases hR : pin_loop b i2 (i2 + 1) i1 with
      | none =>
        rw [hR] at hsome
        cases hsome
      | some R =>
        simp only [Option.map_some', Option.some_inj]
        exact (pin_naive (i2 + 1) i2 b i1 R hinv hfree hR).symm
    | some se =>
      obtain ⟨s0, e0⟩ := se
      obtain ⟨hmem0, hlt0, hmax0⟩ := tag_prevrange_max hinv.startSorted hp
      show Option.map (applyDeletables b) (if i2 ≤ e0 + 1 then some [] else
        if i1 ≤ e0 then pin_loop b i2 (i2 + 1) (e0 + 1) else pin_loop b i2 (i2 + 1) i1) =
        some (naive_delete b i1 i2)
      by_cases hc1 : i2 ≤ e0 + 1
      · rw [if_pos hc1]
        simp only [Option.map_some', Option.some_inj]
        rw [applyDeletables_nil]
        rw [naive_delete_skip (i2 - i1) i1 i2 (fun p hp1 hp2 =>
          del_false_inside hinv hmem0 (by omega) (by omega))]
        rw [show i1 + (i2 - i1) = i2 from by omega, naive_delete_stop (Nat.le_refl _)]
      · rw [if_neg hc1]
        by_cases hc2 : i1 ≤ e0
        · rw [if_pos hc2]
          have hfree : freePos b (e0 + 1) := by
            intro r hr
            rcases pairwise_cases hinv.ord hr hmem0 with heq | hlt | hgt
            · rw [heq]
              exact Or.inl (by omega)
            · exact Or.inl (by omega)
            · exact Or.inr (by omega)
          have hsome := pin_loop_some hinv i2 (i2 + 1) (e0 + 1) (by omega)
          cases hR : pin_loop b i2 (i2 + 1) (e0 + 1) with
          | none =>
            rw [hR] at hsome
            cases hsome
          | some R =>
            simp only [Option.map_some', Option.some_inj]
            have hskip : naive_delete b i1 i2 = naive_delete b (e0 + 1) i2 := by
              rw [naive_delete_skip (e0 + 1 - i1) i1 i2 (fun p hp1 hp2 =>
                del_false_inside hinv hmem0 (by omega) (by omega))]
              rw [show i1 + (e0 + 1 - i1) = e0 + 1 from by omega]
            rw [hskip]
            exact (pin_naive (i2 + 1) i2 b (e0 + 1) R hinv hfree hR).symm
        · rw [if_neg hc2]
          have hfree : freePos b i1 := by
            intro r hr
            by_cases hri : r.1 < i1
            · refine Or.inl ?_
              have hrs := hmax0 r hr hri
              rcases pairwise_cases hinv.ord hr hmem0 with heq | hlt | hgt
              · rw [heq]
                omega
              · omega
              · have := hinv.lt (s0, e0) hmem0
                omega
            · exact Or.inr (by omega)
          have hsome := pin_loop_some hinv i2 (i2 + 1) i1 (by omega)
          cases hR : pin_loop b i2 (i2 + 1) i1 with
          | none =>
            rw [hR] at hsome
            cases hsome
          | some R =>
            simp only [Option.map_some', Option.some_inj]
            exact (pin_naive (i2 + 1) i2 b i1 R hinv hfree hR).symm

/-- C1: under `check_tags`, deleting what `pin_deletable_ranges` pins (as
`delete_the_deletables` does, with pending ranges shifting like tkinter
tags) produces exactly the buffer — same text and same tagged ranges —
that the naive character-by-character deletion over `[i1, i2)` produces,
where the naive walk deletes each deletable character in place and skips
each non-deletable one. -/
theorem C1_deletion_equivalence (b : TextBuffer) (h : check_tags b = none)
    (i1 i2 : Nat) (h12 : i1 < i2) :
    delete_the_deletables b i1 i2 = some (naive_delete b i1 i2) :=
  delete_equiv_main (seal_inv_of_check_tags h) i1 i2 h12

/-- C1 witness: on the demo buffer with one sealed block, deleting the pinned
ranges over the full interval agrees with the naive character-by-character walk. -/
theorem C1_deletion_equivalence_witness :
    delete_the_deletables demoBuffer2 0 35 = some (naive_delete demoBuffer2 0 35) :=
  C1_deletion_equivalence demoBuffer2 (by decide) 0 35 (by decide)
